import Mathlib

/-!
A shallow embedding of the `primesieve` crate (segmented sieve of Eratosthenes
with a wheel-30 bit-packed representation), together with proofs about the
properties of its public interface.

Conventions used throughout:

* Rust `u64` values are modelled as `Nat`.  All arithmetic performed by the
  program on reachable inputs stays strictly below `2 ^ 64` (buffers of
  `2 ^ 61` bytes cannot be allocated), so plain `Nat` arithmetic coincides
  with `u64` arithmetic on every input the program can actually process.
  Where a fact genuinely depends on the 64-bit width (bit masks, popcounts),
  hypotheses of the form `w < 2 ^ 64` appear explicitly.
* A `&[u64]` slice is a `List Nat`; reads that would panic when out of
  bounds are modelled with `Option`-returning lookups in the public query
  layer (`none` models a panic), and with `List.getD _ 0` inside the sieve
  construction, where every access is within bounds.
* Rust `while` loops are modelled by structural recursion on an explicit
  fuel argument; the fuel passed by each caller is large enough that it is
  never exhausted on the loops the program actually runs (each loop body
  strictly increases a quantity bounded by the fuel).
-/

namespace Primesieve

/-- The wheel modulus: each 64-bit word of a packed segment covers 240
consecutive integers (`segment.rs`, `MODULUS`). -/
def MODULUS : Nat := 240

/-- Number of set bits among the low 64 bits, processed least-significant
first; models `u64::count_ones` for words below `2 ^ 64`. -/
def popCountAux : Nat → Nat → Nat
  | 0, _ => 0
  | f + 1, w => w % 2 + popCountAux f (w / 2)

/-- Models `u64::count_ones`. -/
def count_ones (w : Nat) : Nat := popCountAux 64 w

/-- Number of trailing zero bits among the low 64 bits; models
`u64::trailing_zeros` (which returns 64 on input 0). -/
def ctzAux : Nat → Nat → Nat
  | 0, _ => 0
  | f + 1, w => if w % 2 = 1 then 0 else ctzAux f (w / 2) + 1

/-- Models `u64::trailing_zeros`. -/
def trailing_zeros (w : Nat) : Nat := ctzAux 64 w

/-- The table `POS` from `segment.rs::index_for`: for each residue
`idx % 240` it gives whether the index is representable (not divisible by
2, 3 or 5) and the bit mask used for it inside the 64-bit word. -/
def POS : List (Bool × Nat) :=
  [
    (false, 1 <<< 0), (true, 1 <<< 0), (false, 1 <<< 1), (false, 1 <<< 1),
    (false, 1 <<< 1), (false, 1 <<< 1), (false, 1 <<< 1), (true, 1 <<< 1),
    (false, 1 <<< 2), (false, 1 <<< 2), (false, 1 <<< 2), (true, 1 <<< 2),
    (false, 1 <<< 3), (true, 1 <<< 3), (false, 1 <<< 4), (false, 1 <<< 4),
    (false, 1 <<< 4), (true, 1 <<< 4), (false, 1 <<< 5), (true, 1 <<< 5),
    (false, 1 <<< 6), (false, 1 <<< 6), (false, 1 <<< 6), (true, 1 <<< 6),
    (false, 1 <<< 7), (false, 1 <<< 7), (false, 1 <<< 7), (false, 1 <<< 7),
    (false, 1 <<< 7), (true, 1 <<< 7), (false, 1 <<< 8), (true, 1 <<< 8),
    (false, 1 <<< 9), (false, 1 <<< 9), (false, 1 <<< 9), (false, 1 <<< 9),
    (false, 1 <<< 9), (true, 1 <<< 9), (false, 1 <<< 10), (false, 1 <<< 10),
    (false, 1 <<< 10), (true, 1 <<< 10), (false, 1 <<< 11), (true, 1 <<< 11),
    (false, 1 <<< 12), (false, 1 <<< 12), (false, 1 <<< 12), (true, 1 <<< 12),
    (false, 1 <<< 13), (true, 1 <<< 13), (false, 1 <<< 14), (false, 1 <<< 14),
    (false, 1 <<< 14), (true, 1 <<< 14), (false, 1 <<< 15), (false, 1 <<< 15),
    (false, 1 <<< 15), (false, 1 <<< 15), (false, 1 <<< 15), (true, 1 <<< 15),
    (false, 1 <<< 16), (true, 1 <<< 16), (false, 1 <<< 17), (false, 1 <<< 17),
    (false, 1 <<< 17), (false, 1 <<< 17), (false, 1 <<< 17), (true, 1 <<< 17),
    (false, 1 <<< 18), (false, 1 <<< 18), (false, 1 <<< 18), (true, 1 <<< 18),
    (false, 1 <<< 19), (true, 1 <<< 19), (false, 1 <<< 20), (false, 1 <<< 20),
    (false, 1 <<< 20), (true, 1 <<< 20), (false, 1 <<< 21), (true, 1 <<< 21),
    (false, 1 <<< 22), (false, 1 <<< 22), (false, 1 <<< 22), (true, 1 <<< 22),
    (false, 1 <<< 23), (false, 1 <<< 23), (false, 1 <<< 23), (false, 1 <<< 23),
    (false, 1 <<< 23), (true, 1 <<< 23), (false, 1 <<< 24), (true, 1 <<< 24),
    (false, 1 <<< 25), (false, 1 <<< 25), (false, 1 <<< 25), (false, 1 <<< 25),
    (false, 1 <<< 25), (true, 1 <<< 25), (false, 1 <<< 26), (false, 1 <<< 26),
    (false, 1 <<< 26), (true, 1 <<< 26), (false, 1 <<< 27), (true, 1 <<< 27),
    (false, 1 <<< 28), (false, 1 <<< 28), (false, 1 <<< 28), (true, 1 <<< 28),
    (false, 1 <<< 29), (true, 1 <<< 29), (false, 1 <<< 30), (false, 1 <<< 30),
    (false, 1 <<< 30), (true, 1 <<< 30), (false, 1 <<< 31), (false, 1 <<< 31),
    (false, 1 <<< 31), (false, 1 <<< 31), (false, 1 <<< 31), (true, 1 <<< 31),
    (false, 1 <<< 32), (true, 1 <<< 32), (false, 1 <<< 33), (false, 1 <<< 33),
    (false, 1 <<< 33), (false, 1 <<< 33), (false, 1 <<< 33), (true, 1 <<< 33),
    (false, 1 <<< 34), (false, 1 <<< 34), (false, 1 <<< 34), (true, 1 <<< 34),
    (false, 1 <<< 35), (true, 1 <<< 35), (false, 1 <<< 36), (false, 1 <<< 36),
    (false, 1 <<< 36), (true, 1 <<< 36), (false, 1 <<< 37), (true, 1 <<< 37),
    (false, 1 <<< 38), (false, 1 <<< 38), (false, 1 <<< 38), (true, 1 <<< 38),
    (false, 1 <<< 39), (false, 1 <<< 39), (false, 1 <<< 39), (false, 1 <<< 39),
    (false, 1 <<< 39), (true, 1 <<< 39), (false, 1 <<< 40), (true, 1 <<< 40),
    (false, 1 <<< 41), (false, 1 <<< 41), (false, 1 <<< 41), (false, 1 <<< 41),
    (false, 1 <<< 41), (true, 1 <<< 41), (false, 1 <<< 42), (false, 1 <<< 42),
    (false, 1 <<< 42), (true, 1 <<< 42), (false, 1 <<< 43), (true, 1 <<< 43),
    (false, 1 <<< 44), (false, 1 <<< 44), (false, 1 <<< 44), (true, 1 <<< 44),
    (false, 1 <<< 45), (true, 1 <<< 45), (false, 1 <<< 46), (false, 1 <<< 46),
    (false, 1 <<< 46), (true, 1 <<< 46), (false, 1 <<< 47), (false, 1 <<< 47),
    (false, 1 <<< 47), (false, 1 <<< 47), (false, 1 <<< 47), (true, 1 <<< 47),
    (false, 1 <<< 48), (true, 1 <<< 48), (false, 1 <<< 49), (false, 1 <<< 49),
    (false, 1 <<< 49), (false, 1 <<< 49), (false, 1 <<< 49), (true, 1 <<< 49),
    (false, 1 <<< 50), (false, 1 <<< 50), (false, 1 <<< 50), (true, 1 <<< 50),
    (false, 1 <<< 51), (true, 1 <<< 51), (false, 1 <<< 52), (false, 1 <<< 52),
    (false, 1 <<< 52), (true, 1 <<< 52), (false, 1 <<< 53), (true, 1 <<< 53),
    (false, 1 <<< 54), (false, 1 <<< 54), (false, 1 <<< 54), (true, 1 <<< 54),
    (false, 1 <<< 55), (false, 1 <<< 55), (false, 1 <<< 55), (false, 1 <<< 55),
    (false, 1 <<< 55), (true, 1 <<< 55), (false, 1 <<< 56), (true, 1 <<< 56),
    (false, 1 <<< 57), (false, 1 <<< 57), (false, 1 <<< 57), (false, 1 <<< 57),
    (false, 1 <<< 57), (true, 1 <<< 57), (false, 1 <<< 58), (false, 1 <<< 58),
    (false, 1 <<< 58), (true, 1 <<< 58), (false, 1 <<< 59), (true, 1 <<< 59),
    (false, 1 <<< 60), (false, 1 <<< 60), (false, 1 <<< 60), (true, 1 <<< 60),
    (false, 1 <<< 61), (true, 1 <<< 61), (false, 1 <<< 62), (false, 1 <<< 62),
    (false, 1 <<< 62), (true, 1 <<< 62), (false, 1 <<< 63), (false, 1 <<< 63),
    (false, 1 <<< 63), (false, 1 <<< 63), (false, 1 <<< 63), (true, 1 <<< 63)
  ]

/-- Models `segment.rs::index_for`: `(representable, word index, bit mask)`. -/
def index_for (idx : Nat) : Bool × Nat × Nat :=
  let byte := idx / MODULUS
  let byte_idx := POS.getD (idx % MODULUS) (false, 0)
  (byte_idx.1, byte, byte_idx.2)

/-- Models `segment.rs::get`.  Returns `none` when the word index is out of
bounds of the slice (which would be a panic in Rust); non-representable
indices return `false` without touching the slice, exactly as the source
does. -/
def seg_get (segment : List Nat) (idx : Nat) : Option Bool :=
  match index_for idx with
  | (false, _, _) => some false
  | (true, x, y) => (segment.get? x).map (fun w => decide (w &&& y ≠ 0))

/-- Models `segment.rs::set_off` (used only with in-bounds indices by the
sieve construction; `List.set` is the identity out of bounds). -/
def set_off (segment : List Nat) (idx : Nat) : List Nat :=
  match index_for idx with
  | (false, _, _) => segment
  | (true, x, y) => segment.set x (segment.getD x 0 &&& ((2 ^ 64 - 1) ^^^ y))

/-- Models `segment.rs::set_on`. -/
def set_on (segment : List Nat) (idx : Nat) : List Nat :=
  match index_for idx with
  | (false, _, _) => segment
  | (true, x, y) => segment.set x (segment.getD x 0 ||| y)

/-- The table `OFFSETS` from `iterator.rs`: the value encoded by bit `b` of
a word is `240 * wordIndex + OFFSETS[b]`. -/
def OFFSETS : List Nat :=
  [1, 7, 11, 13, 17, 19, 23, 29,
   31, 37, 41, 43, 47, 49, 53, 59,
   61, 67, 71, 73, 77, 79, 83, 89,
   91, 97, 101, 103, 107, 109, 113, 119,
   121, 127, 131, 133, 137, 139, 143, 149,
   151, 157, 161, 163, 167, 169, 173, 179,
   181, 187, 191, 193, 197, 199, 203, 209,
   211, 217, 221, 223, 227, 229, 233, 239]

/-- The state of `iterator.rs::SieveIterator`: the partially consumed
current word, the numeric base of that word, and its index in the slice.
The borrowed slice itself is passed separately to every operation, because
in `segsieve.rs::small_primes` the iterator deliberately aliases a buffer
that is mutated while the iterator is alive. -/
structure IterState where
  current : Nat
  base : Nat
  curr_idx : Nat
  deriving DecidableEq

/-- Models `SieveIterator::new`. -/
def initState (sieve : List Nat) : IterState :=
  { current := sieve.headD 0, base := 0, curr_idx := 0 }

/-- The scan loop inside `SieveIterator::next`: starting at slice index `j`,
walk forward looking for a nonzero word, adding 240 to `base` for every
examined word; `idx0` is the unchanged `curr_idx` reported when no nonzero
word remains.  Fuel `sieve.length` always suffices since `j` only grows. -/
def scanGo (sieve : List Nat) : Nat → Nat → Nat → Nat → IterState
  | 0, _, base, idx0 => { current := 0, base := base, curr_idx := idx0 }
  | f + 1, j, base, idx0 =>
    if j < sieve.length then
      let w := sieve.getD j 0
      if w ≠ 0 then { current := w, base := base + MODULUS, curr_idx := j }
      else scanGo sieve f (j + 1) (base + MODULUS) idx0
    else { current := 0, base := base, curr_idx := idx0 }

/-- Models `SieveIterator::next` as a pure step function on the iterator
state, reading the (possibly mutated) backing slice afresh. -/
def iterNext (sieve : List Nat) (st : IterState) : Option (Nat × IterState) :=
  let st1 :=
    if st.current = 0 then scanGo sieve sieve.length (st.curr_idx + 1) st.base st.curr_idx
    else st
  if st1.current = 0 then none
  else
    let bit := trailing_zeros st1.current
    some (st1.base + OFFSETS.getD bit 0,
          { st1 with current := st1.current &&& (st1.current - 1) })

/-- Runs the iterator to exhaustion, collecting all yielded values.  The
callers pass fuel exceeding the maximal number of yields (popcount of the
slice), so the fuel is never exhausted. -/
def iterRunAux : Nat → List Nat → IterState → List Nat
  | 0, _, _ => []
  | f + 1, sieve, st =>
    match iterNext sieve st with
    | none => []
    | some (x, st3) => x :: iterRunAux f sieve st3

/-- Models `Iterator::nth` (0-indexed) on a `SieveIterator`. -/
def iterNth (sieve : List Nat) : IterState → Nat → Option Nat
  | st, 0 => (iterNext sieve st).map (fun p => p.1)
  | st, m + 1 =>
    match iterNext sieve st with
    | none => none
    | some (_, st3) => iterNth sieve st3 m

/-- Models `wheel.rs::Wheel30`. -/
structure Wheel30 where
  curr_ix : Nat
  diffs : List Nat
  deriving DecidableEq

/-- The match on `mult % 30` in `Wheel30::new`.  The wildcard arm is
`unreachable!()` in the source; it is never hit because every caller passes
a multiple coprime to 30, and we give it an arbitrary value. -/
def wheelIndex (mult : Nat) : Nat :=
  match mult % 30 with
  | 1 => 7
  | 7 => 0
  | 11 => 1
  | 13 => 2
  | 17 => 3
  | 19 => 4
  | 23 => 5
  | 29 => 6
  | _ => 0

/-- Models `Wheel30::new`. -/
def Wheel30.new (num mult : Nat) : Wheel30 :=
  { curr_ix := wheelIndex mult,
    diffs := [6 * num, 4 * num, 2 * num, 4 * num, 2 * num, 4 * num, 6 * num, 2 * num] }

/-- Models `Wheel30::next_diff`: advance the cyclic index (wrapping at 8),
then return the difference at the new index, together with the new state. -/
def Wheel30.next_diff (w : Wheel30) : Nat × Wheel30 :=
  let ix := if w.curr_ix + 1 = 8 then 0 else w.curr_ix + 1
  (w.diffs.getD ix 0, { w with curr_ix := ix })

/-- The crossing loop of `segsieve.rs::small_primes`:
`while multiple < bound { set_off(sieve, multiple); multiple += wheel.next_diff() }`.
The fuel passed by the caller (`bound`) suffices because every difference
produced by a wheel built from a decoded prime is at least 2. -/
def crossOffBelow : Nat → List Nat → Nat → Nat → Wheel30 → List Nat
  | 0, sieve, _, _, _ => sieve
  | f + 1, sieve, mult, bound, wh =>
    if mult < bound then
      let step := wh.next_diff
      crossOffBelow f (set_off sieve mult) (mult + step.1) bound step.2
    else sieve

/-- The main loop of `segsieve.rs::small_primes`.  The iterator deliberately
aliases the buffer being mutated: `iterNext` reads the updated buffer, while
the `current` field of the state keeps the stale snapshot of the word it was
loaded from, which is exactly what the unsafe aliasing in the source
produces.  Fuel `64 * len + 1` exceeds the maximal number of yields. -/
def smallPrimesLoop : Nat → List Nat → IterState → Nat → List Nat
  | 0, sieve, _, _ => sieve
  | f + 1, sieve, st, small_limit =>
    match iterNext sieve st with
    | none => sieve
    | some (p, st3) =>
      if small_limit ≤ p * p then sieve
      else
        smallPrimesLoop f
          (crossOffBelow small_limit sieve (p * p) small_limit (Wheel30.new p p))
          st3 small_limit

/-- The corrected first word assigned in `small_primes`: ones exactly at the
bits of the true primes below 240. -/
def FIRST_WORD : Nat :=
  0b1111100100111101110110111011011001111110111011111101111111111110

/-- Largest `r` with `r ≤ fuel` and `r * r ≤ n` (0 when none). -/
def sqrtAux : Nat → Nat → Nat
  | 0, _ => 0
  | f + 1, n => if (f + 1) * (f + 1) ≤ n then f + 1 else sqrtAux f n

/-- Floor square root; models the source's `(limit as f64).sqrt() as u64`,
with which it agrees on every limit the program can process. -/
def nat_sqrt (n : Nat) : Nat := sqrtAux n n

/-- Models `segsieve.rs::small_primes`. -/
def small_primes (limit : Nat) : List Nat :=
  let sqrt := nat_sqrt limit
  let len := sqrt / MODULUS + 1
  let sieve := (List.replicate len (2 ^ 64 - 1)).set 0 FIRST_WORD
  smallPrimesLoop (64 * len + 1) sieve (initState sieve) (MODULUS * len)

/-- The inner crossing loop of `segsieve.rs::segmented_sieve`:
`while *index < segment_size { set_off(segment, *index); *index += wheel.next_diff() }`,
returning the buffer, the final index and the final wheel state.  Fuel
`size + 1` suffices because each step advances the index by at least 2. -/
def crossSeg : Nat → Nat → List Nat → Nat → Wheel30 → List Nat × Nat × Wheel30
  | 0, _, seg, index, wh => (seg, index, wh)
  | f + 1, size, seg, index, wh =>
    if index < size then
      let step := wh.next_diff
      crossSeg f size (set_off seg index) (index + step.1) step.2
    else (seg, index, wh)

/-- The `for &mut (ref mut index, ref mut wheel) in &mut next_indices` loop:
cross off every tracked prime in the current segment, then rebase each
stored index by `segment_size` for the next segment. -/
def crossAll (size : Nat) : List Nat → List (Nat × Wheel30) → List Nat × List (Nat × Wheel30)
  | seg, [] => (seg, [])
  | seg, (index, wh) :: rest =>
    let r1 := crossSeg (size + 1) size seg index wh
    let r2 := crossAll size r1.1 rest
    (r2.1, (r1.2.1 - size, r1.2.2) :: r2.2)

/-- The `while let Some(prime) = small_primes_iter.next()` loop of
`segmented_sieve`: pull sieving primes, pushing `(p * p - low, wheel)` for
each, until one with `p * p >= high` has been pushed (or the iterator is
exhausted).  Returns the pushed pairs and the iterator state. -/
def pullPrimes : Nat → List Nat → IterState → Nat → Nat → List (Nat × Wheel30) × IterState
  | 0, _, st, _, _ => ([], st)
  | f + 1, sp, st, low, high =>
    match iterNext sp st with
    | none => ([], st)
    | some (p, st3) =>
      if high ≤ p * p then ([(p * p - low, Wheel30.new p p)], st3)
      else
        let r := pullPrimes f sp st3 low high
        ((p * p - low, Wheel30.new p p) :: r.1, r.2)

/-- The segment loop of `segmented_sieve` (`while low <= lim`), carrying the
iterator state, the tracked `(index, wheel)` pairs, the scratch segment
buffer and the accumulated output.  The scratch buffer is replaced by a
fresh all-ones buffer after every pass, exactly as in the source. -/
def segLoop (segLen : Nat) (lim : Nat) (sp : List Nat) :
    Nat → IterState → List (Nat × Wheel30) → Nat → List Nat → List Nat → List Nat
  | 0, _, _, _, _, acc => acc
  | f + 1, st, tracked, low, seg, acc =>
    if low ≤ lim then
      let segSize := MODULUS * segLen
      let high := min (low + segSize) lim
      let size := high - low
      let pulled := pullPrimes (64 * sp.length + 1) sp st low high
      let crossed := crossAll size seg (tracked ++ pulled.1)
      let acc2 := acc ++ (if size < segSize then crossed.1.take (size / MODULUS) else crossed.1)
      segLoop segLen lim sp f pulled.2 crossed.2 (low + segSize)
        (List.replicate segLen (2 ^ 64 - 1)) acc2
    else acc

/-- Models `segsieve.rs::segmented_sieve`, generalized over the segment
length in words (the source fixes `SEGMENT_LEN = 32768`); the generalization
is used to state that segment chunking does not change the result. -/
def segmentedSieveWith (segLen : Nat) (limit : Nat) : List Nat :=
  let lim := limit + MODULUS - limit % MODULUS
  let sp := small_primes lim
  segLoop segLen lim sp (lim / (MODULUS * segLen) + 2) (initState sp) [] 0
    ((List.replicate segLen (2 ^ 64 - 1)).set 0 ((2 ^ 64 - 1) ^^^ 1)) []

/-- Models `segsieve.rs::segmented_sieve` with the source's segment length. -/
def segmented_sieve (limit : Nat) : List Nat := segmentedSieveWith 32768 limit

/-- The running prime-count accumulation in `Sieve::to_limit`:
`count += num.count_ones(); counts.push(count)`. -/
def countsGo : List Nat → Nat → List Nat
  | [], _ => []
  | w :: ws, c => (c + count_ones w) :: countsGo ws (c + count_ones w)

/-- The `counts` vector stored by `Sieve::to_limit` (`sieve/mod.rs`). -/
def countsList (store : List Nat) : List Nat := countsGo store 0

/-- Models `Sieve::limit` (`sieve/mod.rs`): `MODULUS * primes.len()`. -/
def sieve_limit (store : List Nat) : Nat := MODULUS * store.length

/-- Models `Sieve::num_primes` (`sieve/mod.rs`):
`counts[counts.len() - 1]`; `none` models the panic on an empty store. -/
def num_primes (store : List Nat) : Option Nat := (countsList store).getLast?

/-- The yield sequence of the inner `iterator.rs::SieveIterator` over a
fixed store.  The fuel exceeds the maximal number of yields for stores of
64-bit words. -/
def sieveIterList (store : List Nat) : List Nat :=
  iterRunAux (64 * store.length + 65) store (initState store)

/-- The yield sequence of `Sieve::iter` (`sieve/mod.rs::SieveIterator`):
the small primes 2, 3, 5 from the `SmallPrime` state machine, then the
values decoded from the packed store. -/
def iterList (store : List Nat) : List Nat := 2 :: 3 :: 5 :: sieveIterList store

/-- Models `u64::saturating_mul`. -/
def satMul (a b : Nat) : Nat := min (a * b) (2 ^ 64 - 1)

/-- The loop of `Sieve::trial_division` (`sieve/primefuncs.rs`) over the
iterator's yields. -/
def trialAux (n : Nat) : List Nat → Bool
  | [] => true
  | p :: ps =>
    if n < satMul p p then true
    else if n % p = 0 then false
    else trialAux n ps

/-- Models `Sieve::trial_division`. -/
def trial_division (store : List Nat) (n : Nat) : Bool := trialAux n (iterList store)

/-- Models `Sieve::is_prime` (`sieve/primefuncs.rs`, the variant returning
`Result<bool, ()>`).  The outer `Option` models panic-freedom: `none` would
be an out-of-bounds slice access inside `segment::get`. -/
def is_prime (store : List Nat) (n : Nat) : Option (Except Unit Bool) :=
  if n = 2 ∨ n = 3 ∨ n = 5 then some (Except.ok true)
  else if n < sieve_limit store then (seg_get store n).map Except.ok
  else if n ≤ satMul (sieve_limit store) (sieve_limit store) then
    some (Except.ok (trial_division store n))
  else some (Except.error ())

/-- The binary search over the sorted `counts` vector
(`<[usize]>::binary_search`, modelled from its documented contract as the
classic halving search; the subsequent duplicate-skipping loop in
`nth_prime` makes the result independent of which matching index a correct
search returns).  `Except.error i` is `Err(i)`, the insertion point. -/
def binSearch (a : List Nat) (k : Nat) : Nat → Nat → Nat → Except Nat Nat
  | 0, lo, _ => Except.error lo
  | f + 1, lo, hi =>
    if lo < hi then
      let mid := (lo + hi) / 2
      let v := a.getD mid 0
      if v < k then binSearch a k f (mid + 1) hi
      else if k < v then binSearch a k f lo mid
      else Except.ok mid
    else Except.error lo

/-- The duplicate-skipping loop in `Sieve::nth_prime`:
`while counts[x] == k { x += 1 }`; `none` models the panic of an
out-of-bounds read. -/
def advancePast (counts : List Nat) (k : Nat) : Nat → Nat → Option Nat
  | 0, _ => none
  | f + 1, x =>
    match counts.get? x with
    | none => none
    | some c => if c = k then advancePast counts k f (x + 1) else some x

/-- The index computation of `Sieve::nth_prime`: binary search for `k`
followed by the duplicate-skipping normalization. -/
def searchIdx (counts : List Nat) (k : Nat) : Option Nat :=
  match binSearch counts k (counts.length + 1) 0 counts.length with
  | Except.error x => some x
  | Except.ok x => advancePast counts k (counts.length + 1) x

/-- Models `Sieve::nth_prime` (`sieve/mod.rs`, the variant returning
`Option<u64>`).  The outer `Option` models panic-freedom (`none` would be
an out-of-bounds index or a failing `unwrap`), the inner `Option` is the
source's return type. -/
def nth_prime_found (store : List Nat) (k idx : Nat) : Option (Option Nat) :=
  match (countsList store).get? idx, store.get? idx with
  | some c, some w =>
    let count := c - count_ones w
    match iterNth [w] (initState [w]) (k - count) with
    | some v => some (some (MODULUS * idx + v))
    | none => none
  | _, _ => none

def nth_prime_search (store : List Nat) (n : Nat) : Option (Option Nat) :=
  match num_primes store with
  | none => none
  | some np =>
    if n < np then
      let k := n - 3
      match searchIdx (countsList store) k with
      | none => none
      | some idx => nth_prime_found store k idx
    else some none

def nth_prime (store : List Nat) (n : Nat) : Option (Option Nat) :=
  match n with
  | 0 => some (some 2)
  | 1 => some (some 3)
  | 2 => some (some 5)
  | _ => nth_prime_search store n

/-- The successive differences produced by `n` calls to `next_diff` on a
wheel. -/
def nextDiffs (w : Wheel30) : Nat → List Nat
  | 0 => []
  | n + 1 =>
    let s := w.next_diff
    s.1 :: nextDiffs s.2 n

/-- The state of a wheel after `k` calls to `next_diff`. -/
def stepWheel (w : Wheel30) : Nat → Wheel30
  | 0 => w
  | k + 1 => (stepWheel w k).next_diff.2

/-- The running multiple generated by a wheel built by `Wheel30.new num mult`
(whose starting multiple is `num * mult`, as in the crate every wheel is
created via `Wheel30::new(prime, prime)` with starting multiple `prime²`):
the value after `k` calls to `next_diff`, each added cumulatively. -/
def wheelAcc (num mult : Nat) : Nat → Nat × Wheel30
  | 0 => (num * mult, Wheel30.new num mult)
  | k + 1 =>
    let p := wheelAcc num mult k
    let s := p.2.next_diff
    (p.1 + s.1, s.2)

/-- The multiple reached after `k` steps of the wheel. -/
def wheelSeq (num mult : Nat) (k : Nat) : Nat := (wheelAcc num mult k).1

/-- Specification-side gap table: for a residue `r` coprime to 30, the
distance from `r` to the next integer coprime to 30. -/
def gapOf (r : Nat) : Nat :=
  match r with
  | 1 => 6
  | 7 => 4
  | 11 => 2
  | 13 => 4
  | 17 => 2
  | 19 => 4
  | 23 => 6
  | 29 => 2
  | _ => 1

/-- Specification-side successor: the next integer coprime to 30 after `m`
(meaningful when `m` itself is coprime to 30). -/
def nextCop (m : Nat) : Nat := m + gapOf (m % 30)

/-- Iterated `nextCop`. -/
def iterCop (m : Nat) : Nat → Nat
  | 0 => m
  | k + 1 => nextCop (iterCop m k)

/-- The per-word decode loop of `SieveIterator::next`: repeatedly extract
the lowest set bit (via `trailing_zeros`), clear it with
`current &= current - 1`, and emit `base + OFFSETS[bit]`.  Fuel 64 suffices
for any 64-bit word. -/
def decodeWordL : Nat → Nat → Nat → List Nat
  | 0, _, _ => []
  | f + 1, w, base =>
    if w = 0 then []
    else (base + OFFSETS.getD (trailing_zeros w) 0) :: decodeWordL f (w &&& (w - 1)) base

/-- The full decode of a packed store starting at numeric base `base`:
word `i` contributes its decoded values offset by `base + 240 * i`. -/
def decodeFrom : List Nat → Nat → List Nat
  | [], _ => []
  | w :: ws, base => decodeWordL 64 w base ++ decodeFrom ws (base + MODULUS)

/-- The indices of the set bits of `w` among the low 64, in increasing
order. -/
def bitsOf (w : Nat) : List Nat := (List.range 64).filter (fun b => w.testBit b)

/-- The list of values a `SieveIterator` in state `st` over `sieve` has yet
to yield: the rest of its current word, then everything decoded from the
later words. -/
def iterRest (sieve : List Nat) (st : IterState) : List Nat :=
  decodeWordL 64 st.current st.base
    ++ decodeFrom (sieve.drop (st.curr_idx + 1)) (st.base + MODULUS)

/-- Termination measure for the iterator: strictly decreases at every
yield. -/
def iterMeasure (sieve : List Nat) (st : IterState) : Nat :=
  64 * (sieve.length - st.curr_idx) + (bitsOf st.current).length

/-- The number of set bits among the first `i` words of a store. -/
def prefixPop (store : List Nat) (i : Nat) : Nat :=
  ((store.take i).map count_ones).sum

/-- The crossing-index stream of a wheel: the pair (index, wheel state)
after `n` calls to `next_diff`, each added to the index.  This is the
specification-side denotation used to state that segment chunking does not
change which indices get crossed off. -/
def advance (idx : Nat) (wh : Wheel30) : Nat → Nat × Wheel30
  | 0 => (idx, wh)
  | n + 1 => advance (idx + wh.next_diff.1) wh.next_diff.2 n

/-- Well-formedness of a wheel state: the cyclic index is in range and
every stored difference is at least 2 (true of every wheel the sieve
builds, since the base is a prime at least 7). -/
def WheelOK (wh : Wheel30) : Prop :=
  wh.curr_ix < 8 ∧ wh.diffs.length = 8 ∧ ∀ d ∈ wh.diffs, 2 ≤ d

/-- `x` is crossed off by the wheel of the sieving prime `p`: it appears in
the index stream started at `p * p` with the wheel `Wheel30::new(p, p)`. -/
def Crossed (p x : Nat) : Prop :=
  ∃ n, (advance (p * p) (Wheel30.new p p) n).1 = x

/-- `x` is crossed off by some prime decoded from the small-primes store
`sp` (specification side). -/
def CrossSetP (sp : List Nat) (x : Nat) : Prop :=
  ∃ p ∈ decodeFrom sp 0, Crossed p x

/-- The bit the freshly initialised sieve buffer stores for global index
`x`: every representable index starts `true` except 1, whose bit the
constructor clears before sieving. -/
def initBitGet (x : Nat) : Option Bool :=
  if (POS.getD (x % 240) (false, 0)).1 then
    (if x = 1 then some false else some true)
  else some false

/-- The tracked `(index, wheel)` entry for sieving prime `p` when the
segment starting at `low` is about to be crossed: the stream of `p` has
been advanced past every index below `low` and rebased to the segment. -/
def EntryAt (low p : Nat) (pr : Nat × Wheel30) : Prop :=
  ∃ n, pr = ((advance (p * p) (Wheel30.new p p) n).1 - low,
        (advance (p * p) (Wheel30.new p p) n).2)
    ∧ low ≤ (advance (p * p) (Wheel30.new p p) n).1
    ∧ ∀ m, m < n → (advance (p * p) (Wheel30.new p p) m).1 < low

-- ===================== THEOREMS =====================

/-- Coprimality to 30 only depends on the residue modulo 30. -/
theorem coprime30_mod (m : Nat) : Nat.Coprime m 30 ↔ Nat.gcd (m % 30) 30 = 1 := by
  unfold Nat.Coprime
  rw [Nat.gcd_comm m 30, Nat.gcd_rec]

theorem coprime30_cases (m : Nat) (h : Nat.Coprime m 30) :
    m % 30 = 1 ∨ m % 30 = 7 ∨ m % 30 = 11 ∨ m % 30 = 13 ∨
    m % 30 = 17 ∨ m % 30 = 19 ∨ m % 30 = 23 ∨ m % 30 = 29 := by
  have hlt : m % 30 < 30 := Nat.mod_lt _ (by norm_num)
  have hg : Nat.gcd (m % 30) 30 = 1 := (coprime30_mod m).mp h
  revert hg
  have hall : ∀ r, r < 30 → Nat.gcd r 30 = 1 →
      r = 1 ∨ r = 7 ∨ r = 11 ∨ r = 13 ∨ r = 17 ∨ r = 19 ∨ r = 23 ∨ r = 29 := by decide
  exact hall _ hlt

theorem gapOf_pos (r : Nat) : 0 < gapOf r := by
  unfold gapOf
  split <;> norm_num

theorem nextCop_gt (m : Nat) : m < nextCop m :=
  Nat.lt_add_of_pos_right (gapOf_pos _)

theorem nextCop_coprime (m : Nat) (h : Nat.Coprime m 30) : Nat.Coprime (nextCop m) 30 := by
  rw [coprime30_mod]
  have hall : ∀ x < 30, Nat.gcd x 30 = 1 → Nat.gcd ((x + gapOf x) % 30) 30 = 1 := by decide
  have hm : nextCop m % 30 = (m % 30 + gapOf (m % 30)) % 30 := by
    unfold nextCop
    omega
  rw [hm]
  exact hall (m % 30) (by omega) ((coprime30_mod m).mp h)

theorem notCoprime_of_mod (j : Nat) (h : Nat.gcd (j % 30) 30 ≠ 1) : ¬ Nat.Coprime j 30 :=
  fun hc => h ((coprime30_mod j).mp hc)

theorem nextCop_least (m : Nat) (h : Nat.Coprime m 30) :
    ∀ j, m < j → j < nextCop m → ¬ Nat.Coprime j 30 := by
  intro j hj1 hj2
  apply notCoprime_of_mod
  have hall : ∀ x < 30, Nat.gcd x 30 = 1 → ∀ t < gapOf x, 0 < t →
      Nat.gcd ((x + t) % 30) 30 ≠ 1 := by decide
  have hj : j % 30 = (m % 30 + (j - m)) % 30 := by omega
  rw [hj]
  have hg : j - m < gapOf (m % 30) := by
    unfold nextCop at hj2
    omega
  exact hall (m % 30) (by omega) ((coprime30_mod m).mp h) (j - m) hg (by omega)

theorem wheel_step (num m : Nat) (h : Nat.Coprime m 30) :
    Wheel30.next_diff
        { curr_ix := wheelIndex m,
          diffs := [6 * num, 4 * num, 2 * num, 4 * num, 2 * num, 4 * num, 6 * num, 2 * num] } =
      (gapOf (m % 30) * num,
       { curr_ix := wheelIndex (nextCop m),
         diffs := [6 * num, 4 * num, 2 * num, 4 * num, 2 * num, 4 * num, 6 * num, 2 * num] }) := by
  have hnc : nextCop m % 30 = (m % 30 + gapOf (m % 30)) % 30 := by
    unfold nextCop
    omega
  rcases coprime30_cases m h with hr | hr | hr | hr | hr | hr | hr | hr <;>
    (rw [hr] at hnc; simp [wheelIndex, hr, hnc, gapOf, Wheel30.next_diff])

theorem iterCop_coprime (m : Nat) (h : Nat.Coprime m 30) (k : Nat) :
    Nat.Coprime (iterCop m k) 30 := by
  induction k with
  | zero => exact h
  | succ k ih => exact nextCop_coprime _ ih

theorem iterCop_shift (m : Nat) (k : Nat) : iterCop (nextCop m) k = iterCop m (k + 1) := by
  induction k with
  | zero => rfl
  | succ k ih =>
    show nextCop (iterCop (nextCop m) k) = nextCop (iterCop m (k + 1))
    rw [ih]

theorem iterCop_complete :
    ∀ d m y, Nat.Coprime m 30 → Nat.Coprime y 30 → m ≤ y → y - m ≤ d →
      ∃ k, iterCop m k = y := by
  intro d
  induction d with
  | zero =>
    intro m y _ _ hle hd
    exact ⟨0, by show m = y; omega⟩
  | succ d ih =>
    intro m y hm hy hle hd
    by_cases he : y = m
    · exact ⟨0, by show m = y; omega⟩
    · have h1 : m < y := by omega
      have h2 : nextCop m ≤ y := by
        by_contra hlt
        exact nextCop_least m hm y h1 (by omega) hy
      obtain ⟨k, hk⟩ := ih (nextCop m) y (nextCop_coprime m hm) hy h2
        (by have := nextCop_gt m; omega)
      exact ⟨k + 1, by rw [← iterCop_shift]; exact hk⟩

theorem wheelAcc_eq (num mult : Nat) (h : Nat.Coprime mult 30) (k : Nat) :
    wheelAcc num mult k =
      (num * iterCop mult k,
       { curr_ix := wheelIndex (iterCop mult k),
         diffs := [6 * num, 4 * num, 2 * num, 4 * num, 2 * num, 4 * num, 6 * num, 2 * num] }) := by
  induction k with
  | zero => rfl
  | succ k ih =>
    have hc : Nat.Coprime (iterCop mult k) 30 := iterCop_coprime mult h k
    show (let p := wheelAcc num mult k
          let s := p.2.next_diff
          ((p.1 + s.1 : Nat), s.2)) = _
    rw [ih]
    simp only
    rw [wheel_step num _ hc]
    show (num * iterCop mult k + gapOf (iterCop mult k % 30) * num, _) = _
    have hv : num * iterCop mult k + gapOf (iterCop mult k % 30) * num
        = num * iterCop mult (k + 1) := by
      show _ = num * nextCop (iterCop mult k)
      unfold nextCop
      ring
    rw [hv]
    rfl

theorem wheelSeq_eq (num mult : Nat) (h : Nat.Coprime mult 30) (k : Nat) :
    wheelSeq num mult k = num * iterCop mult k := by
  unfold wheelSeq
  rw [wheelAcc_eq num mult h k]

/-- C8: for every wheel built from a base `num` and starting multiple
`num * mult` coprime to 30 (every wheel in the crate is built as
`Wheel30::new(p, p)` with starting multiple `p * p`), the running values
obtained by cumulatively adding the successive `next_diff` outputs to the
starting multiple enumerate exactly the increasing sequence of multiples of
`num` that are coprime to 30, with no omissions or repeats; and the wheel
whose starting multiple is 77 (base 7, built from `Wheel30::new(7, 11)`)
yields the successive gaps 14, 28, 14, 28, 42, 14, 42, 28, 14. -/
theorem wheel_enumerates_multiples (num mult : Nat)
    (h : Nat.Coprime (num * mult) 30) :
    wheelSeq num mult 0 = num * mult
    ∧ (∀ k, wheelSeq num mult k < wheelSeq num mult (k + 1))
    ∧ (∀ k, num ∣ wheelSeq num mult k ∧ Nat.Coprime (wheelSeq num mult k) 30)
    ∧ (∀ x, num ∣ x → Nat.Coprime x 30 → num * mult ≤ x → ∃ k, wheelSeq num mult k = x)
    ∧ nextDiffs (Wheel30.new 7 11) 9 = [14, 28, 14, 28, 42, 14, 42, 28, 14] := by
  have hnum : Nat.Coprime num 30 := Nat.Coprime.coprime_dvd_left (dvd_mul_right num mult) h
  have hmult : Nat.Coprime mult 30 := Nat.Coprime.coprime_dvd_left (dvd_mul_left mult num) h
  have hpos : 0 < num := by
    rcases Nat.eq_zero_or_pos num with h0 | h0
    · subst h0
      simp [Nat.Coprime] at h
    · exact h0
  refine ⟨rfl, ?_, ?_, ?_, by decide⟩
  · intro k
    rw [wheelSeq_eq num mult hmult k, wheelSeq_eq num mult hmult (k + 1)]
    have : iterCop mult k < iterCop mult (k + 1) := nextCop_gt _
    exact Nat.mul_lt_mul_of_le_of_lt (Nat.le_refl num) this hpos
  · intro k
    rw [wheelSeq_eq num mult hmult k]
    exact ⟨dvd_mul_right _ _, Nat.Coprime.mul hnum (iterCop_coprime mult hmult k)⟩
  · intro x hdvd hx hge
    obtain ⟨y, hy⟩ := hdvd
    have hycop : Nat.Coprime y 30 := Nat.Coprime.coprime_dvd_left ⟨num, by rw [hy]; ring⟩ hx
    have hylow : mult ≤ y := Nat.le_of_mul_le_mul_left (by rw [hy] at hge; exact hge) hpos
    obtain ⟨k, hk⟩ := iterCop_complete (y - mult) mult y hmult hycop hylow (Nat.le_refl _)
    exact ⟨k, by rw [wheelSeq_eq num mult hmult k, hk, hy]⟩

/-- C8 witness: the theorem instantiated at the wheel of base 7 and
starting multiple 77. -/
theorem wheel_enumerates_multiples_witness :
    Nat.Coprime (7 * 11) 30
    ∧ (wheelSeq 7 11 0 = 7 * 11
       ∧ (∀ k, wheelSeq 7 11 k < wheelSeq 7 11 (k + 1))
       ∧ (∀ k, 7 ∣ wheelSeq 7 11 k ∧ Nat.Coprime (wheelSeq 7 11 k) 30)
       ∧ (∀ x, 7 ∣ x → Nat.Coprime x 30 → 7 * 11 ≤ x → ∃ k, wheelSeq 7 11 k = x)
       ∧ nextDiffs (Wheel30.new 7 11) 9 = [14, 28, 14, 28, 42, 14, 42, 28, 14]) :=
  ⟨by decide, wheel_enumerates_multiples 7 11 (by decide)⟩

theorem wheelIndex_lt (m : Nat) : wheelIndex m < 8 := by
  unfold wheelIndex
  split <;> norm_num

theorem stepWheel_shape (num mult k : Nat) :
    (stepWheel (Wheel30.new num mult) k).curr_ix < 8
    ∧ (stepWheel (Wheel30.new num mult) k).diffs =
        [6 * num, 4 * num, 2 * num, 4 * num, 2 * num, 4 * num, 6 * num, 2 * num] := by
  induction k with
  | zero => exact ⟨wheelIndex_lt mult, rfl⟩
  | succ k ih =>
    obtain ⟨h1, h2⟩ := ih
    constructor
    · show (Wheel30.next_diff _).2.curr_ix < 8
      unfold Wheel30.next_diff
      simp only
      split <;> omega
    · show (Wheel30.next_diff _).2.diffs = _
      unfold Wheel30.next_diff
      simpa using h2

theorem nextDiffs_sum_eight (num : Nat) :
    ∀ ix < 8,
      (nextDiffs
        { curr_ix := ix,
          diffs := [6 * num, 4 * num, 2 * num, 4 * num, 2 * num, 4 * num, 6 * num, 2 * num] }
        8).sum = 30 * num := by
  intro ix hix
  interval_cases ix <;> (simp [nextDiffs, Wheel30.next_diff]; ring)

/-- C10: at any point in the lifetime of any wheel built by `Wheel30::new`,
the sum of the next 8 values returned by `next_diff` is `30 * num`: one
full cycle of the gap table `[6,4,2,4,2,4,6,2]` scaled by `num`. -/
theorem wheel_cycle_sum (num mult k : Nat) :
    (nextDiffs (stepWheel (Wheel30.new num mult) k) 8).sum = 30 * num := by
  obtain ⟨h1, h2⟩ := stepWheel_shape num mult k
  have := nextDiffs_sum_eight num (stepWheel (Wheel30.new num mult) k).curr_ix h1
  rw [← h2] at this
  exact this

/-- C9: for every sieve, however small its store, `nth_prime` returns the
determined values 2, 3 and 5 at indices 0, 1 and 2 directly, without
consulting the store or `num_primes`, and never the absent result. -/
theorem nth_prime_small_direct (store : List Nat) :
    nth_prime store 0 = some (some 2)
    ∧ nth_prime store 1 = some (some 3)
    ∧ nth_prime store 2 = some (some 5) :=
  ⟨rfl, rfl, rfl⟩

theorem and_two_pow_ne_zero (w b : Nat) : w &&& 2 ^ b ≠ 0 ↔ Nat.testBit w b = true := by
  constructor
  · intro h
    obtain ⟨i, hi⟩ := Nat.ne_zero_implies_bit_true h
    rw [Nat.testBit_and, Nat.testBit_two_pow] at hi
    simp only [Bool.and_eq_true, decide_eq_true_eq] at hi
    rw [hi.2]
    exact hi.1
  · intro h h0
    have hbit : Nat.testBit (w &&& 2 ^ b) b = true := by
      rw [Nat.testBit_and, Nat.testBit_two_pow]
      simp [h]
    rw [h0] at hbit
    simp at hbit

theorem decide_and_two_pow (w b : Nat) : decide (w &&& 2 ^ b ≠ 0) = Nat.testBit w b := by
  by_cases h : w &&& 2 ^ b ≠ 0
  · rw [(and_two_pow_ne_zero w b).mp h, decide_eq_true_eq.mpr h]
  · have ht : Nat.testBit w b ≠ true := fun hc => h ((and_two_pow_ne_zero w b).mpr hc)
    simp only [Bool.not_eq_true] at ht
    rw [ht]
    simp [h]

theorem get?_eq_some_getD (l : List Nat) (n : Nat) (h : n < l.length) :
    l.get? n = some (l.getD n 0) := by
  rw [List.getD_eq_get?]
  cases hc : l.get? n with
  | none =>
    rw [List.get?_eq_none] at hc
    omega
  | some v => rfl

set_option maxRecDepth 4000 in
theorem POS_repr : ∀ r ∈ List.range 240,
    (POS.getD r (false, 0)).1 = decide (Nat.gcd r 30 = 1) := by decide

set_option maxRecDepth 4000 in
theorem POS_mask : ∀ r ∈ List.range 240, (POS.getD r (false, 0)).1 = true →
    ∃ b ∈ List.range 64, OFFSETS.getD b 0 = r ∧ (POS.getD r (false, 0)).2 = 2 ^ b := by decide

theorem index_for_eq (idx : Nat) :
    index_for idx =
      ((POS.getD (idx % 240) (false, 0)).1, idx / 240, (POS.getD (idx % 240) (false, 0)).2) := rfl

theorem seg_get_not_repr (seg : List Nat) (idx : Nat)
    (h : (POS.getD (idx % 240) (false, 0)).1 = false) : seg_get seg idx = some false := by
  unfold seg_get
  rw [index_for_eq, h]

theorem seg_get_repr (seg : List Nat) (idx : Nat)
    (h : (POS.getD (idx % 240) (false, 0)).1 = true) :
    seg_get seg idx =
      (seg.get? (idx / 240)).map
        (fun w => decide (w &&& (POS.getD (idx % 240) (false, 0)).2 ≠ 0)) := by
  unfold seg_get
  rw [index_for_eq, h]

theorem set_on_not_repr (seg : List Nat) (idx : Nat)
    (h : (POS.getD (idx % 240) (false, 0)).1 = false) : set_on seg idx = seg := by
  unfold set_on
  rw [index_for_eq, h]

theorem set_on_repr (seg : List Nat) (idx : Nat)
    (h : (POS.getD (idx % 240) (false, 0)).1 = true) :
    set_on seg idx =
      seg.set (idx / 240) (seg.getD (idx / 240) 0 ||| (POS.getD (idx % 240) (false, 0)).2) := by
  unfold set_on
  rw [index_for_eq, h]

theorem set_off_not_repr (seg : List Nat) (idx : Nat)
    (h : (POS.getD (idx % 240) (false, 0)).1 = false) : set_off seg idx = seg := by
  unfold set_off
  rw [index_for_eq, h]

theorem set_off_repr (seg : List Nat) (idx : Nat)
    (h : (POS.getD (idx % 240) (false, 0)).1 = true) :
    set_off seg idx =
      seg.set (idx / 240)
        (seg.getD (idx / 240) 0 &&& ((2 ^ 64 - 1) ^^^ (POS.getD (idx % 240) (false, 0)).2)) := by
  unfold set_off
  rw [index_for_eq, h]

theorem POS_mask_of_repr (idx : Nat) (h : (POS.getD (idx % 240) (false, 0)).1 = true) :
    ∃ b, b < 64 ∧ OFFSETS.getD b 0 = idx % 240 ∧ (POS.getD (idx % 240) (false, 0)).2 = 2 ^ b := by
  have hr : idx % 240 < 240 := Nat.mod_lt _ (by norm_num)
  obtain ⟨b, hb, h1, h2⟩ := POS_mask (idx % 240) (List.mem_range.mpr hr) h
  exact ⟨b, List.mem_range.mp hb, h1, h2⟩

theorem testBit_off_mask (b i : Nat) (hb : b < 64) (hi : i < 64) :
    Nat.testBit ((2 ^ 64 - 1) ^^^ 2 ^ b) i = decide (b ≠ i) := by
  rw [Nat.testBit_xor, Nat.testBit_two_pow_sub_one, Nat.testBit_two_pow]
  by_cases h : b = i <;> simp [h, hi]

theorem seg_get_set (seg : List Nat) (x v j : Nat) (hx : x < seg.length) :
    seg_get (seg.set x v) j =
      if (POS.getD (j % 240) (false, 0)).1 = true ∧ j / 240 = x then
        some (decide (v &&& (POS.getD (j % 240) (false, 0)).2 ≠ 0))
      else seg_get seg j := by
  by_cases hf : (POS.getD (j % 240) (false, 0)).1 = true
  · rw [seg_get_repr _ _ hf, seg_get_repr _ _ hf]
    by_cases hw : j / 240 = x
    · rw [hw, List.get?_set_eq_of_lt v hx, if_pos (And.intro hf rfl)]
      rfl
    · rw [List.get?_set_ne v seg (Ne.symm hw), if_neg (fun hcc => hw hcc.2)]
  · simp only [Bool.not_eq_true] at hf
    rw [seg_get_not_repr _ _ hf, seg_get_not_repr _ _ hf,
      if_neg (fun hcc => by rw [hf] at hcc; exact Bool.false_ne_true hcc.1)]

theorem div_mod_240_inj {i j : Nat} (hw : j / 240 = i / 240) (hr : j % 240 = i % 240) :
    j = i := by omega

/-- C7: behaviour of the packed-segment codec at any in-range index.  If the
residue of `idx` modulo 240 is not coprime to 30 then `get` returns `false`
and `set_on`, `set_off` leave the segment unchanged; otherwise the bit is
the one selected by word `idx / 240` and the residue-to-mask table, and
`set_on`/`set_off` change exactly that bit, leaving every other stored bit
unchanged. -/
theorem segment_codec_spec (seg : List Nat) (idx : Nat) (hin : idx / 240 < seg.length) :
    (Nat.gcd (idx % 240) 30 ≠ 1 →
      seg_get seg idx = some false ∧ set_on seg idx = seg ∧ set_off seg idx = seg)
    ∧ (Nat.gcd (idx % 240) 30 = 1 →
      ∃ b, b < 64 ∧ OFFSETS.getD b 0 = idx % 240
        ∧ seg_get seg idx = some (Nat.testBit (seg.getD (idx / 240) 0) b)
        ∧ (∀ j, seg_get (set_on seg idx) j =
            if j = idx then some true else seg_get seg j)
        ∧ (∀ j, seg_get (set_off seg idx) j =
            if j = idx then some false else seg_get seg j)) := by
  have hr240 : idx % 240 < 240 := Nat.mod_lt _ (by norm_num)
  have hflag := POS_repr (idx % 240) (List.mem_range.mpr hr240)
  constructor
  · intro hnc
    have hf : (POS.getD (idx % 240) (false, 0)).1 = false := by
      rw [hflag]
      simp [hnc]
    exact ⟨seg_get_not_repr seg idx hf, set_on_not_repr seg idx hf, set_off_not_repr seg idx hf⟩
  · intro hc
    have hf : (POS.getD (idx % 240) (false, 0)).1 = true := by
      rw [hflag]
      simp [hc]
    obtain ⟨b, hb64, hoff, hmask⟩ := POS_mask_of_repr idx hf
    refine ⟨b, hb64, hoff, ?_, ?_, ?_⟩
    · rw [seg_get_repr _ _ hf, get?_eq_some_getD seg _ hin, hmask]
      exact congrArg some (decide_and_two_pow _ b)
    · intro j
      rw [set_on_repr _ _ hf, seg_get_set seg _ _ j hin]
      by_cases hj : j = idx
      · subst hj
        rw [if_pos (And.intro hf rfl), if_pos rfl, hmask]
        have hbit : Nat.testBit (seg.getD (j / 240) 0 ||| 2 ^ b) b = true := by
          rw [Nat.testBit_or, Nat.testBit_two_pow]
          simp
        rw [decide_and_two_pow, hbit]
      · rw [if_neg hj]
        by_cases hcond : (POS.getD (j % 240) (false, 0)).1 = true ∧ j / 240 = idx / 240
        · obtain ⟨hjf, hjw⟩ := hcond
          obtain ⟨b2, hb264, hoff2, hmask2⟩ := POS_mask_of_repr j hjf
          have hbne : b ≠ b2 := by
            intro hbe
            apply hj
            apply div_mod_240_inj hjw
            rw [← hoff2, ← hoff, hbe]
          rw [if_pos (And.intro hjf hjw), hmask, hmask2, decide_and_two_pow,
            Nat.testBit_or, Nat.testBit_two_pow, decide_eq_false hbne, Bool.or_false]
          rw [seg_get_repr _ _ hjf, hjw, get?_eq_some_getD seg _ hin, hmask2]
          exact (congrArg some (decide_and_two_pow _ b2)).symm
        · rw [if_neg hcond]
    · intro j
      rw [set_off_repr _ _ hf, seg_get_set seg _ _ j hin]
      by_cases hj : j = idx
      · subst hj
        rw [if_pos (And.intro hf rfl), if_pos rfl, hmask]
        have hbit : Nat.testBit (seg.getD (j / 240) 0 &&& ((2 ^ 64 - 1) ^^^ 2 ^ b)) b = false := by
          rw [Nat.testBit_and, testBit_off_mask b b hb64 hb64]
          simp
        rw [decide_and_two_pow, hbit]
      · rw [if_neg hj]
        by_cases hcond : (POS.getD (j % 240) (false, 0)).1 = true ∧ j / 240 = idx / 240
        · obtain ⟨hjf, hjw⟩ := hcond
          obtain ⟨b2, hb264, hoff2, hmask2⟩ := POS_mask_of_repr j hjf
          have hbne : b ≠ b2 := by
            intro hbe
            apply hj
            apply div_mod_240_inj hjw
            rw [← hoff2, ← hoff, hbe]
          rw [if_pos (And.intro hjf hjw), hmask, hmask2, decide_and_two_pow,
            Nat.testBit_and, testBit_off_mask b b2 hb64 hb264, decide_eq_true hbne,
            Bool.and_true]
          rw [seg_get_repr _ _ hjf, hjw, get?_eq_some_getD seg _ hin, hmask2]
          exact (congrArg some (decide_and_two_pow _ b2)).symm
        · rw [if_neg hcond]

/-- C7 witness: the codec theorem instantiated at a one-word segment and
index 7 (representable, in range). -/
theorem segment_codec_spec_witness :
    (7 : Nat) / 240 < ([0] : List Nat).length
    ∧ ((Nat.gcd (7 % 240) 30 ≠ 1 →
        seg_get [0] 7 = some false ∧ set_on [0] 7 = [0] ∧ set_off [0] 7 = [0])
      ∧ (Nat.gcd (7 % 240) 30 = 1 →
        ∃ b, b < 64 ∧ OFFSETS.getD b 0 = 7 % 240
          ∧ seg_get [0] 7 = some (Nat.testBit (([0] : List Nat).getD (7 / 240) 0) b)
          ∧ (∀ j, seg_get (set_on [0] 7) j =
              if j = 7 then some true else seg_get [0] j)
          ∧ (∀ j, seg_get (set_off [0] 7) j =
              if j = 7 then some false else seg_get [0] j))) :=
  ⟨by decide, segment_codec_spec [0] 7 (by decide)⟩

theorem ctzAux_spec : ∀ f w, w ≠ 0 → w < 2 ^ f →
    Nat.testBit w (ctzAux f w) = true ∧ ∀ i, i < ctzAux f w → Nat.testBit w i = false := by
  intro f
  induction f with
  | zero =>
    intro w h0 hw
    interval_cases w
    simp at h0
  | succ f ih =>
    intro w h0 hw
    by_cases hp : w % 2 = 1
    · rw [show ctzAux (f + 1) w = 0 by unfold ctzAux; rw [if_pos hp]]
      refine ⟨by simp [hp], fun i hi => by omega⟩
    · have hc : ctzAux (f + 1) w = ctzAux f (w / 2) + 1 := by
        simp only [ctzAux]
        rw [if_neg hp]
      have h20 : w / 2 ≠ 0 := by omega
      have h2w : w / 2 < 2 ^ f := by
        rw [Nat.pow_succ] at hw
        omega
      obtain ⟨ih1, ih2⟩ := ih (w / 2) h20 h2w
      refine ⟨?_, ?_⟩
      · rw [hc, Nat.testBit_add_one]
        exact ih1
      · intro i hi
        match i with
        | 0 =>
          have hw0 : w % 2 = 0 := by omega
          exact Nat.mod_two_eq_zero_iff_testBit_zero.mp hw0
        | i + 1 =>
          rw [Nat.testBit_add_one]
          exact ih2 i (by omega)

theorem trailing_zeros_spec (w : Nat) (h0 : w ≠ 0) (hw : w < 2 ^ 64) :
    Nat.testBit w (trailing_zeros w) = true
    ∧ ∀ i, i < trailing_zeros w → Nat.testBit w i = false :=
  ctzAux_spec 64 w h0 hw

theorem trailing_zeros_lt (w : Nat) (h0 : w ≠ 0) (hw : w < 2 ^ 64) :
    trailing_zeros w < 64 := by
  by_contra hge
  have := (trailing_zeros_spec w h0 hw).1
  rw [Nat.testBit_lt_two_pow (Nat.lt_of_lt_of_le hw (Nat.pow_le_pow_right (by norm_num) (by omega)))] at this
  exact Bool.false_ne_true this

theorem testBit_and_pred (w : Nat) (h0 : w ≠ 0) (hw : w < 2 ^ 64) (i : Nat) :
    Nat.testBit (w &&& (w - 1)) i
      = (Nat.testBit w i && decide (i ≠ trailing_zeros w)) := by
  obtain ⟨hc1, hc2⟩ := trailing_zeros_spec w h0 hw
  set c := trailing_zeros w with hcdef
  have hmod : w % 2 ^ (c + 1) = 2 ^ c := by
    apply Nat.eq_of_testBit_eq
    intro j
    rw [Nat.testBit_mod_two_pow, Nat.testBit_two_pow]
    rcases Nat.lt_trichotomy j c with hj | hj | hj
    · rw [hc2 j hj]
      simp [Nat.ne_of_gt hj]
    · subst hj
      simp [hc1]
    · have : ¬ (j < c + 1) := by omega
      simp [this, Nat.ne_of_lt hj]
  have h2c : 0 < 2 ^ c := Nat.two_pow_pos c
  have hcc : 2 ^ c < 2 ^ (c + 1) := by
    rw [Nat.pow_succ]
    omega
  have hq : w = 2 ^ (c + 1) * (w / 2 ^ (c + 1)) + 2 ^ c := by
    conv_lhs => rw [← Nat.div_add_mod w (2 ^ (c + 1))]
    rw [hmod]
  have hw1 : w - 1 = 2 ^ (c + 1) * (w / 2 ^ (c + 1)) + (2 ^ c - 1) := by omega
  have hbw : Nat.testBit w i
      = if i < c + 1 then Nat.testBit (2 ^ c) i
        else Nat.testBit (w / 2 ^ (c + 1)) (i - (c + 1)) := by
    conv_lhs => rw [hq]
    exact Nat.testBit_mul_pow_two_add _ hcc i
  have hbw1 : Nat.testBit (w - 1) i
      = if i < c + 1 then Nat.testBit (2 ^ c - 1) i
        else Nat.testBit (w / 2 ^ (c + 1)) (i - (c + 1)) := by
    rw [hw1]
    exact Nat.testBit_mul_pow_two_add _ (by omega) i
  rw [Nat.testBit_and, hbw, hbw1]
  rcases Nat.lt_trichotomy i c with hi | hi | hi
  · have hi1 : i < c + 1 := by omega
    rw [if_pos hi1, if_pos hi1, Nat.testBit_two_pow]
    simp [Nat.ne_of_gt hi]
  · subst hi
    rw [if_pos (Nat.lt_succ_self c), if_pos (Nat.lt_succ_self c),
      Nat.testBit_two_pow_sub_one]
    simp
  · have hi1 : ¬ (i < c + 1) := by omega
    rw [if_neg hi1, if_neg hi1]
    simp [Nat.ne_of_gt hi, Bool.and_self]

theorem and_pred_lt (w : Nat) (h0 : w ≠ 0) : w &&& (w - 1) < w :=
  Nat.lt_of_le_of_lt Nat.and_le_right (by omega)

theorem bitsOf_zero : bitsOf 0 = [] := by
  unfold bitsOf
  simp

theorem bitsOf_eq_cons (w : Nat) (h0 : w ≠ 0) (hw : w < 2 ^ 64) :
    bitsOf w = trailing_zeros w :: bitsOf (w &&& (w - 1)) := by
  obtain ⟨hc1, hc2⟩ := trailing_zeros_spec w h0 hw
  have hc64 : trailing_zeros w < 64 := trailing_zeros_lt w h0 hw
  set c := trailing_zeros w with hcdef
  unfold bitsOf
  have hsplit : (64 : Nat) = (c + 1) + (63 - c) := by omega
  rw [hsplit, List.range_add, List.filter_append, List.filter_append,
    List.range_succ, List.filter_append, List.filter_append]
  have hlow : ∀ p : Nat → Bool, (∀ b, b < c → p b = false) →
      (List.range c).filter p = [] := by
    intro p hp
    rw [List.filter_eq_nil_iff]
    intro a ha
    rw [List.mem_range] at ha
    rw [hp a ha]
    simp
  rw [hlow _ (fun b hb => hc2 b hb),
      hlow _ (fun b hb => by rw [testBit_and_pred w h0 hw b, hc2 b hb]; simp)]
  have hc_mem : List.filter (fun b => w.testBit b) [c] = [c] := by
    simp [hc1]
  have hc_mem2 : List.filter (fun b => (w &&& (w - 1)).testBit b) [c] = [] := by
    rw [List.filter_eq_nil_iff]
    intro a ha
    simp only [List.mem_singleton] at ha
    subst ha
    rw [testBit_and_pred w h0 hw c]
    simp
  rw [hc_mem, hc_mem2, List.filter_map, List.filter_map]
  have hhigh : (List.filter ((fun b => w.testBit b) ∘ (fun x => c + 1 + x)) (List.range (63 - c)))
      = (List.filter ((fun b => (w &&& (w - 1)).testBit b) ∘ (fun x => c + 1 + x)) (List.range (63 - c))) := by
    apply List.filter_congr
    intro x _
    simp only [Function.comp]
    rw [testBit_and_pred w h0 hw (c + 1 + x)]
    have : decide (c + 1 + x ≠ c) = true := by
      simp
      omega
    rw [this, Bool.and_true]
  rw [hhigh]
  rfl

theorem decodeWordL_eq : ∀ f w base, w < 2 ^ 64 → (bitsOf w).length ≤ f →
    decodeWordL f w base = (bitsOf w).map (fun b => base + OFFSETS.getD b 0) := by
  intro f
  induction f with
  | zero =>
    intro w base hw hl
    have hnil : bitsOf w = [] := List.eq_nil_of_length_eq_zero (by omega)
    rw [hnil]
    rfl
  | succ f ih =>
    intro w base hw hl
    by_cases h0 : w = 0
    · subst h0
      rw [bitsOf_zero]
      simp [decodeWordL]
    · have hstep : decodeWordL (f + 1) w base
          = (base + OFFSETS.getD (trailing_zeros w) 0) :: decodeWordL f (w &&& (w - 1)) base := by
        simp only [decodeWordL]
        rw [if_neg h0]
      rw [hstep, bitsOf_eq_cons w h0 hw, List.map_cons]
      congr 1
      apply ih
      · exact Nat.lt_of_le_of_lt Nat.and_le_left hw
      · rw [bitsOf_eq_cons w h0 hw] at hl
        simp at hl
        omega

theorem decodeWordL_64 (w base : Nat) (hw : w < 2 ^ 64) :
    decodeWordL 64 w base = (bitsOf w).map (fun b => base + OFFSETS.getD b 0) :=
  decodeWordL_eq 64 w base hw
    (Nat.le_trans (List.length_filter_le _ _) (by simp))

set_option maxRecDepth 4000 in
theorem OFFSETS_bounds : ∀ b ∈ List.range 64,
    1 ≤ OFFSETS.getD b 0 ∧ OFFSETS.getD b 0 < 240 := by decide

set_option maxRecDepth 4000 in
theorem OFFSETS_mono : ∀ b1 ∈ List.range 64, ∀ b2 ∈ List.range 64,
    b1 < b2 → OFFSETS.getD b1 0 < OFFSETS.getD b2 0 := by decide

set_option maxRecDepth 4000 in
theorem OFFSETS_POS : ∀ b ∈ List.range 64,
    POS.getD (OFFSETS.getD b 0) (false, 0) = (true, 2 ^ b) := by decide

theorem mem_bitsOf (w b : Nat) : b ∈ bitsOf w ↔ b < 64 ∧ w.testBit b = true := by
  unfold bitsOf
  rw [List.mem_filter, List.mem_range]

theorem mem_decodeWordL (w base x : Nat) (hw : w < 2 ^ 64) :
    x ∈ decodeWordL 64 w base
      ↔ ∃ b, b < 64 ∧ w.testBit b = true ∧ x = base + OFFSETS.getD b 0 := by
  rw [decodeWordL_64 w base hw, List.mem_map]
  constructor
  · rintro ⟨b, hb, he⟩
    rw [mem_bitsOf] at hb
    exact ⟨b, hb.1, hb.2, he.symm⟩
  · rintro ⟨b, h1, h2, h3⟩
    exact ⟨b, (mem_bitsOf w b).mpr ⟨h1, h2⟩, h3.symm⟩

theorem mem_decodeWordL_bounds (w base x : Nat) (hw : w < 2 ^ 64)
    (hx : x ∈ decodeWordL 64 w base) : base < x ∧ x < base + 240 := by
  obtain ⟨b, hb, _, he⟩ := (mem_decodeWordL w base x hw).mp hx
  obtain ⟨hb1, hb2⟩ := OFFSETS_bounds b (List.mem_range.mpr hb)
  omega

theorem pairwise_decodeWordL (w base : Nat) (hw : w < 2 ^ 64) :
    List.Pairwise (· < ·) (decodeWordL 64 w base) := by
  rw [decodeWordL_64 w base hw]
  rw [List.pairwise_map]
  have hp : List.Pairwise (· < ·) (bitsOf w) :=
    (List.pairwise_lt_range 64).sublist (List.filter_sublist _)
  apply hp.imp_of_mem
  intro a b ha hb hab
  have ha64 := ((mem_bitsOf w a).mp ha).1
  have hb64 := ((mem_bitsOf w b).mp hb).1
  have := OFFSETS_mono a (List.mem_range.mpr ha64) b (List.mem_range.mpr hb64) hab
  omega

theorem decodeFrom_sorted_bounded (store : List Nat) :
    ∀ base, (∀ w ∈ store, w < 2 ^ 64) →
      List.Pairwise (· < ·) (decodeFrom store base)
      ∧ ∀ x ∈ decodeFrom store base, base < x := by
  induction store with
  | nil =>
    intro base _
    exact ⟨List.Pairwise.nil, by intro x hx; simp [decodeFrom] at hx⟩
  | cons w ws ih =>
    intro base hw
    have hw0 : w < 2 ^ 64 := hw w (List.mem_cons_self w ws)
    have hws : ∀ v ∈ ws, v < 2 ^ 64 := fun v hv => hw v (List.mem_cons_of_mem w hv)
    obtain ⟨ihp, ihb⟩ := ih (base + MODULUS) hws
    have hfirst : ∀ x ∈ decodeWordL 64 w base, base < x ∧ x < base + 240 :=
      fun x hx => mem_decodeWordL_bounds w base x hw0 hx
    constructor
    · show List.Pairwise (· < ·) (decodeWordL 64 w base ++ decodeFrom ws (base + MODULUS))
      rw [List.pairwise_append]
      refine ⟨pairwise_decodeWordL w base hw0, ihp, ?_⟩
      intro x hx y hy
      have h1 := (hfirst x hx).2
      have h2 := ihb y hy
      unfold MODULUS at h2
      omega
    · intro x hx
      rw [show decodeFrom (w :: ws) base
          = decodeWordL 64 w base ++ decodeFrom ws (base + MODULUS) from rfl,
        List.mem_append] at hx
      rcases hx with hx | hx
      · exact (hfirst x hx).1
      · have := ihb x hx
        unfold MODULUS at this
        omega

theorem mem_decodeFrom (store : List Nat) :
    ∀ base x, (∀ w ∈ store, w < 2 ^ 64) →
      (x ∈ decodeFrom store base
        ↔ ∃ i, i < store.length ∧ ∃ b, b < 64 ∧ (store.getD i 0).testBit b = true
            ∧ x = base + 240 * i + OFFSETS.getD b 0) := by
  induction store with
  | nil =>
    intro base x _
    constructor
    · intro hx
      simp [decodeFrom] at hx
    · rintro ⟨i, hi, _⟩
      simp at hi
  | cons w ws ih =>
    intro base x hw
    have hw0 : w < 2 ^ 64 := hw w (List.mem_cons_self w ws)
    have hws : ∀ v ∈ ws, v < 2 ^ 64 := fun v hv => hw v (List.mem_cons_of_mem w hv)
    show x ∈ decodeWordL 64 w base ++ decodeFrom ws (base + MODULUS) ↔ _
    rw [List.mem_append, mem_decodeWordL w base x hw0, ih (base + MODULUS) x hws]
    constructor
    · rintro (⟨b, hb, ht, he⟩ | ⟨i, hi, b, hb, ht, he⟩)
      · exact ⟨0, by simp, b, hb, by simpa using ht, by omega⟩
      · refine ⟨i + 1, by simpa using hi, b, hb, by simpa using ht, ?_⟩
        unfold MODULUS at he
        omega
    · rintro ⟨i, hi, b, hb, ht, he⟩
      match i with
      | 0 =>
        left
        exact ⟨b, hb, by simpa using ht, by omega⟩
      | i + 1 =>
        right
        refine ⟨i, by simpa using hi, b, hb, by simpa using ht, ?_⟩
        unfold MODULUS
        omega

theorem seg_get_eq_true_iff (store : List Nat) (x : Nat)
    (hw : ∀ w ∈ store, w < 2 ^ 64) :
    seg_get store x = some true ↔ x ∈ decodeFrom store 0 := by
  rw [mem_decodeFrom store 0 x hw]
  constructor
  · intro hg
    have hr240 : x % 240 < 240 := Nat.mod_lt _ (by norm_num)
    by_cases hf : (POS.getD (x % 240) (false, 0)).1 = true
    · obtain ⟨b, hb64, hoff, hmask⟩ := POS_mask_of_repr x hf
      rw [seg_get_repr _ _ hf] at hg
      cases hq : store.get? (x / 240) with
      | none => rw [hq] at hg; simp at hg
      | some w =>
        rw [hq] at hg
        simp only [Option.map_some'] at hg
        have hbit : w &&& (POS.getD (x % 240) (false, 0)).2 ≠ 0 := by
          intro hz
          rw [decide_eq_false (fun hc => hc hz)] at hg
          simp at hg
        rw [hmask] at hbit
        have hlen : x / 240 < store.length := by
          by_contra hge
          rw [List.get?_eq_none.mpr (by omega)] at hq
          exact Option.noConfusion hq
        have hwd : store.getD (x / 240) 0 = w := by
          rw [get?_eq_some_getD store _ hlen] at hq
          exact (Option.some.injEq _ _).mp hq.symm |>.symm
        refine ⟨x / 240, hlen, b, hb64, ?_, ?_⟩
        · rw [hwd]
          exact (and_two_pow_ne_zero w b).mp hbit
        · omega
    · simp only [Bool.not_eq_true] at hf
      rw [seg_get_not_repr _ _ hf] at hg
      simp at hg
  · rintro ⟨i, hi, b, hb64, ht, he⟩
    obtain ⟨ho1, ho2⟩ := OFFSETS_bounds b (List.mem_range.mpr hb64)
    have hdiv : x / 240 = i := by omega
    have hmod : x % 240 = OFFSETS.getD b 0 := by omega
    have hpos := OFFSETS_POS b (List.mem_range.mpr hb64)
    have hf : (POS.getD (x % 240) (false, 0)).1 = true := by
      rw [hmod, hpos]
    rw [seg_get_repr _ _ hf, hdiv, get?_eq_some_getD store _ hi]
    simp only [Option.map_some', Option.some.injEq]
    have hmask : (POS.getD (x % 240) (false, 0)).2 = 2 ^ b := by
      rw [hmod, hpos]
    rw [hmask, decide_and_two_pow, ht]

theorem decodeFrom_nil (base : Nat) : decodeFrom [] base = [] := rfl

theorem decodeFrom_drop_cons (sieve : List Nat) (j : Nat) (hj : j < sieve.length)
    (base : Nat) :
    decodeFrom (sieve.drop j) base
      = decodeWordL 64 (sieve.getD j 0) base
          ++ decodeFrom (sieve.drop (j + 1)) (base + MODULUS) := by
  rw [List.drop_eq_getElem_cons hj, List.getD_eq_getElem (l := sieve) (d := 0) hj]
  rfl

theorem scanGo_spec (sieve : List Nat) :
    ∀ f j base idx0 st2, sieve.length ≤ j + f →
      scanGo sieve f j base idx0 = st2 →
      ((st2.current ≠ 0 →
          st2.current = sieve.getD st2.curr_idx 0
          ∧ st2.base = base + MODULUS * (st2.curr_idx + 1 - j)
          ∧ j ≤ st2.curr_idx
          ∧ st2.curr_idx < sieve.length
          ∧ decodeWordL 64 st2.current st2.base
              ++ decodeFrom (sieve.drop (st2.curr_idx + 1)) (st2.base + MODULUS)
            = decodeFrom (sieve.drop j) (base + MODULUS))
        ∧ (st2.current = 0 → decodeFrom (sieve.drop j) (base + MODULUS) = [])) := by
  intro f
  induction f with
  | zero =>
    intro j base idx0 st2 hlen hst
    have hj : sieve.length ≤ j := by omega
    have hdrop : sieve.drop j = [] := List.drop_eq_nil_of_le hj
    rw [show st2 = { current := 0, base := base, curr_idx := idx0 } from hst.symm]
    exact ⟨fun hc => absurd rfl hc, fun _ => by rw [hdrop]; rfl⟩
  | succ f ih =>
    intro j base idx0 st2 hlen hst
    by_cases hj : j < sieve.length
    · simp only [scanGo] at hst
      rw [if_pos hj] at hst
      by_cases hw0 : sieve.getD j 0 ≠ 0
      · rw [if_pos hw0] at hst
        rw [show st2 = { current := sieve.getD j 0, base := base + MODULUS, curr_idx := j }
          from hst.symm]
        refine ⟨fun _ => ⟨rfl, by simp, Nat.le_refl j, hj, ?_⟩, fun hc => absurd hc hw0⟩
        rw [decodeFrom_drop_cons sieve j hj]
      · rw [if_neg hw0] at hst
        simp only [Decidable.not_not] at hw0
        obtain ⟨ihA, ihB⟩ := ih (j + 1) (base + MODULUS) idx0 st2 (by omega) hst
        have hexp : decodeFrom (sieve.drop j) (base + MODULUS)
            = decodeFrom (sieve.drop (j + 1)) (base + MODULUS + MODULUS) := by
          rw [decodeFrom_drop_cons sieve j hj, hw0]
          have : decodeWordL 64 0 (base + MODULUS) = [] := by
            simp [decodeWordL]
          rw [this]
          simp
        constructor
        · intro hc
          obtain ⟨a1, a2, a3, a4, a5⟩ := ihA hc
          refine ⟨a1, by unfold MODULUS at a2 ⊢; omega, by omega, a4, ?_⟩
          rw [hexp, ← a5]
        · intro hc
          rw [hexp]
          exact ihB hc
    · simp only [scanGo] at hst
      rw [if_neg hj] at hst
      rw [show st2 = { current := 0, base := base, curr_idx := idx0 } from hst.symm]
      refine ⟨fun hc => absurd rfl hc, fun _ => ?_⟩
      rw [List.drop_eq_nil_of_le (by omega)]
      rfl

theorem decodeWordL_cons (w base : Nat) (h0 : w ≠ 0) (hw : w < 2 ^ 64) :
    decodeWordL 64 w base
      = (base + OFFSETS.getD (trailing_zeros w) 0)
          :: decodeWordL 64 (w &&& (w - 1)) base := by
  rw [decodeWordL_64 w base hw, bitsOf_eq_cons w h0 hw, List.map_cons,
    ← decodeWordL_64 (w &&& (w - 1)) base (Nat.lt_of_le_of_lt Nat.and_le_left hw)]

theorem bitsOf_length_le (w : Nat) : (bitsOf w).length ≤ 64 :=
  Nat.le_trans (List.length_filter_le _ _) (by simp)

theorem getD_mem (l : List Nat) (i : Nat) (h : i < l.length) : l.getD i 0 ∈ l := by
  rw [List.getD_eq_getElem (l := l) (d := 0) h]
  exact List.getElem_mem h

theorem iterNext_spec (sieve : List Nat) (st : IterState)
    (hw : ∀ w ∈ sieve, w < 2 ^ 64) (hcur : st.current < 2 ^ 64)
    (hbase : st.base = MODULUS * st.curr_idx) :
    (iterNext sieve st = none → iterRest sieve st = [])
    ∧ (∀ x st2, iterNext sieve st = some (x, st2) →
        iterRest sieve st = x :: iterRest sieve st2
        ∧ st2.current < 2 ^ 64
        ∧ st2.base = MODULUS * st2.curr_idx
        ∧ iterMeasure sieve st2 < iterMeasure sieve st) := by
  by_cases h0 : st.current = 0
  · obtain ⟨hA, hB⟩ := scanGo_spec sieve sieve.length (st.curr_idx + 1) st.base st.curr_idx
      (scanGo sieve sieve.length (st.curr_idx + 1) st.base st.curr_idx) (by omega) rfl
    set st1 := scanGo sieve sieve.length (st.curr_idx + 1) st.base st.curr_idx with hst1def
    have hEq : iterNext sieve st
        = if st1.current = 0 then none
          else some (st1.base + OFFSETS.getD (trailing_zeros st1.current) 0,
            { st1 with current := st1.current &&& (st1.current - 1) }) := by
      simp only [iterNext, if_pos h0, ← hst1def]
    have hdw0 : decodeWordL 64 0 st.base = [] := by simp [decodeWordL]
    constructor
    · intro hnone
      rw [hEq] at hnone
      by_cases hc1 : st1.current = 0
      · unfold iterRest
        rw [h0, hdw0, hB hc1]
        rfl
      · rw [if_neg hc1] at hnone
        exact Option.noConfusion hnone
    · intro x st2 hsome
      rw [hEq] at hsome
      by_cases hc1 : st1.current = 0
      · rw [if_pos hc1] at hsome
        exact Option.noConfusion hsome
      · rw [if_neg hc1] at hsome
        have hpair := Option.some.inj hsome
        have hx : x = st1.base + OFFSETS.getD (trailing_zeros st1.current) 0 :=
          (congrArg Prod.fst hpair).symm
        have hst2 : st2 = { st1 with current := st1.current &&& (st1.current - 1) } :=
          (congrArg Prod.snd hpair).symm
        obtain ⟨a1, a2, a3, a4, a5⟩ := hA hc1
        have hcur1 : st1.current < 2 ^ 64 := by
          rw [a1]
          exact hw _ (getD_mem sieve st1.curr_idx a4)
        have hrest : iterRest sieve st = x :: iterRest sieve st2 := by
          unfold iterRest
          rw [h0, hdw0, List.nil_append, ← a5,
            decodeWordL_cons st1.current st1.base hc1 hcur1, hst2, hx]
          rfl
        refine ⟨hrest, ?_, ?_, ?_⟩
        · rw [hst2]
          exact Nat.lt_of_le_of_lt Nat.and_le_left hcur1
        · rw [hst2]
          show st1.base = MODULUS * st1.curr_idx
          rw [a2, hbase]
          have : st.curr_idx + 1 ≤ st1.curr_idx := a3
          unfold MODULUS
          omega
        · rw [hst2]
          unfold iterMeasure
          simp only
          rw [h0, bitsOf_zero]
          have hlen2 : (bitsOf (st1.current &&& (st1.current - 1))).length + 1
              = (bitsOf st1.current).length := by
            rw [bitsOf_eq_cons st1.current hc1 hcur1]
            rfl
          have h64 : (bitsOf st1.current).length ≤ 64 := bitsOf_length_le _
          have hci : st.curr_idx + 1 ≤ st1.curr_idx := a3
          have hci2 : st1.curr_idx < sieve.length := a4
          simp only [List.length_nil]
          omega
  · have hEq : iterNext sieve st
        = some (st.base + OFFSETS.getD (trailing_zeros st.current) 0,
            { st with current := st.current &&& (st.current - 1) }) := by
      simp only [iterNext, if_neg h0]
    constructor
    · intro hnone
      rw [hEq] at hnone
      exact Option.noConfusion hnone
    · intro x st2 hsome
      rw [hEq] at hsome
      have hpair := Option.some.inj hsome
      have hx : x = st.base + OFFSETS.getD (trailing_zeros st.current) 0 :=
        (congrArg Prod.fst hpair).symm
      have hst2 : st2 = { st with current := st.current &&& (st.current - 1) } :=
        (congrArg Prod.snd hpair).symm
      have hrest : iterRest sieve st = x :: iterRest sieve st2 := by
        unfold iterRest
        rw [decodeWordL_cons st.current st.base h0 hcur, hst2, hx]
        rfl
      refine ⟨hrest, ?_, ?_, ?_⟩
      · rw [hst2]
        exact Nat.lt_of_le_of_lt Nat.and_le_left hcur
      · rw [hst2]
        exact hbase
      · rw [hst2]
        unfold iterMeasure
        simp only
        have hlen2 : (bitsOf (st.current &&& (st.current - 1))).length + 1
            = (bitsOf st.current).length := by
          rw [bitsOf_eq_cons st.current h0 hcur]
          rfl
        omega

theorem iterRunAux_eq_rest :
    ∀ fuel (sieve : List Nat) (st : IterState), (∀ w ∈ sieve, w < 2 ^ 64) →
      st.current < 2 ^ 64 → st.base = MODULUS * st.curr_idx →
      iterMeasure sieve st < fuel →
      iterRunAux fuel sieve st = iterRest sieve st := by
  intro fuel
  induction fuel with
  | zero =>
    intro sieve st _ _ _ hm
    omega
  | succ fuel ih =>
    intro sieve st hw hcur hbase hm
    obtain ⟨hnone, hsome⟩ := iterNext_spec sieve st hw hcur hbase
    show (match iterNext sieve st with
          | none => []
          | some (x, st3) => x :: iterRunAux fuel sieve st3) = iterRest sieve st
    cases hn : iterNext sieve st with
    | none =>
      rw [hnone hn]
    | some p =>
      obtain ⟨heq, h1, h2, h3⟩ := hsome p.1 p.2 (by rw [hn])
      rw [heq]
      exact congrArg (p.1 :: ·) (ih sieve p.2 hw h1 h2 (by omega))

theorem iterNth_eq_rest :
    ∀ m (sieve : List Nat) (st : IterState), (∀ w ∈ sieve, w < 2 ^ 64) →
      st.current < 2 ^ 64 → st.base = MODULUS * st.curr_idx →
      iterNth sieve st m = (iterRest sieve st).get? m := by
  intro m
  induction m with
  | zero =>
    intro sieve st hw hcur hbase
    obtain ⟨hnone, hsome⟩ := iterNext_spec sieve st hw hcur hbase
    show (iterNext sieve st).map (fun p => p.1) = _
    cases hn : iterNext sieve st with
    | none =>
      rw [hnone hn]
      rfl
    | some p =>
      obtain ⟨heq, _, _, _⟩ := hsome p.1 p.2 (by rw [hn])
      rw [heq]
      rfl
  | succ m ih =>
    intro sieve st hw hcur hbase
    obtain ⟨hnone, hsome⟩ := iterNext_spec sieve st hw hcur hbase
    show (match iterNext sieve st with
          | none => none
          | some (_, st3) => iterNth sieve st3 m) = _
    cases hn : iterNext sieve st with
    | none =>
      rw [hnone hn]
      rfl
    | some p =>
      obtain ⟨heq, h1, h2, _⟩ := hsome p.1 p.2 (by rw [hn])
      rw [heq]
      exact ih sieve p.2 hw h1 h2

theorem sieveIterList_eq_decode (store : List Nat) (hw : ∀ w ∈ store, w < 2 ^ 64) :
    sieveIterList store = decodeFrom store 0 := by
  unfold sieveIterList
  have hcur : (initState store).current < 2 ^ 64 := by
    cases store with
    | nil => simp [initState]
    | cons w ws =>
      show w < 2 ^ 64
      exact hw w (List.mem_cons_self w ws)
  have hm : iterMeasure store (initState store) < 64 * store.length + 65 := by
    unfold iterMeasure initState
    have := bitsOf_length_le (store.headD 0)
    simp only
    omega
  rw [iterRunAux_eq_rest _ store (initState store) hw hcur (by simp [initState]) hm]
  cases store with
  | nil => rfl
  | cons w ws =>
    unfold iterRest initState
    simp only [List.headD_cons, List.drop_succ_cons, List.drop_zero]
    rfl

theorem countsGo_getLast :
    ∀ (store : List Nat) c, store ≠ [] →
      (countsGo store c).getLast? = some (c + (store.map count_ones).sum) := by
  intro store
  induction store with
  | nil =>
    intro c h
    exact absurd rfl h
  | cons w ws ih =>
    intro c _
    have h1 : countsGo (w :: ws) c
        = (c + count_ones w) :: countsGo ws (c + count_ones w) := by
      simp only [countsGo]
    rw [h1]
    cases ws with
    | nil =>
      simp [countsGo]
    | cons v vs =>
      have h2 : countsGo (v :: vs) (c + count_ones w)
          = ((c + count_ones w) + count_ones v)
              :: countsGo vs ((c + count_ones w) + count_ones v) := by
        simp only [countsGo]
      rw [h2, List.getLast?_cons_cons, ← h2, ih (c + count_ones w) (by simp)]
      simp only [List.map_cons, List.sum_cons]
      rw [Option.some.injEq]
      omega

theorem num_primes_popcount (store : List Nat) (h : store ≠ []) :
    num_primes store = some ((store.map count_ones).sum) := by
  unfold num_primes countsList
  rw [countsGo_getLast store 0 h]
  simp

/-- C6 (amended): `num_primes` returns the total popcount of the packed
store alone; the 3 implicit small primes 2, 3, 5 are not added. -/
theorem num_primes_eq_popcount (store : List Nat) (h : store ≠ []) :
    num_primes store = some ((store.map count_ones).sum) :=
  num_primes_popcount store h

/-- C6 witness: the amended theorem at a concrete one-word store. -/
theorem num_primes_eq_popcount_witness :
    ([FIRST_WORD] : List Nat) ≠ []
    ∧ num_primes [FIRST_WORD] = some (([FIRST_WORD].map count_ones).sum) :=
  ⟨by decide, num_primes_eq_popcount [FIRST_WORD] (by decide)⟩

set_option maxRecDepth 1000000 in
set_option maxHeartbeats 1000000 in
/-- C6 counterexample: for the sieve built by `Sieve::to_limit(0)` (whose
store holds the 49 primes in the interval (5, 240)), `num_primes` returns
49, not 3 + 49 as the claim states. -/
theorem num_primes_claim_false :
    ¬ num_primes (segmented_sieve 0)
        = some (3 + ((segmented_sieve 0).map count_ones).sum) := by decide

theorem set_off_words (seg : List Nat) (idx : Nat) (hw : ∀ w ∈ seg, w < 2 ^ 64) :
    ∀ w ∈ set_off seg idx, w < 2 ^ 64 := by
  unfold set_off
  rw [index_for_eq idx]
  cases hf : (POS.getD (idx % 240) (false, 0)).1 with
  | false => exact hw
  | true =>
    intro w hwmem
    rcases List.mem_or_eq_of_mem_set hwmem with hmem | heq
    · exact hw w hmem
    · subst heq
      by_cases hlen : idx / 240 < seg.length
      · exact Nat.lt_of_le_of_lt Nat.and_le_left (hw _ (getD_mem seg _ hlen))
      · rw [List.getD_eq_default]
        · exact Nat.lt_of_le_of_lt Nat.and_le_left (by norm_num)
        · omega

theorem set_off_length (seg : List Nat) (idx : Nat) :
    (set_off seg idx).length = seg.length := by
  unfold set_off
  rw [index_for_eq idx]
  cases hf : (POS.getD (idx % 240) (false, 0)).1 with
  | false => rfl
  | true => exact List.length_set seg _ _

theorem set_off_getD_zero (seg : List Nat) (idx : Nat)
    (h : Nat.testBit (seg.getD 0 0) 0 = false) :
    Nat.testBit ((set_off seg idx).getD 0 0) 0 = false := by
  by_cases hf : (POS.getD (idx % 240) (false, 0)).1 = true
  · rw [set_off_repr seg idx hf]
    by_cases hz : idx / 240 = 0
    · rw [hz]
      by_cases hlen : 0 < seg.length
      · have hset : (seg.set 0 (seg.getD 0 0 &&& ((2 ^ 64 - 1) ^^^ (POS.getD (idx % 240) (false, 0)).2))).getD 0 0
            = seg.getD 0 0 &&& ((2 ^ 64 - 1) ^^^ (POS.getD (idx % 240) (false, 0)).2) := by
          rw [List.getD_eq_getElem _ 0 (show 0 < (seg.set 0 _).length by
            rw [List.length_set]; exact hlen)]
          exact List.getElem_set_self (by rw [List.length_set]; exact hlen)
        rw [hset, Nat.testBit_and, h]
        rfl
      · rw [List.set_eq_of_length_le (by omega)]
        exact h
    · rw [List.getD_eq_getElem?_getD, List.getElem?_set_ne hz, ← List.getD_eq_getElem?_getD]
      exact h
  · simp only [Bool.not_eq_true] at hf
    rw [set_off_not_repr seg idx hf]
    exact h

theorem crossSeg_invariants :
    ∀ fuel size seg index wh,
      ((∀ w ∈ seg, w < 2 ^ 64) → ∀ w ∈ (crossSeg fuel size seg index wh).1, w < 2 ^ 64)
      ∧ (crossSeg fuel size seg index wh).1.length = seg.length
      ∧ (Nat.testBit (seg.getD 0 0) 0 = false →
          Nat.testBit ((crossSeg fuel size seg index wh).1.getD 0 0) 0 = false) := by
  intro fuel
  induction fuel with
  | zero =>
    intro size seg index wh
    exact ⟨fun h => h, rfl, fun h => h⟩
  | succ fuel ih =>
    intro size seg index wh
    by_cases hidx : index < size
    · have hstep : crossSeg (fuel + 1) size seg index wh
          = crossSeg fuel size (set_off seg index) (index + wh.next_diff.1) wh.next_diff.2 := by
        simp only [crossSeg]
        rw [if_pos hidx]
      rw [hstep]
      obtain ⟨i1, i2, i3⟩ := ih size (set_off seg index) (index + wh.next_diff.1) wh.next_diff.2
      refine ⟨fun h => i1 (set_off_words seg index h), ?_,
        fun h => i3 (set_off_getD_zero seg index h)⟩
      rw [i2, set_off_length]
    · have hstep : crossSeg (fuel + 1) size seg index wh = (seg, index, wh) := by
        simp only [crossSeg]
        rw [if_neg hidx]
      rw [hstep]
      exact ⟨fun h => h, rfl, fun h => h⟩

theorem crossAll_invariants :
    ∀ tracked size (seg : List Nat),
      ((∀ w ∈ seg, w < 2 ^ 64) → ∀ w ∈ (crossAll size seg tracked).1, w < 2 ^ 64)
      ∧ (crossAll size seg tracked).1.length = seg.length
      ∧ (Nat.testBit (seg.getD 0 0) 0 = false →
          Nat.testBit ((crossAll size seg tracked).1.getD 0 0) 0 = false) := by
  intro tracked
  induction tracked with
  | nil =>
    intro size seg
    exact ⟨fun h => h, rfl, fun h => h⟩
  | cons p rest ih =>
    intro size seg
    obtain ⟨c1, c2, c3⟩ := crossSeg_invariants (size + 1) size seg p.1 p.2
    obtain ⟨i1, i2, i3⟩ := ih size (crossSeg (size + 1) size seg p.1 p.2).1
    have hexp : crossAll size seg (p :: rest)
        = ((crossAll size (crossSeg (size + 1) size seg p.1 p.2).1 rest).1,
           ((crossSeg (size + 1) size seg p.1 p.2).2.1 - size,
            (crossSeg (size + 1) size seg p.1 p.2).2.2)
              :: (crossAll size (crossSeg (size + 1) size seg p.1 p.2).1 rest).2) := rfl
    rw [hexp]
    exact ⟨fun h => i1 (c1 h), by simp only; rw [i2, c2], fun h => i3 (c3 h)⟩

theorem segLoop_step (segLen lim : Nat) (sp : List Nat) (fuel : Nat) (st : IterState)
    (tracked : List (Nat × Wheel30)) (low : Nat) (seg acc : List Nat) (hlow : low ≤ lim) :
    segLoop segLen lim sp (fuel + 1) st tracked low seg acc
      = segLoop segLen lim sp fuel
          (pullPrimes (64 * sp.length + 1) sp st low (min (low + MODULUS * segLen) lim)).2
          (crossAll (min (low + MODULUS * segLen) lim - low) seg
            (tracked ++ (pullPrimes (64 * sp.length + 1) sp st low
              (min (low + MODULUS * segLen) lim)).1)).2
          (low + MODULUS * segLen)
          (List.replicate segLen (2 ^ 64 - 1))
          (acc ++ (if min (low + MODULUS * segLen) lim - low < MODULUS * segLen then
              (crossAll (min (low + MODULUS * segLen) lim - low) seg
                (tracked ++ (pullPrimes (64 * sp.length + 1) sp st low
                  (min (low + MODULUS * segLen) lim)).1)).1.take
                ((min (low + MODULUS * segLen) lim - low) / MODULUS)
            else
              (crossAll (min (low + MODULUS * segLen) lim - low) seg
                (tracked ++ (pullPrimes (64 * sp.length + 1) sp st low
                  (min (low + MODULUS * segLen) lim)).1)).1)) := by
  simp only [segLoop]
  rw [if_pos hlow]

theorem segLoop_stop (segLen lim : Nat) (sp : List Nat) (fuel : Nat) (st : IterState)
    (tracked : List (Nat × Wheel30)) (low : Nat) (seg acc : List Nat) (hlow : ¬ low ≤ lim) :
    segLoop segLen lim sp (fuel + 1) st tracked low seg acc = acc := by
  simp only [segLoop]
  rw [if_neg hlow]

theorem segLoop_prefix :
    ∀ fuel segLen lim (sp : List Nat) st tracked low seg acc,
      ∃ rest, segLoop segLen lim sp fuel st tracked low seg acc = acc ++ rest := by
  intro fuel
  induction fuel with
  | zero =>
    intro segLen lim sp st tracked low seg acc
    exact ⟨[], (List.append_nil acc).symm⟩
  | succ fuel ih =>
    intro segLen lim sp st tracked low seg acc
    by_cases hlow : low ≤ lim
    · rw [segLoop_step segLen lim sp fuel st tracked low seg acc hlow]
      obtain ⟨rest, hrest⟩ := ih segLen lim sp _ _ _ _ _
      rw [hrest, List.append_assoc]
      exact ⟨_, rfl⟩
    · rw [segLoop_stop segLen lim sp fuel st tracked low seg acc hlow]
      exact ⟨[], (List.append_nil acc).symm⟩

theorem segLoop_words :
    ∀ fuel segLen lim (sp : List Nat) st tracked low seg acc,
      (∀ w ∈ acc, w < 2 ^ 64) → (∀ w ∈ seg, w < 2 ^ 64) →
      ∀ w ∈ segLoop segLen lim sp fuel st tracked low seg acc, w < 2 ^ 64 := by
  intro fuel
  induction fuel with
  | zero =>
    intro segLen lim sp st tracked low seg acc hacc _
    exact hacc
  | succ fuel ih =>
    intro segLen lim sp st tracked low seg acc hacc hseg
    by_cases hlow : low ≤ lim
    · rw [segLoop_step segLen lim sp fuel st tracked low seg acc hlow]
      apply ih
      · intro w hw
        rcases List.mem_append.mp hw with hw | hw
        · exact hacc w hw
        · have hcw := (crossAll_invariants
            (tracked ++ (pullPrimes (64 * sp.length + 1) sp st low
              (min (low + MODULUS * segLen) lim)).1)
            (min (low + MODULUS * segLen) lim - low) seg).1 hseg
          split at hw
          · exact hcw w (List.mem_of_mem_take hw)
          · exact hcw w hw
      · intro w hw
        rw [List.eq_of_mem_replicate hw]
        norm_num
    · rw [segLoop_stop segLen lim sp fuel st tracked low seg acc hlow]
      exact hacc

theorem getD_zero_take (l : List Nat) (k : Nat) (hk : 0 < k) :
    (l.take k).getD 0 0 = l.getD 0 0 := by
  cases l with
  | nil => simp
  | cons x xs =>
    cases k with
    | zero => omega
    | succ k => rfl

theorem getD_zero_append (l1 l2 : List Nat) (h : l1 ≠ []) :
    (l1 ++ l2).getD 0 0 = l1.getD 0 0 := by
  cases l1 with
  | nil => exact absurd rfl h
  | cons x xs => rfl

theorem segLoop_all (fuel segLen lim : Nat) (sp : List Nat) (st : IterState)
    (tracked : List (Nat × Wheel30)) (low : Nat) (seg acc : List Nat)
    (h1 : ∀ w ∈ acc, w < 2 ^ 64) (h2 : ∀ w ∈ seg, w < 2 ^ 64)
    (h3 : 1 ≤ acc.length) (h4 : Nat.testBit (acc.getD 0 0) 0 = false) :
    (∀ w ∈ segLoop segLen lim sp fuel st tracked low seg acc, w < 2 ^ 64)
    ∧ 1 ≤ (segLoop segLen lim sp fuel st tracked low seg acc).length
    ∧ Nat.testBit ((segLoop segLen lim sp fuel st tracked low seg acc).getD 0 0) 0 = false := by
  refine ⟨segLoop_words fuel segLen lim sp st tracked low seg acc h1 h2, ?_, ?_⟩
  all_goals (
    obtain ⟨rest, hrest⟩ := segLoop_prefix fuel segLen lim sp st tracked low seg acc
    rw [hrest])
  · rw [List.length_append]
    omega
  · rw [getD_zero_append acc rest (by intro hnil; rw [hnil] at h3; simp at h3)]
    exact h4

/-- The store built by `segmented_sieve` consists of 64-bit words, is
nonempty, and has the bit of index 1 (bit 0 of word 0) cleared: the value 1
is never decoded as a prime. -/
theorem segmented_sieve_invariants (limit : Nat) :
    (∀ w ∈ segmented_sieve limit, w < 2 ^ 64)
    ∧ 1 ≤ (segmented_sieve limit).length
    ∧ Nat.testBit ((segmented_sieve limit).getD 0 0) 0 = false := by
  unfold segmented_sieve segmentedSieveWith
  simp only
  set lim := limit + MODULUS - limit % MODULUS with hlimdef
  set sp := small_primes lim with hspdef
  set b0 := (List.replicate 32768 ((2 : Nat) ^ 64 - 1)).set 0 ((2 ^ 64 - 1) ^^^ 1) with hb0def
  have hlim240 : 240 ≤ lim := by
    have h2 : limit % MODULUS ≤ limit := Nat.mod_le _ _
    have h3 : limit % MODULUS < MODULUS := Nat.mod_lt limit (by unfold MODULUS; norm_num)
    rw [hlimdef]
    unfold MODULUS at h3 ⊢
    omega
  have hb0words : ∀ w ∈ b0, w < 2 ^ 64 := by
    intro w hw
    rcases List.mem_or_eq_of_mem_set hw with hw | hw
    · rw [List.eq_of_mem_replicate hw]
      norm_num
    · subst hw
      decide
  have hb0len : b0.length = 32768 := by
    rw [hb0def, List.length_set, List.length_replicate]
  have hb0zero : Nat.testBit (b0.getD 0 0) 0 = false := by
    have hg : b0.getD 0 0 = (2 ^ 64 - 1) ^^^ 1 := by
      rw [hb0def, List.getD_eq_getElem _ 0
        (show 0 < ((List.replicate 32768 ((2 : Nat) ^ 64 - 1)).set 0 _).length by
          rw [List.length_set, List.length_replicate]; norm_num)]
      exact List.getElem_set_self (by rw [List.length_set, List.length_replicate]; norm_num)
    rw [hg]
    decide
  have hfuel : lim / (MODULUS * 32768) + 2 = (lim / (MODULUS * 32768) + 1) + 1 := rfl
  rw [hfuel, segLoop_step 32768 lim sp _ _ [] 0 b0 [] (by omega)]
  set size := min (0 + MODULUS * 32768) lim - 0 with hsizedef
  have hsize240 : 240 ≤ size := by
    rw [hsizedef]
    unfold MODULUS
    omega
  set crossed := (crossAll size b0
      ([] ++ (pullPrimes (64 * sp.length + 1) sp (initState sp) 0
        (min (0 + MODULUS * 32768) lim)).1)).1 with hcrdef
  obtain ⟨cw, clen, czero⟩ := crossAll_invariants
      ([] ++ (pullPrimes (64 * sp.length + 1) sp (initState sp) 0
        (min (0 + MODULUS * 32768) lim)).1) size b0
  have hclen : crossed.length = 32768 := by rw [hcrdef, clen, hb0len]
  have hchunklen : 1 ≤ (if size < MODULUS * 32768 then crossed.take (size / MODULUS)
      else crossed).length := by
    split
    · rw [List.length_take, hclen]
      have h5 : 1 ≤ size / MODULUS := by
        unfold MODULUS
        omega
      omega
    · omega
  have hchunkzero : Nat.testBit ((if size < MODULUS * 32768 then crossed.take (size / MODULUS)
      else crossed).getD 0 0) 0 = false := by
    split
    · rw [getD_zero_take crossed _ (by unfold MODULUS; omega)]
      exact czero hb0zero
    · exact czero hb0zero
  have hchunkwords : ∀ w ∈ (if size < MODULUS * 32768 then crossed.take (size / MODULUS)
      else crossed), w < 2 ^ 64 := by
    intro w hw
    have hcw := cw hb0words
    split at hw
    · exact hcw w (List.mem_of_mem_take hw)
    · exact hcw w hw
  apply segLoop_all
  · intro w hw
    rw [List.nil_append] at hw
    exact hchunkwords w hw
  · intro w hw
    rw [List.eq_of_mem_replicate hw]
    norm_num
  · rw [List.nil_append]
    exact hchunklen
  · rw [List.nil_append]
    exact hchunkzero

theorem count_ones_eq_filter :
    ∀ f w, popCountAux f w = ((List.range f).filter (fun b => w.testBit b)).length := by
  intro f
  induction f with
  | zero =>
    intro w
    rfl
  | succ f ih =>
    intro w
    show w % 2 + popCountAux f (w / 2) = _
    rw [List.range_succ_eq_map, List.filter_cons]
    have hcg : List.filter ((fun b => w.testBit b) ∘ Nat.succ) (List.range f)
        = List.filter (fun b => (w / 2).testBit b) (List.range f) := by
      apply List.filter_congr
      intro b _
      simp only [Function.comp, Nat.succ_eq_add_one]
      rw [Nat.testBit_add_one]
    by_cases h0 : w.testBit 0 = true
    · have hm : w % 2 = 1 := Nat.mod_two_eq_one_iff_testBit_zero.mpr h0
      rw [if_pos (by simpa using h0), hm, List.length_cons, List.filter_map,
        List.length_map, hcg, ih (w / 2)]
      omega
    · have hm : w % 2 = 0 := by
        rcases Nat.mod_two_eq_zero_or_one w with h | h
        · exact h
        · exact absurd (Nat.mod_two_eq_one_iff_testBit_zero.mp h) h0
      rw [if_neg (by simpa using h0), hm, List.filter_map, List.length_map, hcg, ih (w / 2)]
      omega

theorem count_ones_eq_bitsOf (w : Nat) : count_ones w = (bitsOf w).length :=
  count_ones_eq_filter 64 w

theorem decodeWordL_length (w base : Nat) (hw : w < 2 ^ 64) :
    (decodeWordL 64 w base).length = count_ones w := by
  rw [decodeWordL_64 w base hw, List.length_map, count_ones_eq_bitsOf]

theorem decodeFrom_length (store : List Nat) :
    ∀ base, (∀ w ∈ store, w < 2 ^ 64) →
      (decodeFrom store base).length = prefixPop store store.length := by
  induction store with
  | nil =>
    intro base _
    rfl
  | cons w ws ih =>
    intro base hw
    show (decodeWordL 64 w base ++ decodeFrom ws (base + MODULUS)).length = _
    rw [List.length_append, decodeWordL_length w base (hw w (List.mem_cons_self w ws)),
      ih (base + MODULUS) (fun v hv => hw v (List.mem_cons_of_mem w hv))]
    unfold prefixPop
    rw [List.take_length, List.take_length]
    simp

theorem prefixPop_succ (store : List Nat) (i : Nat) (hi : i < store.length) :
    prefixPop store (i + 1) = prefixPop store i + count_ones (store.getD i 0) := by
  unfold prefixPop
  rw [List.take_succ, List.map_append, List.sum_append, List.getElem?_eq_getElem hi,
    List.getD_eq_getElem _ 0 hi]
  simp only [Option.toList_some, List.map_cons, List.map_nil, List.sum_cons, List.sum_nil]
  omega

theorem prefixPop_mono (store : List Nat) :
    ∀ i j, i ≤ j → prefixPop store i ≤ prefixPop store j := by
  intro i j hij
  induction j with
  | zero =>
    have h0 : i = 0 := by omega
    subst h0
    exact Nat.le_refl _
  | succ j ihj =>
    by_cases he : i = j + 1
    · subst he
      exact Nat.le_refl _
    · have h1 : prefixPop store i ≤ prefixPop store j := ihj (by omega)
      by_cases hj : j < store.length
      · rw [prefixPop_succ store j hj]
        omega
      · have h2 : prefixPop store (j + 1) = prefixPop store j := by
          unfold prefixPop
          rw [List.take_of_length_le (by omega), List.take_of_length_le (by omega)]
        omega

theorem countsGo_length : ∀ (store : List Nat) c, (countsGo store c).length = store.length := by
  intro store
  induction store with
  | nil =>
    intro c
    rfl
  | cons w ws ih =>
    intro c
    have h1 : countsGo (w :: ws) c = (c + count_ones w) :: countsGo ws (c + count_ones w) := by
      simp only [countsGo]
    rw [h1, List.length_cons, ih, List.length_cons]

theorem countsGo_get? :
    ∀ (store : List Nat) c i, i < store.length →
      (countsGo store c).get? i = some (c + prefixPop store (i + 1)) := by
  intro store
  induction store with
  | nil =>
    intro c i hi
    simp at hi
  | cons w ws ih =>
    intro c i hi
    have h1 : countsGo (w :: ws) c = (c + count_ones w) :: countsGo ws (c + count_ones w) := by
      simp only [countsGo]
    rw [h1]
    cases i with
    | zero =>
      rw [List.get?_cons_zero]
      have hp : prefixPop (w :: ws) 1 = count_ones w := by
        unfold prefixPop
        simp
      rw [hp]
    | succ i =>
      rw [List.get?_cons_succ, ih (c + count_ones w) i (by simpa using hi)]
      have hp : prefixPop (w :: ws) (i + 1 + 1) = count_ones w + prefixPop ws (i + 1) := by
        unfold prefixPop
        simp
      rw [hp, Option.some.injEq]
      omega

theorem countsList_get? (store : List Nat) (i : Nat) (hi : i < store.length) :
    (countsList store).get? i = some (prefixPop store (i + 1)) := by
  unfold countsList
  rw [countsGo_get? store 0 i hi]
  simp

theorem binSearch_spec (a : List Nat) (k : Nat)
    (hmono : ∀ i j, i ≤ j → j < a.length → a.getD i 0 ≤ a.getD j 0) :
    ∀ fuel lo hi, hi ≤ a.length → lo ≤ hi → hi - lo < fuel →
      (∀ i, i < lo → a.getD i 0 ≤ k) →
      (∀ i, hi ≤ i → i < a.length → k < a.getD i 0) →
      (∀ x, binSearch a k fuel lo hi = Except.ok x → x < a.length ∧ a.getD x 0 = k)
      ∧ (∀ x, binSearch a k fuel lo hi = Except.error x →
          (∀ i, i < x → a.getD i 0 ≤ k)
          ∧ (∀ i, x ≤ i → i < a.length → k < a.getD i 0)
          ∧ x ≤ a.length) := by
  intro fuel
  induction fuel with
  | zero =>
    intro lo hi _ _ hfuel _ _
    omega
  | succ fuel ih =>
    intro lo hi hhi hlohi hfuel hbelow habove
    by_cases hlt : lo < hi
    · have hmidlo : lo ≤ (lo + hi) / 2 := by omega
      have hmidhi : (lo + hi) / 2 < hi := by omega
      have hexp : binSearch a k (fuel + 1) lo hi
          = if a.getD ((lo + hi) / 2) 0 < k then binSearch a k fuel ((lo + hi) / 2 + 1) hi
            else if k < a.getD ((lo + hi) / 2) 0 then binSearch a k fuel lo ((lo + hi) / 2)
            else Except.ok ((lo + hi) / 2) := by
        simp only [binSearch]
        rw [if_pos hlt]
      by_cases hv1 : a.getD ((lo + hi) / 2) 0 < k
      · rw [hexp, if_pos hv1]
        apply ih ((lo + hi) / 2 + 1) hi hhi (by omega) (by omega)
        · intro i hi2
          have h1 : a.getD i 0 ≤ a.getD ((lo + hi) / 2) 0 :=
            hmono i ((lo + hi) / 2) (by omega) (by omega)
          omega
        · exact habove
      · rw [hexp, if_neg hv1]
        by_cases hv2 : k < a.getD ((lo + hi) / 2) 0
        · rw [if_pos hv2]
          apply ih lo ((lo + hi) / 2) (by omega) (by omega) (by omega) hbelow
          intro i hi1 hi2
          have h1 : a.getD ((lo + hi) / 2) 0 ≤ a.getD i 0 := hmono _ i hi1 hi2
          omega
        · rw [if_neg hv2]
          constructor
          · intro x hx
            have hxe : x = (lo + hi) / 2 := (Except.ok.inj hx).symm
            subst hxe
            exact ⟨by omega, by omega⟩
          · intro x hx
            exact absurd hx (by intro hc; exact Except.noConfusion hc)
    · have hexp : binSearch a k (fuel + 1) lo hi = Except.error lo := by
        simp only [binSearch]
        rw [if_neg hlt]
      rw [hexp]
      constructor
      · intro x hx
        exact absurd hx (by intro hc; exact Except.noConfusion hc)
      · intro x hx
        have hxe : x = lo := (Except.error.inj hx).symm
        subst hxe
        exact ⟨hbelow, fun i h1 h2 => habove i (by omega) h2, by omega⟩

theorem advancePast_spec (a : List Nat) (k : Nat) :
    ∀ fuel x j, x ≤ j → j < a.length → a.getD j 0 ≠ k → j - x < fuel →
      ∃ y, advancePast a k fuel x = some y ∧ x ≤ y ∧ y < a.length
        ∧ (∀ i, x ≤ i → i < y → a.getD i 0 = k) ∧ a.getD y 0 ≠ k := by
  intro fuel
  induction fuel with
  | zero =>
    intro x j _ _ _ hfuel
    omega
  | succ fuel ih =>
    intro x j hxj hj hjk hfuel
    have hxlen : x < a.length := by omega
    have hexp : advancePast a k (fuel + 1) x
        = if a.getD x 0 = k then advancePast a k fuel (x + 1) else some x := by
      simp only [advancePast]
      rw [get?_eq_some_getD a x hxlen]
    by_cases hc : a.getD x 0 = k
    · rw [hexp, if_pos hc]
      have hxj2 : x + 1 ≤ j := by
        rcases Nat.lt_or_ge x j with h | h
        · omega
        · have : x = j := by omega
          subst this
          exact absurd hc hjk
      obtain ⟨y, h1, h2, h3, h4, h5⟩ := ih (x + 1) j hxj2 hj hjk (by omega)
      refine ⟨y, h1, by omega, h3, ?_, h5⟩
      intro i hi1 hi2
      by_cases hie : i = x
      · subst hie
        exact hc
      · exact h4 i (by omega) hi2
    · rw [hexp, if_neg hc]
      exact ⟨x, rfl, Nat.le_refl x, hxlen, fun i h1 h2 => by omega, hc⟩

theorem searchIdx_spec (a : List Nat) (k : Nat)
    (hmono : ∀ i j, i ≤ j → j < a.length → a.getD i 0 ≤ a.getD j 0)
    (hne : a ≠ []) (hlast : k < a.getD (a.length - 1) 0) :
    ∃ idx, searchIdx a k = some idx ∧ idx < a.length
      ∧ (∀ i, i < idx → a.getD i 0 ≤ k) ∧ k < a.getD idx 0 := by
  have hlen0 : 0 < a.length := List.length_pos.mpr hne
  obtain ⟨hok, herr⟩ := binSearch_spec a k hmono (a.length + 1) 0 a.length
    (Nat.le_refl _) (by omega) (by omega) (fun i h => by omega)
    (fun i h1 h2 => by omega)
  unfold searchIdx
  cases hres : binSearch a k (a.length + 1) 0 a.length with
  | error x =>
    obtain ⟨hb, ha, hxle⟩ := herr x hres
    have hxlt : x < a.length := by
      by_contra hge
      have hxe : x = a.length := by omega
      subst hxe
      exact absurd (hb (a.length - 1) (by omega)) (by omega)
    exact ⟨x, rfl, hxlt, hb, ha x (Nat.le_refl x) hxlt⟩
  | ok x =>
    obtain ⟨hxlt, hxk⟩ := hok x hres
    have hjne : a.getD (a.length - 1) 0 ≠ k := by omega
    obtain ⟨y, h1, h2, h3, h4, h5⟩ := advancePast_spec a k (a.length + 1) x (a.length - 1)
      (by omega) (by omega) hjne (by omega)
    refine ⟨y, h1, h3, ?_, ?_⟩
    · intro i hi
      rcases Nat.lt_or_ge i x with h | h
      · have := hmono i x (by omega) hxlt
        omega
      · rw [h4 i h hi]
    · have h6 : a.getD x 0 ≤ a.getD y 0 := hmono x y h2 h3
      omega

theorem decodeFrom_get? (store : List Nat) :
    ∀ base k idx, (∀ w ∈ store, w < 2 ^ 64) → idx < store.length →
      prefixPop store idx ≤ k → k < prefixPop store (idx + 1) →
      (decodeFrom store base).get? k
        = (decodeWordL 64 (store.getD idx 0) (base + 240 * idx)).get? (k - prefixPop store idx) := by
  induction store with
  | nil =>
    intro base k idx _ hidx _ _
    simp at hidx
  | cons w ws ih =>
    intro base k idx hw hidx hlow hhigh
    have hw0 : w < 2 ^ 64 := hw w (List.mem_cons_self w ws)
    have hws : ∀ v ∈ ws, v < 2 ^ 64 := fun v hv => hw v (List.mem_cons_of_mem w hv)
    have hlenw : (decodeWordL 64 w base).length = count_ones w := decodeWordL_length w base hw0
    cases idx with
    | zero =>
      have hp0 : prefixPop (w :: ws) 0 = 0 := rfl
      have hp1 : prefixPop (w :: ws) 1 = count_ones w := by
        unfold prefixPop
        simp
      rw [hp1] at hhigh
      show (decodeWordL 64 w base ++ decodeFrom ws (base + MODULUS)).get? k = _
      rw [List.get?_append (by omega)]
      rw [hp0]
      simp only [List.getD_cons_zero, Nat.mul_zero, Nat.add_zero, Nat.sub_zero]
    | succ idx =>
      have hpsucc : ∀ m, prefixPop (w :: ws) (m + 1) = count_ones w + prefixPop ws m := by
        intro m
        unfold prefixPop
        simp
      rw [hpsucc] at hlow hhigh
      show (decodeWordL 64 w base ++ decodeFrom ws (base + MODULUS)).get? k = _
      rw [List.get?_append_right (by omega), hlenw]
      rw [ih (base + MODULUS) (k - count_ones w) idx hws (by simpa using hidx)
        (by omega) (by omega)]
      rw [hpsucc]
      have harg : k - count_ones w - prefixPop ws idx
          = k - (count_ones w + prefixPop ws idx) := by omega
      rw [harg]
      have hbase : base + MODULUS + 240 * idx = base + 240 * (idx + 1) := by
        unfold MODULUS
        ring
      rw [hbase]
      simp only [List.getD_cons_succ]

theorem iterNth_single (w m : Nat) (hw : w < 2 ^ 64) :
    iterNth [w] (initState [w]) m = (decodeWordL 64 w 0).get? m := by
  have hws : ∀ v ∈ [w], v < 2 ^ 64 := by
    intro v hv
    rw [List.mem_singleton] at hv
    subst hv
    exact hw
  rw [iterNth_eq_rest m [w] (initState [w]) hws (by simpa [initState] using hw)
    (by simp [initState])]
  unfold iterRest initState
  simp only [List.headD_cons, List.drop_succ_cons, List.drop_nil]
  rw [show decodeFrom [] (0 + MODULUS) = [] from rfl, List.append_nil]

theorem decodeWordL_base_shift (w base m : Nat) (hw : w < 2 ^ 64) :
    (decodeWordL 64 w base).get? m = ((decodeWordL 64 w 0).get? m).map (fun v => base + v) := by
  rw [decodeWordL_64 w base hw, decodeWordL_64 w 0 hw, List.get?_map, List.get?_map]
  cases hq : (bitsOf w).get? m with
  | none => rfl
  | some b =>
    simp

theorem getD_of_get? (l : List Nat) (i v : Nat) (h : l.get? i = some v) :
    l.getD i 0 = v := by
  rw [List.getD_eq_get?, h]
  rfl

theorem countsList_length (store : List Nat) : (countsList store).length = store.length :=
  countsGo_length store 0

theorem countsList_getD (store : List Nat) (i : Nat) (hi : i < store.length) :
    (countsList store).getD i 0 = prefixPop store (i + 1) :=
  getD_of_get? _ _ _ (countsList_get? store i hi)

theorem nth_prime_eq_iter_aux (store : List Nat) (hw : ∀ w ∈ store, w < 2 ^ 64)
    (hne : store ≠ []) (n np : Nat) (hnp : num_primes store = some np) (hn : n < np) :
    nth_prime store n = some ((iterList store).get? n) := by
  have hlen0 : 0 < store.length := List.length_pos.mpr hne
  match n, hn with
  | 0, _ => rfl
  | 1, _ => rfl
  | 2, _ => rfl
  | m + 3, hn =>
    have hnptot : np = prefixPop store store.length := by
      have h2 := num_primes_popcount store hne
      rw [hnp] at h2
      have h3 := Option.some.inj h2
      unfold prefixPop
      rw [List.take_length]
      exact h3
    have hmnp : m < np := by omega
    have hclen : (countsList store).length = store.length := countsList_length store
    have hmono : ∀ i j, i ≤ j → j < (countsList store).length →
        (countsList store).getD i 0 ≤ (countsList store).getD j 0 := by
      intro i j hij hj
      rw [hclen] at hj
      rw [countsList_getD store i (by omega), countsList_getD store j hj]
      exact prefixPop_mono store (i + 1) (j + 1) (by omega)
    have hcne : countsList store ≠ [] := by
      intro hc
      rw [← List.length_eq_zero] at hc  
      omega
    have hlast : m < (countsList store).getD ((countsList store).length - 1) 0 := by
      rw [hclen, countsList_getD store (store.length - 1) (by omega)]
      have he : store.length - 1 + 1 = store.length := by omega
      rw [he, ← hnptot]
      exact hmnp
    obtain ⟨idx, hsi, hidxc, hbelow, habove⟩ := searchIdx_spec (countsList store) m hmono hcne hlast
    rw [hclen] at hidxc
    rw [countsList_getD store idx hidxc] at habove
    have hplow : prefixPop store idx ≤ m := by
      cases idx with
      | zero =>
        show prefixPop store 0 ≤ m
        unfold prefixPop
        simp
      | succ i =>
        have := hbelow i (by omega)
        rw [countsList_getD store i (by omega)] at this
        exact this
    have hcw : prefixPop store (idx + 1) - count_ones (store.getD idx 0)
        = prefixPop store idx := by
      rw [prefixPop_succ store idx hidxc]
      omega
    have hw0 : store.getD idx 0 < 2 ^ 64 := hw _ (getD_mem store idx hidxc)
    have hlendw : (decodeWordL 64 (store.getD idx 0) 0).length
        = count_ones (store.getD idx 0) := decodeWordL_length _ 0 hw0
    cases hq : (decodeWordL 64 (store.getD idx 0) 0).get? (m - prefixPop store idx) with
    | none =>
      rw [List.get?_eq_none] at hq
      rw [hlendw] at hq
      rw [prefixPop_succ store idx hidxc] at habove
      omega
    | some v =>
      have hLHS : nth_prime store (m + 3) = some (some (MODULUS * idx + v)) := by
        have hget1 := countsList_get? store idx hidxc
        have hget2 := get?_eq_some_getD store idx hidxc
        have h1 : nth_prime store (m + 3) = nth_prime_search store (m + 3) := rfl
        rw [h1]
        unfold nth_prime_search
        rw [hnp]
        show (if m + 3 < np then
            match searchIdx (countsList store) (m + 3 - 3) with
            | none => none
            | some idx2 => nth_prime_found store (m + 3 - 3) idx2
          else some none) = some (some (MODULUS * idx + v))
        rw [if_pos hn, Nat.add_sub_cancel, hsi]
        show nth_prime_found store m idx = some (some (MODULUS * idx + v))
        simp only [nth_prime_found, hget1, hget2, iterNth_single, hw0, hcw, hq]
      rw [hLHS]
      have hRHS : (iterList store).get? (m + 3) = some (MODULUS * idx + v) := by
        unfold iterList
        rw [List.get?_cons_succ, List.get?_cons_succ, List.get?_cons_succ,
          sieveIterList_eq_decode store hw]
        rw [decodeFrom_get? store 0 m idx hw hidxc hplow habove]
        rw [decodeWordL_base_shift _ _ _ hw0, hq]
        simp only [Option.map_some', Option.some.injEq]
        unfold MODULUS
        omega
      rw [hRHS]

theorem iterList_length (store : List Nat) (hw : ∀ w ∈ store, w < 2 ^ 64) :
    (iterList store).length = 3 + prefixPop store store.length := by
  unfold iterList
  rw [List.length_cons, List.length_cons, List.length_cons,
    sieveIterList_eq_decode store hw, decodeFrom_length store 0 hw]
  omega

/-- C3: for every sieve built by the constructor and every index n below
`num_primes()`, `nth_prime(n)` returns (without panicking) a determined
value, and that value is exactly the n-th element (0-indexed) of the
sequence produced by `iter()` (2, 3, 5 followed by the decoded store). -/
theorem nth_prime_matches_iter (limit n np : Nat)
    (hnp : num_primes (segmented_sieve limit) = some np) (hn : n < np) :
    ∃ p, nth_prime (segmented_sieve limit) n = some (some p)
      ∧ (iterList (segmented_sieve limit)).get? n = some p := by
  obtain ⟨hw, hlen, -⟩ := segmented_sieve_invariants limit
  have hne : segmented_sieve limit ≠ [] := by
    intro hc
    rw [hc] at hlen
    simp at hlen
  have hmain := nth_prime_eq_iter_aux (segmented_sieve limit) hw hne n np hnp hn
  have hnp2 := num_primes_popcount (segmented_sieve limit) hne
  rw [hnp] at hnp2
  have hnpsum := Option.some.inj hnp2
  have hlt : n < (iterList (segmented_sieve limit)).length := by
    rw [iterList_length (segmented_sieve limit) hw]
    unfold prefixPop
    rw [List.take_length]
    omega
  have hp := List.get?_eq_get hlt
  exact ⟨_, by rw [hmain, hp], hp⟩

set_option maxRecDepth 1000000 in
set_option maxHeartbeats 1000000 in
/-- C3 witness: the claim theorem at the sieve built by `Sieve::to_limit(0)`,
index 15 (the 16th prime, 59). -/
theorem nth_prime_matches_iter_witness :
    num_primes (segmented_sieve 0) = some 49 ∧ 15 < 49
    ∧ ∃ p, nth_prime (segmented_sieve 0) 15 = some (some p)
      ∧ (iterList (segmented_sieve 0)).get? 15 = some p :=
  ⟨by decide, by decide, nth_prime_matches_iter 0 15 49 (by decide) (by decide)⟩

theorem OFFSETS_inj (b1 b2 : Nat) (h1 : b1 < 64) (h2 : b2 < 64)
    (he : OFFSETS.getD b1 0 = OFFSETS.getD b2 0) : b1 = b2 := by
  rcases Nat.lt_trichotomy b1 b2 with h | h | h
  · have := OFFSETS_mono b1 (List.mem_range.mpr h1) b2 (List.mem_range.mpr h2) h
    omega
  · exact h
  · have := OFFSETS_mono b2 (List.mem_range.mpr h2) b1 (List.mem_range.mpr h1) h
    omega

theorem seg_get_set_off_ne (seg : List Nat) (idx j : Nat) (hne : j ≠ idx) :
    seg_get (set_off seg idx) j = seg_get seg j := by
  by_cases hf : (POS.getD (idx % 240) (false, 0)).1 = true
  · rw [set_off_repr seg idx hf]
    by_cases hlen : idx / 240 < seg.length
    · rw [seg_get_set seg (idx / 240) _ j hlen]
      by_cases hc : (POS.getD (j % 240) (false, 0)).1 = true ∧ j / 240 = idx / 240
      · rw [if_pos hc]
        obtain ⟨bi, hbi, hoffi, hmaski⟩ := POS_mask_of_repr idx hf
        obtain ⟨bj, hbj, hoffj, hmaskj⟩ := POS_mask_of_repr j hc.1
        have hbne : bi ≠ bj := by
          intro hbb
          apply hne
          apply div_mod_240_inj hc.2
          rw [← hoffj, ← hoffi, hbb]
        rw [seg_get_repr seg j hc.1, hc.2, get?_eq_some_getD seg (idx / 240) hlen]
        rw [hmaski, hmaskj, Option.map_some']
        rw [decide_and_two_pow, decide_and_two_pow, Nat.testBit_and,
          testBit_off_mask bi bj hbi hbj, decide_eq_true hbne, Bool.and_true]
      · rw [if_neg hc]
    · rw [List.set_eq_of_length_le (by omega)]
  · simp only [Bool.not_eq_true] at hf
    rw [set_off_not_repr seg idx hf]

theorem crossSeg_get_lt :
    ∀ fuel size seg index wh j, j < index →
      seg_get (crossSeg fuel size seg index wh).1 j = seg_get seg j := by
  intro fuel
  induction fuel with
  | zero =>
    intro size seg index wh j hj
    rfl
  | succ fuel ih =>
    intro size seg index wh j hj
    by_cases hidx : index < size
    · have hstep : crossSeg (fuel + 1) size seg index wh
          = crossSeg fuel size (set_off seg index) (index + wh.next_diff.1) wh.next_diff.2 := by
        simp only [crossSeg]
        rw [if_pos hidx]
      rw [hstep, ih size (set_off seg index) _ _ j (by omega),
        seg_get_set_off_ne seg index j (by omega)]
    · have hstep : crossSeg (fuel + 1) size seg index wh = (seg, index, wh) := by
        simp only [crossSeg]
        rw [if_neg hidx]
      rw [hstep]

theorem crossAll_get_lt :
    ∀ pairs size (seg : List Nat) j, (∀ pr ∈ pairs, j < pr.1) →
      seg_get (crossAll size seg pairs).1 j = seg_get seg j := by
  intro pairs
  induction pairs with
  | nil =>
    intro size seg j _
    rfl
  | cons p rest ih =>
    intro size seg j hj
    have hexp : (crossAll size seg (p :: rest)).1
        = (crossAll size (crossSeg (size + 1) size seg p.1 p.2).1 rest).1 := rfl
    rw [hexp, ih size _ j (fun pr hpr => hj pr (List.mem_cons_of_mem p hpr)),
      crossSeg_get_lt (size + 1) size seg p.1 p.2 j (hj p (List.mem_cons_self p rest))]

theorem iterRest_init (sp : List Nat) : iterRest sp (initState sp) = decodeFrom sp 0 := by
  cases sp with
  | nil => rfl
  | cons w ws =>
    unfold iterRest initState
    simp only [List.headD_cons, List.drop_succ_cons, List.drop_zero]
    rfl

theorem OFFSETS_ge7 : ∀ b ∈ List.range 64, 1 ≤ b → 7 ≤ OFFSETS.getD b 0 := by decide

theorem decodeFrom_ge7 (sp : List Nat) (hw : ∀ w ∈ sp, w < 2 ^ 64)
    (h0 : Nat.testBit (sp.getD 0 0) 0 = false) :
    ∀ x ∈ decodeFrom sp 0, 7 ≤ x := by
  intro x hx
  obtain ⟨i, hi, b, hb, ht, he⟩ := (mem_decodeFrom sp 0 x hw).mp hx
  cases i with
  | zero =>
    have hbne : 1 ≤ b := by
      rcases Nat.eq_zero_or_pos b with hb0 | hb0
      · rw [hb0] at ht
        rw [h0] at ht
        exact absurd ht (by simp)
      · exact hb0
    have := OFFSETS_ge7 b (List.mem_range.mpr hb) hbne
    omega
  | succ i => omega

theorem crossOffBelow_inv :
    ∀ fuel sieve mult bound wh,
      ((∀ w ∈ sieve, w < 2 ^ 64) → ∀ w ∈ crossOffBelow fuel sieve mult bound wh, w < 2 ^ 64)
      ∧ (crossOffBelow fuel sieve mult bound wh).length = sieve.length
      ∧ (Nat.testBit (sieve.getD 0 0) 0 = false →
          Nat.testBit ((crossOffBelow fuel sieve mult bound wh).getD 0 0) 0 = false) := by
  intro fuel
  induction fuel with
  | zero =>
    intro sieve mult bound wh
    exact ⟨fun h => h, rfl, fun h => h⟩
  | succ fuel ih =>
    intro sieve mult bound wh
    by_cases hm : mult < bound
    · have hstep : crossOffBelow (fuel + 1) sieve mult bound wh
          = crossOffBelow fuel (set_off sieve mult) (mult + wh.next_diff.1) bound
              wh.next_diff.2 := by
        simp only [crossOffBelow]
        rw [if_pos hm]
      rw [hstep]
      obtain ⟨i1, i2, i3⟩ := ih (set_off sieve mult) (mult + wh.next_diff.1) bound wh.next_diff.2
      refine ⟨fun h => i1 (set_off_words sieve mult h), ?_,
        fun h => i3 (set_off_getD_zero sieve mult h)⟩
      rw [i2, set_off_length]
    · have hstep : crossOffBelow (fuel + 1) sieve mult bound wh = sieve := by
        simp only [crossOffBelow]
        rw [if_neg hm]
      rw [hstep]
      exact ⟨fun h => h, rfl, fun h => h⟩

theorem smallPrimesLoop_inv :
    ∀ fuel sieve st small_limit,
      ((∀ w ∈ sieve, w < 2 ^ 64) → ∀ w ∈ smallPrimesLoop fuel sieve st small_limit, w < 2 ^ 64)
      ∧ (smallPrimesLoop fuel sieve st small_limit).length = sieve.length
      ∧ (Nat.testBit (sieve.getD 0 0) 0 = false →
          Nat.testBit ((smallPrimesLoop fuel sieve st small_limit).getD 0 0) 0 = false) := by
  intro fuel
  induction fuel with
  | zero =>
    intro sieve st sl
    exact ⟨fun h => h, rfl, fun h => h⟩
  | succ fuel ih =>
    intro sieve st sl
    cases hnext : iterNext sieve st with
    | none =>
      have hstep : smallPrimesLoop (fuel + 1) sieve st sl = sieve := by
        simp only [smallPrimesLoop, hnext]
      rw [hstep]
      exact ⟨fun h => h, rfl, fun h => h⟩
    | some pst =>
      obtain ⟨p, st3⟩ := pst
      by_cases hps : sl ≤ p * p
      · have hstep : smallPrimesLoop (fuel + 1) sieve st sl = sieve := by
          simp only [smallPrimesLoop, hnext]
          rw [if_pos hps]
        rw [hstep]
        exact ⟨fun h => h, rfl, fun h => h⟩
      · have hstep : smallPrimesLoop (fuel + 1) sieve st sl
            = smallPrimesLoop fuel
                (crossOffBelow sl sieve (p * p) sl (Wheel30.new p p)) st3 sl := by
          simp only [smallPrimesLoop, hnext]
          rw [if_neg hps]
        rw [hstep]
        obtain ⟨c1, c2, c3⟩ := crossOffBelow_inv sl sieve (p * p) sl (Wheel30.new p p)
        obtain ⟨i1, i2, i3⟩ := ih (crossOffBelow sl sieve (p * p) sl (Wheel30.new p p)) st3 sl
        refine ⟨fun h => i1 (c1 h), ?_, fun h => i3 (c3 h)⟩
        rw [i2, c2]

theorem small_primes_inv (limit : Nat) :
    (∀ w ∈ small_primes limit, w < 2 ^ 64)
    ∧ 1 ≤ (small_primes limit).length
    ∧ Nat.testBit ((small_primes limit).getD 0 0) 0 = false := by
  unfold small_primes
  simp only
  set len := nat_sqrt limit / MODULUS + 1 with hlendef
  set sieve0 := (List.replicate len ((2 : Nat) ^ 64 - 1)).set 0 FIRST_WORD with hs0def
  have hw0 : ∀ w ∈ sieve0, w < 2 ^ 64 := by
    intro w hw
    rcases List.mem_or_eq_of_mem_set hw with hw | hw
    · rw [List.eq_of_mem_replicate hw]
      norm_num
    · subst hw
      decide
  have hlen0 : sieve0.length = len := by
    rw [hs0def, List.length_set, List.length_replicate]
  have hlenpos : 0 < len := by
    rw [hlendef]
    exact Nat.succ_pos _
  have hbit0 : Nat.testBit (sieve0.getD 0 0) 0 = false := by
    have hg : sieve0.getD 0 0 = FIRST_WORD := by
      rw [hs0def, List.getD_eq_getElem _ 0
        (show 0 < ((List.replicate len ((2 : Nat) ^ 64 - 1)).set 0 FIRST_WORD).length by
          rw [List.length_set, List.length_replicate]; omega)]
      exact List.getElem_set_self (by rw [List.length_set, List.length_replicate]; omega)
    rw [hg]
    decide
  obtain ⟨i1, i2, i3⟩ := smallPrimesLoop_inv (64 * len + 1) sieve0 (initState sieve0)
    (MODULUS * len)
  refine ⟨i1 hw0, ?_, i3 hbit0⟩
  rw [i2, hlen0]
  omega

theorem pullPrimes_indices :
    ∀ fuel (sp : List Nat) st low high,
      (∀ w ∈ sp, w < 2 ^ 64) → st.current < 2 ^ 64 → st.base = MODULUS * st.curr_idx →
      (∀ x ∈ iterRest sp st, 7 ≤ x) →
      ∀ pr ∈ (pullPrimes fuel sp st low high).1,
        ∃ p, 7 ≤ p ∧ pr.1 = p * p - low ∧ pr.2 = Wheel30.new p p := by
  intro fuel
  induction fuel with
  | zero =>
    intro sp st low high _ _ _ _ pr hpr
    simp [pullPrimes] at hpr
  | succ fuel ih =>
    intro sp st low high hw hcur hbase hrest pr hpr
    cases hnext : iterNext sp st with
    | none =>
      have hstep : (pullPrimes (fuel + 1) sp st low high).1 = [] := by
        simp only [pullPrimes, hnext]
      rw [hstep] at hpr
      simp at hpr
    | some pst =>
      obtain ⟨p, st3⟩ := pst
      obtain ⟨hlist, hc3, hb3, -⟩ := (iterNext_spec sp st hw hcur hbase).2 p st3 hnext
      have hp7 : 7 ≤ p := hrest p (by rw [hlist]; exact List.mem_cons_self _ _)
      have hrest3 : ∀ x ∈ iterRest sp st3, 7 ≤ x := fun x hx =>
        hrest x (by rw [hlist]; exact List.mem_cons_of_mem _ hx)
      by_cases hhp : high ≤ p * p
      · have hstep : (pullPrimes (fuel + 1) sp st low high).1
            = [(p * p - low, Wheel30.new p p)] := by
          simp only [pullPrimes, hnext]
          rw [if_pos hhp]
        rw [hstep] at hpr
        rw [List.mem_singleton] at hpr
        subst hpr
        exact ⟨p, hp7, rfl, rfl⟩
      · have hstep : (pullPrimes (fuel + 1) sp st low high).1
            = (p * p - low, Wheel30.new p p) :: (pullPrimes fuel sp st3 low high).1 := by
          simp only [pullPrimes, hnext]
          rw [if_neg hhp]
        rw [hstep] at hpr
        rcases List.mem_cons.mp hpr with hpr | hpr
        · subst hpr
          exact ⟨p, hp7, rfl, rfl⟩
        · exact ih sp st3 low high hw hc3 hb3 hrest3 pr hpr

theorem headD_zero_lt (sp : List Nat) (hw : ∀ w ∈ sp, w < 2 ^ 64) :
    sp.headD 0 < 2 ^ 64 := by
  cases sp with
  | nil => norm_num
  | cons w ws => exact hw w (List.mem_cons_self w ws)

theorem segmented_sieve_word0 (limit : Nat) :
    Nat.testBit ((segmented_sieve limit).getD 0 0) 1 = true
    ∧ Nat.testBit ((segmented_sieve limit).getD 0 0) 2 = true
    ∧ Nat.testBit ((segmented_sieve limit).getD 0 0) 3 = true := by
  unfold segmented_sieve segmentedSieveWith
  simp only
  set lim := limit + MODULUS - limit % MODULUS with hlimdef
  set sp := small_primes lim with hspdef
  set b0 := (List.replicate 32768 ((2 : Nat) ^ 64 - 1)).set 0 ((2 ^ 64 - 1) ^^^ 1) with hb0def
  have hlim240 : 240 ≤ lim := by
    have h2 : limit % MODULUS ≤ limit := Nat.mod_le _ _
    have h3 : limit % MODULUS < MODULUS := Nat.mod_lt limit (by unfold MODULUS; norm_num)
    rw [hlimdef]
    unfold MODULUS at h3 ⊢
    omega
  have hb0len : b0.length = 32768 := by
    rw [hb0def, List.length_set, List.length_replicate]
  have hb0word : b0.get? 0 = some ((2 ^ 64 - 1) ^^^ 1) := by
    rw [hb0def]
    exact List.get?_set_eq_of_lt _ (by rw [List.length_replicate]; norm_num)
  have hfuel : lim / (MODULUS * 32768) + 2 = (lim / (MODULUS * 32768) + 1) + 1 := rfl
  rw [hfuel, segLoop_step 32768 lim sp _ _ [] 0 b0 [] (by omega)]
  set size := min (0 + MODULUS * 32768) lim - 0 with hsizedef
  have hsize240 : 240 ≤ size := by
    rw [hsizedef]
    unfold MODULUS
    omega
  obtain ⟨hspw, hsplen, hspbit0⟩ := small_primes_inv lim
  set pulled := (pullPrimes (64 * sp.length + 1) sp (initState sp) 0
    (min (0 + MODULUS * 32768) lim)).1 with hpulldef
  have hcur : (initState sp).current < 2 ^ 64 := headD_zero_lt sp hspw
  have hidx := pullPrimes_indices (64 * sp.length + 1) sp (initState sp) 0
    (min (0 + MODULUS * 32768) lim) hspw hcur (by simp [initState])
    (by rw [iterRest_init]; exact decodeFrom_ge7 sp hspw hspbit0)
  have hgt : ∀ j, j < 14 → ∀ pr ∈ ([] : List (Nat × Wheel30)) ++ pulled, j < pr.1 := by
    intro j hj pr hpr
    rw [List.nil_append] at hpr
    obtain ⟨p, hp7, h1, -⟩ := hidx pr hpr
    have h49 : 49 ≤ p * p := Nat.mul_le_mul hp7 hp7
    omega
  set crossed := (crossAll size b0 ([] ++ pulled)).1 with hcrdef
  have hcl : crossed.length = 32768 := by
    rw [hcrdef, (crossAll_invariants ([] ++ pulled) size b0).2.1, hb0len]
  have hget : ∀ j, j < 14 → seg_get crossed j = seg_get b0 j := fun j hj =>
    crossAll_get_lt ([] ++ pulled) size b0 j (hgt j hj)
  have hbit : ∀ j b, j < 14 → (POS.getD (j % 240) (false, 0)).1 = true →
      (POS.getD (j % 240) (false, 0)).2 = 2 ^ b →
      Nat.testBit (((2 : Nat) ^ 64 - 1) ^^^ 1) b = true →
      Nat.testBit (crossed.getD 0 0) b = true := by
    intro j b hj hrepr hmaskeq hbval
    have hs := hget j hj
    rw [seg_get_repr b0 j hrepr, show j / 240 = 0 by omega, hb0word] at hs
    rw [seg_get_repr crossed j hrepr, show j / 240 = 0 by omega,
      get?_eq_some_getD crossed 0 (by omega)] at hs
    simp only [Option.map_some'] at hs
    rw [Option.some.injEq, hmaskeq, decide_and_two_pow, decide_and_two_pow] at hs
    rw [hs]
    exact hbval
  have hword : ∀ rest2 : List Nat,
      ((([] : List Nat)
          ++ (if size < MODULUS * 32768 then crossed.take (size / MODULUS) else crossed))
        ++ rest2).getD 0 0 = crossed.getD 0 0 := by
    intro rest2
    rw [List.nil_append]
    have hcne : (if size < MODULUS * 32768 then crossed.take (size / MODULUS)
        else crossed) ≠ [] := by
      split
      · intro hc
        have := congrArg List.length hc
        rw [List.length_take, hcl] at this
        simp only [List.length_nil] at this
        unfold MODULUS at this
        omega
      · intro hc
        have := congrArg List.length hc
        rw [hcl] at this
        simp at this
    rw [getD_zero_append _ rest2 hcne]
    split
    · exact getD_zero_take crossed _ (by unfold MODULUS; omega)
    · rfl
  obtain ⟨rest2, hrest2⟩ := segLoop_prefix (lim / (MODULUS * 32768) + 1) 32768 lim sp
    (pullPrimes (64 * sp.length + 1) sp (initState sp) 0 (min (0 + MODULUS * 32768) lim)).2
    (crossAll size b0 ([] ++ pulled)).2 (0 + MODULUS * 32768)
    (List.replicate 32768 (2 ^ 64 - 1))
    ([] ++ (if size < MODULUS * 32768 then crossed.take (size / MODULUS) else crossed))
  rw [hrest2, hword rest2]
  exact ⟨hbit 7 1 (by omega) (by decide) (by decide) (by decide),
    hbit 11 2 (by omega) (by decide) (by decide) (by decide),
    hbit 13 3 (by omega) (by decide) (by decide) (by decide)⟩

theorem count_ones_ge_three (w : Nat) (h1 : Nat.testBit w 1 = true)
    (h2 : Nat.testBit w 2 = true) (h3 : Nat.testBit w 3 = true) :
    3 ≤ count_ones w := by
  have he : count_ones w = ((List.range 64).filter (fun b => w.testBit b)).length :=
    count_ones_eq_filter 64 w
  rw [he]
  have hnd : ((List.range 64).filter (fun b => w.testBit b)).Nodup :=
    List.Nodup.filter _ (List.nodup_range 64)
  have hm : ∀ b, b < 64 → w.testBit b = true →
      b ∈ (List.range 64).filter (fun b => w.testBit b) := by
    intro b hb ht
    rw [List.mem_filter, List.mem_range]
    exact ⟨hb, ht⟩
  have hsub : ({1, 2, 3} : Finset ℕ) ⊆ ((List.range 64).filter (fun b => w.testBit b)).toFinset := by
    intro x hx
    rw [List.mem_toFinset]
    simp only [Finset.mem_insert, Finset.mem_singleton] at hx
    rcases hx with rfl | rfl | rfl
    · exact hm 1 (by omega) h1
    · exact hm 2 (by omega) h2
    · exact hm 3 (by omega) h3
  have hcard := Finset.card_le_card hsub
  rw [List.toFinset_card_of_nodup hnd] at hcard
  have hc3 : ({1, 2, 3} : Finset ℕ).card = 3 := by decide
  omega

theorem num_primes_lower (limit np : Nat)
    (hnp : num_primes (segmented_sieve limit) = some np) : 3 ≤ np := by
  obtain ⟨hw, hlen, -⟩ := segmented_sieve_invariants limit
  have hne : segmented_sieve limit ≠ [] := by
    intro hc
    rw [hc] at hlen
    simp at hlen
  have h2 := num_primes_popcount _ hne
  rw [hnp] at h2
  have hsum := Option.some.inj h2
  obtain ⟨hb1, hb2, hb3⟩ := segmented_sieve_word0 limit
  have hc3 : 3 ≤ count_ones ((segmented_sieve limit).getD 0 0) :=
    count_ones_ge_three _ hb1 hb2 hb3
  cases hst : segmented_sieve limit with
  | nil => exact absurd hst hne
  | cons w ws =>
    rw [hst] at hsum hc3
    simp only [List.map_cons, List.sum_cons] at hsum
    simp only [List.getD_cons_zero] at hc3
    omega

theorem seg_get_isSome (seg : List Nat) (n : Nat) (h : n / 240 < seg.length) :
    seg_get seg n ≠ none := by
  by_cases hf : (POS.getD (n % 240) (false, 0)).1 = true
  · rw [seg_get_repr seg n hf, get?_eq_some_getD seg _ h]
    simp
  · simp only [Bool.not_eq_true] at hf
    rw [seg_get_not_repr seg n hf]
    simp

theorem nth_prime_oob (store : List Nat) (n np : Nat) (hnp : num_primes store = some np)
    (h3 : 3 ≤ n) (hge : np ≤ n) : nth_prime store n = some none := by
  obtain ⟨m, rfl⟩ : ∃ m, n = m + 3 := ⟨n - 3, by omega⟩
  have hcond : ¬ (m + 3 < np) := by omega
  have h1 : nth_prime store (m + 3) = nth_prime_search store (m + 3) := rfl
  rw [h1]
  unfold nth_prime_search
  rw [hnp]
  show (if m + 3 < np then
      match searchIdx (countsList store) (m + 3 - 3) with
      | none => none
      | some idx2 => nth_prime_found store (m + 3 - 3) idx2
    else some none) = some none
  rw [if_neg hcond]

/-- C5: for every sieve built by the constructor, the range-exceeding public
queries return explicit absence/error values and never panic: `is_prime(n)`
with `n` greater than `limit()²` (saturating) returns `Err(())`,
`nth_prime(n)` with `n ≥ num_primes()` returns `None`, and both functions
are total (the `none` that models a panic is never produced). -/
theorem range_exceeding_queries_explicit (limit n np : Nat)
    (hnp : num_primes (segmented_sieve limit) = some np) :
    (n < 2 ^ 64 →
      satMul (sieve_limit (segmented_sieve limit)) (sieve_limit (segmented_sieve limit)) < n →
      is_prime (segmented_sieve limit) n = some (Except.error ()))
    ∧ (np ≤ n → nth_prime (segmented_sieve limit) n = some none)
    ∧ is_prime (segmented_sieve limit) n ≠ none
    ∧ nth_prime (segmented_sieve limit) n ≠ none := by
  obtain ⟨hw, hlen, -⟩ := segmented_sieve_invariants limit
  have hne : segmented_sieve limit ≠ [] := by
    intro hc
    rw [hc] at hlen
    simp at hlen
  have hL : 240 ≤ sieve_limit (segmented_sieve limit) := by
    unfold sieve_limit MODULUS
    omega
  have hnp3 : 3 ≤ np := num_primes_lower limit np hnp
  refine ⟨?_, ?_, ?_, ?_⟩
  · intro h64 hgt
    unfold is_prime
    have hsm : 57600 ≤ satMul (sieve_limit (segmented_sieve limit))
        (sieve_limit (segmented_sieve limit)) := by
      unfold satMul
      have hmul : 57600 ≤ sieve_limit (segmented_sieve limit)
          * sieve_limit (segmented_sieve limit) := Nat.mul_le_mul hL hL
      have hbig : (57600 : Nat) ≤ 2 ^ 64 - 1 := by norm_num
      omega
    rw [if_neg (by omega)]
    have hnL : ¬ n < sieve_limit (segmented_sieve limit) := by
      unfold satMul at hgt
      have hL2 : sieve_limit (segmented_sieve limit)
          * sieve_limit (segmented_sieve limit) < n := by omega
      have hle2 : sieve_limit (segmented_sieve limit)
          ≤ sieve_limit (segmented_sieve limit) * sieve_limit (segmented_sieve limit) :=
        Nat.le_mul_of_pos_left _ (by omega)
      omega
    rw [if_neg hnL, if_neg (by omega)]
  · intro hge
    exact nth_prime_oob (segmented_sieve limit) n np hnp (by omega) hge
  · unfold is_prime
    by_cases h5 : n = 2 ∨ n = 3 ∨ n = 5
    · rw [if_pos h5]
      simp
    · rw [if_neg h5]
      by_cases hlt : n < sieve_limit (segmented_sieve limit)
      · rw [if_pos hlt]
        have hdiv : n / 240 < (segmented_sieve limit).length := by
          unfold sieve_limit MODULUS at hlt
          omega
        have hsg := seg_get_isSome (segmented_sieve limit) n hdiv
        cases hsgv : seg_get (segmented_sieve limit) n with
        | none => exact absurd hsgv hsg
        | some b => simp
      · rw [if_neg hlt]
        by_cases hle : n ≤ satMul (sieve_limit (segmented_sieve limit))
            (sieve_limit (segmented_sieve limit))
        · rw [if_pos hle]
          simp
        · rw [if_neg hle]
          simp
  · by_cases hcase : n < np
    · rw [nth_prime_eq_iter_aux (segmented_sieve limit) hw hne n np hnp hcase]
      simp
    · rw [nth_prime_oob (segmented_sieve limit) n np hnp (by omega) (by omega)]
      simp

set_option maxRecDepth 1000000 in
set_option maxHeartbeats 1000000 in
/-- C5 witness: the claim theorem at the sieve built by `Sieve::to_limit(0)`
(limit = 240, num_primes = 49) and the query value 57601 = 240² + 1, which
exceeds both `limit()²` and `num_primes()`. -/
theorem range_exceeding_queries_explicit_witness :
    num_primes (segmented_sieve 0) = some 49
    ∧ ((57601 < 2 ^ 64 →
        satMul (sieve_limit (segmented_sieve 0)) (sieve_limit (segmented_sieve 0)) < 57601 →
        is_prime (segmented_sieve 0) 57601 = some (Except.error ()))
      ∧ (49 ≤ 57601 → nth_prime (segmented_sieve 0) 57601 = some none)
      ∧ is_prime (segmented_sieve 0) 57601 ≠ none
      ∧ nth_prime (segmented_sieve 0) 57601 ≠ none) :=
  ⟨by decide, range_exceeding_queries_explicit 0 57601 49 (by decide)⟩

theorem iterList_sorted_pos (limit : Nat) :
    List.Pairwise (· < ·) (iterList (segmented_sieve limit))
    ∧ ∀ p ∈ iterList (segmented_sieve limit), 2 ≤ p := by
  obtain ⟨hw, -, hbit0⟩ := segmented_sieve_invariants limit
  have hdec := sieveIterList_eq_decode (segmented_sieve limit) hw
  obtain ⟨hsorted, -⟩ := decodeFrom_sorted_bounded (segmented_sieve limit) 0 hw
  have hge7 := decodeFrom_ge7 (segmented_sieve limit) hw hbit0
  have hexp : iterList (segmented_sieve limit)
      = 2 :: 3 :: 5 :: decodeFrom (segmented_sieve limit) 0 := by
    unfold iterList
    rw [hdec]
  rw [hexp]
  constructor
  · refine List.Pairwise.cons ?_ (List.Pairwise.cons ?_ (List.Pairwise.cons ?_ hsorted))
    · intro x hx
      rcases List.mem_cons.mp hx with rfl | hx
      · norm_num
      rcases List.mem_cons.mp hx with rfl | hx
      · norm_num
      have := hge7 x hx
      omega
    · intro x hx
      rcases List.mem_cons.mp hx with rfl | hx
      · norm_num
      have := hge7 x hx
      omega
    · intro x hx
      have := hge7 x hx
      omega
  · intro p hp
    rcases List.mem_cons.mp hp with rfl | hp
    · norm_num
    rcases List.mem_cons.mp hp with rfl | hp
    · norm_num
    rcases List.mem_cons.mp hp with rfl | hp
    · norm_num
    have := hge7 p hp
    omega

theorem trialAux_eq (n : Nat) (hn : n < 2 ^ 64 - 1) :
    ∀ l : List Nat, List.Pairwise (· < ·) l → (∀ p ∈ l, 0 < p) →
      trialAux n l = decide (∀ p ∈ l, p * p ≤ n → ¬ p ∣ n) := by
  intro l
  induction l with
  | nil =>
    intro _ _
    simp [trialAux]
  | cons p ps ih =>
    intro hsort hpos
    have hp0 : 0 < p := hpos p (List.mem_cons_self p ps)
    show (if n < satMul p p then true
      else if n % p = 0 then false else trialAux n ps) = _
    by_cases h1 : n < satMul p p
    · rw [if_pos h1]
      have hppn : n < p * p := by
        unfold satMul at h1
        omega
      have hall : ∀ q ∈ p :: ps, q * q ≤ n → ¬ q ∣ n := by
        intro q hq hqn
        exfalso
        rcases List.mem_cons.mp hq with rfl | hq
        · omega
        · have hpq : p < q := (List.pairwise_cons.mp hsort).1 q hq
          have hqq : p * p ≤ q * q := Nat.mul_le_mul (by omega) (by omega)
          omega
      exact (decide_eq_true hall).symm
    · rw [if_neg h1]
      have hple : p * p ≤ n := by
        unfold satMul at h1
        omega
      by_cases h2 : n % p = 0
      · rw [if_pos h2]
        have hdvd : p ∣ n := Nat.dvd_of_mod_eq_zero h2
        have hP : ¬ (∀ q ∈ p :: ps, q * q ≤ n → ¬ q ∣ n) := by
          intro hP
          exact hP p (List.mem_cons_self p ps) hple hdvd
        exact (decide_eq_false hP).symm
      · rw [if_neg h2]
        have hnd : ¬ p ∣ n := fun hd => h2 (Nat.dvd_iff_mod_eq_zero.mp hd)
        rw [ih (List.pairwise_cons.mp hsort).2
          (fun q hq => hpos q (List.mem_cons_of_mem p hq))]
        rw [decide_eq_decide]
        constructor
        · intro hps q hq
          rcases List.mem_cons.mp hq with rfl | hq
          · intro _ hd
            exact hnd hd
          · exact hps q hq
        · intro hall q hq
          exact hall q (List.mem_cons_of_mem p hq)

/-- C4: for every sieve built by the constructor and every n with
`limit() ≤ n ≤ limit()²` (saturating, with n below the u64 maximum and not
one of 2, 3, 5), `is_prime(n)` returns `Ok` of the trial-division result:
true exactly when no prime p yielded by `iter()` with `p² ≤ n` divides n. -/
theorem is_prime_trial_division (limit n : Nat)
    (hge : sieve_limit (segmented_sieve limit) ≤ n)
    (hle : n ≤ satMul (sieve_limit (segmented_sieve limit))
      (sieve_limit (segmented_sieve limit)))
    (hlt : n < 2 ^ 64 - 1)
    (hn5 : ¬ (n = 2 ∨ n = 3 ∨ n = 5)) :
    is_prime (segmented_sieve limit) n
      = some (Except.ok (decide (∀ p ∈ iterList (segmented_sieve limit),
          p * p ≤ n → ¬ p ∣ n))) := by
  obtain ⟨hsort, hpos⟩ := iterList_sorted_pos limit
  unfold is_prime
  rw [if_neg hn5, if_neg (by omega), if_pos hle]
  unfold trial_division
  rw [trialAux_eq n hlt (iterList (segmented_sieve limit)) hsort
    (fun p hp => by have := hpos p hp; omega)]

set_option maxRecDepth 1000000 in
set_option maxHeartbeats 1000000 in
/-- C4 witness: the claim theorem at the sieve built by `Sieve::to_limit(0)`
(limit = 240) and n = 241, which lies between `limit()` and `limit()²`. -/
theorem is_prime_trial_division_witness :
    sieve_limit (segmented_sieve 0) ≤ 241
    ∧ 241 ≤ satMul (sieve_limit (segmented_sieve 0)) (sieve_limit (segmented_sieve 0))
    ∧ 241 < 2 ^ 64 - 1
    ∧ ¬ ((241 : Nat) = 2 ∨ (241 : Nat) = 3 ∨ (241 : Nat) = 5)
    ∧ is_prime (segmented_sieve 0) 241
        = some (Except.ok (decide (∀ p ∈ iterList (segmented_sieve 0),
            p * p ≤ 241 → ¬ p ∣ 241))) :=
  ⟨by decide, by decide, by decide, by decide,
    is_prime_trial_division 0 241 (by decide) (by decide) (by decide) (by decide)⟩

theorem iter_mem_iff (limit k : Nat) (hk : k < sieve_limit (segmented_sieve limit)) :
    k ∈ iterList (segmented_sieve limit)
      ↔ is_prime (segmented_sieve limit) k = some (Except.ok true) := by
  obtain ⟨hw, hlen, hbit0⟩ := segmented_sieve_invariants limit
  have hdec := sieveIterList_eq_decode _ hw
  have hexp : iterList (segmented_sieve limit)
      = 2 :: 3 :: 5 :: decodeFrom (segmented_sieve limit) 0 := by
    unfold iterList
    rw [hdec]
  by_cases h5 : k = 2 ∨ k = 3 ∨ k = 5
  · constructor
    · intro _
      unfold is_prime
      rw [if_pos h5]
    · intro _
      rw [hexp]
      rcases h5 with rfl | rfl | rfl
      · exact List.mem_cons_self _ _
      · exact List.mem_cons_of_mem _ (List.mem_cons_self _ _)
      · exact List.mem_cons_of_mem _ (List.mem_cons_of_mem _ (List.mem_cons_self _ _))
  · have hsp : is_prime (segmented_sieve limit) k
        = (seg_get (segmented_sieve limit) k).map Except.ok := by
      unfold is_prime
      rw [if_neg h5, if_pos hk]
    have hdiv : k / 240 < (segmented_sieve limit).length := by
      unfold sieve_limit MODULUS at hk
      omega
    have hmem : (k ∈ iterList (segmented_sieve limit)
        ↔ k ∈ decodeFrom (segmented_sieve limit) 0) := by
      rw [hexp]
      constructor
      · intro h
        rcases List.mem_cons.mp h with rfl | h
        · exact absurd (Or.inl rfl) h5
        rcases List.mem_cons.mp h with rfl | h
        · exact absurd (Or.inr (Or.inl rfl)) h5
        rcases List.mem_cons.mp h with rfl | h
        · exact absurd (Or.inr (Or.inr rfl)) h5
        exact h
      · intro h
        exact List.mem_cons_of_mem _ (List.mem_cons_of_mem _ (List.mem_cons_of_mem _ h))
    rw [hmem, hsp]
    by_cases hrepr : (POS.getD (k % 240) (false, 0)).1 = true
    · obtain ⟨b, hb64, hoffb, hmask⟩ := POS_mask_of_repr k hrepr
      rw [seg_get_repr _ k hrepr, get?_eq_some_getD _ _ hdiv]
      simp only [Option.map_some', Option.some.injEq, Except.ok.injEq]
      rw [hmask, decide_and_two_pow]
      constructor
      · intro h
        obtain ⟨i, hi, b', hb', ht, he⟩ := (mem_decodeFrom _ 0 k hw).mp h
        obtain ⟨hge1, hklt⟩ := OFFSETS_bounds b' (List.mem_range.mpr hb')
        have hdiv' : k / 240 = i := by omega
        have hmod' : k % 240 = OFFSETS.getD b' 0 := by omega
        have hbb : b' = b := OFFSETS_inj b' b hb' hb64 (by rw [← hmod', hoffb])
        rw [hdiv', ← hbb]
        exact ht
      · intro ht
        apply (mem_decodeFrom _ 0 k hw).mpr
        refine ⟨k / 240, hdiv, b, hb64, ht, ?_⟩
        rw [hoffb]
        omega
    · simp only [Bool.not_eq_true] at hrepr
      rw [seg_get_not_repr _ k hrepr]
      simp only [Option.map_some', Option.some.injEq, Except.ok.injEq]
      constructor
      · intro h
        obtain ⟨i, hi, b', hb', ht, he⟩ := (mem_decodeFrom _ 0 k hw).mp h
        exfalso
        obtain ⟨hge1, hklt⟩ := OFFSETS_bounds b' (List.mem_range.mpr hb')
        have hmod' : k % 240 = OFFSETS.getD b' 0 := by omega
        have hps := OFFSETS_POS b' (List.mem_range.mpr hb')
        rw [← hmod'] at hps
        rw [hps] at hrepr
        simp at hrepr
      · intro h
        exact absurd h (by simp)

/-- C1: for every sieve built by the constructor and every bound B with
`B ≤ limit()`, the values yielded by `iter()` below B are exactly the
integers k < B with `is_prime(k)` true: `iter()` is strictly increasing
(no duplicates), and for each k < B membership in its output coincides
with `is_prime(k) = Ok(true)` (no omissions, nothing extra); the sequence
is 2, 3, 5 followed by the decoded store contents. -/
theorem iter_exactly_primes (limit B k : Nat)
    (hB : B ≤ sieve_limit (segmented_sieve limit)) (hk : k < B) :
    List.Pairwise (· < ·) (iterList (segmented_sieve limit))
    ∧ (k ∈ iterList (segmented_sieve limit)
        ↔ is_prime (segmented_sieve limit) k = some (Except.ok true)) :=
  ⟨(iterList_sorted_pos limit).1, iter_mem_iff limit k (by omega)⟩

set_option maxRecDepth 1000000 in
set_option maxHeartbeats 1000000 in
/-- C1 witness: the claim theorem at the sieve built by `Sieve::to_limit(0)`,
bound B = 240 = limit() and k = 239 (a prime decoded from the store). -/
theorem iter_exactly_primes_witness :
    240 ≤ sieve_limit (segmented_sieve 0) ∧ 239 < 240
    ∧ (List.Pairwise (· < ·) (iterList (segmented_sieve 0))
      ∧ (239 ∈ iterList (segmented_sieve 0)
          ↔ is_prime (segmented_sieve 0) 239 = some (Except.ok true))) :=
  ⟨by decide, by decide, iter_exactly_primes 0 240 239 (by decide) (by decide)⟩

theorem wheelIndex_lt8 (mult : Nat) : wheelIndex mult < 8 := by
  unfold wheelIndex
  split <;> omega

theorem WheelOK_new (num mult : Nat) (h : 1 ≤ num) : WheelOK (Wheel30.new num mult) := by
  refine ⟨wheelIndex_lt8 mult, rfl, ?_⟩
  intro d hd
  unfold Wheel30.new at hd
  simp only [List.mem_cons, List.not_mem_nil, or_false] at hd
  rcases hd with rfl | rfl | rfl | rfl | rfl | rfl | rfl | rfl <;> omega

theorem next_diff_WheelOK (wh : Wheel30) (h : WheelOK wh) : WheelOK wh.next_diff.2 := by
  obtain ⟨h1, h2, h3⟩ := h
  unfold Wheel30.next_diff
  by_cases hc : wh.curr_ix + 1 = 8
  · exact ⟨by simp [hc], h2, h3⟩
  · exact ⟨by simp [hc]; omega, h2, h3⟩

theorem next_diff_ge2 (wh : Wheel30) (h : WheelOK wh) : 2 ≤ wh.next_diff.1 := by
  obtain ⟨h1, h2, h3⟩ := h
  unfold Wheel30.next_diff
  simp only
  apply h3
  apply getD_mem
  rw [h2]
  by_cases hc : wh.curr_ix + 1 = 8
  · rw [if_pos hc]
    omega
  · rw [if_neg hc]
    omega

theorem advance_succ (idx : Nat) (wh : Wheel30) (n : Nat) :
    advance idx wh (n + 1) = advance (idx + wh.next_diff.1) wh.next_diff.2 n := rfl

theorem advance_WheelOK (n : Nat) :
    ∀ idx wh, WheelOK wh → WheelOK (advance idx wh n).2 := by
  induction n with
  | zero =>
    intro idx wh h
    exact h
  | succ n ih =>
    intro idx wh h
    rw [advance_succ]
    exact ih _ _ (next_diff_WheelOK wh h)

theorem advance_ge (n : Nat) :
    ∀ idx wh, WheelOK wh → idx + 2 * n ≤ (advance idx wh n).1 := by
  induction n with
  | zero =>
    intro idx wh _
    simp [advance]
  | succ n ih =>
    intro idx wh h
    rw [advance_succ]
    have h2 := next_diff_ge2 wh h
    have := ih (idx + wh.next_diff.1) wh.next_diff.2 (next_diff_WheelOK wh h)
    omega

theorem advance_add (m : Nat) :
    ∀ n idx wh, advance idx wh (m + n)
      = advance (advance idx wh m).1 (advance idx wh m).2 n := by
  induction m with
  | zero =>
    intro n idx wh
    rw [Nat.zero_add]
    rfl
  | succ m ih =>
    intro n idx wh
    have hc : m + 1 + n = (m + n) + 1 := by omega
    rw [hc, advance_succ idx wh (m + n), ih n (idx + wh.next_diff.1) wh.next_diff.2,
      advance_succ idx wh m]

theorem advance_lt_advance (idx : Nat) (wh : Wheel30) (h : WheelOK wh)
    (m n : Nat) (hmn : m < n) :
    (advance idx wh m).1 < (advance idx wh n).1 := by
  obtain ⟨k, rfl⟩ : ∃ k, n = m + (k + 1) := ⟨n - m - 1, by omega⟩
  rw [advance_add m (k + 1) idx wh]
  have hok := advance_WheelOK m idx wh h
  have := advance_ge (k + 1) (advance idx wh m).1 (advance idx wh m).2 hok
  omega

theorem advance_shift (n : Nat) :
    ∀ idx wh s, s ≤ idx →
      advance (idx - s) wh n = ((advance idx wh n).1 - s, (advance idx wh n).2) := by
  induction n with
  | zero =>
    intro idx wh s _
    rfl
  | succ n ih =>
    intro idx wh s hs
    rw [advance_succ, advance_succ]
    have harg : idx - s + wh.next_diff.1 = idx + wh.next_diff.1 - s := by omega
    rw [harg]
    exact ih (idx + wh.next_diff.1) wh.next_diff.2 s (by omega)

theorem seg_get_set_off_self (seg : List Nat) (idx : Nat) (h : idx / 240 < seg.length) :
    seg_get (set_off seg idx) idx = some false := by
  by_cases hrepr : (POS.getD (idx % 240) (false, 0)).1 = true
  · rw [set_off_repr seg idx hrepr, seg_get_set seg _ _ idx h, if_pos ⟨hrepr, rfl⟩]
    obtain ⟨b, hb, hoff, hmask⟩ := POS_mask_of_repr idx hrepr
    rw [hmask, decide_and_two_pow, Nat.testBit_and, testBit_off_mask b b hb hb]
    simp
  · simp only [Bool.not_eq_true] at hrepr
    rw [set_off_not_repr seg idx hrepr, seg_get_not_repr seg idx hrepr]

theorem seg_get_append_left (a b : List Nat) (idx : Nat) (h : idx / 240 < a.length) :
    seg_get (a ++ b) idx = seg_get a idx := by
  by_cases hrepr : (POS.getD (idx % 240) (false, 0)).1 = true
  · rw [seg_get_repr _ idx hrepr, seg_get_repr _ idx hrepr, List.get?_append h]
  · simp only [Bool.not_eq_true] at hrepr
    rw [seg_get_not_repr _ idx hrepr, seg_get_not_repr _ idx hrepr]

theorem seg_get_append_right (a b : List Nat) (idx : Nat) (h : a.length ≤ idx / 240) :
    seg_get (a ++ b) idx = seg_get b (idx - 240 * a.length) := by
  have hle : 240 * a.length ≤ idx := by omega
  have hmod : (idx - 240 * a.length) % 240 = idx % 240 := by omega
  have hdiv : (idx - 240 * a.length) / 240 = idx / 240 - a.length := by omega
  by_cases hrepr : (POS.getD (idx % 240) (false, 0)).1 = true
  · rw [seg_get_repr _ idx hrepr, seg_get_repr _ _ (by rw [hmod]; exact hrepr),
      List.get?_append_right h, hmod, hdiv]
  · simp only [Bool.not_eq_true] at hrepr
    rw [seg_get_not_repr _ idx hrepr, seg_get_not_repr _ _ (by rw [hmod]; exact hrepr)]

theorem seg_get_take (l : List Nat) (k idx : Nat) (h : idx / 240 < k) :
    seg_get (l.take k) idx = seg_get l idx := by
  by_cases hrepr : (POS.getD (idx % 240) (false, 0)).1 = true
  · rw [seg_get_repr _ idx hrepr, seg_get_repr _ idx hrepr,
      List.get?_eq_getElem?, List.get?_eq_getElem?, List.getElem?_take, if_pos h]
  · simp only [Bool.not_eq_true] at hrepr
    rw [seg_get_not_repr _ idx hrepr, seg_get_not_repr _ idx hrepr]

theorem seg_get_replicate (k idx : Nat) (h : idx / 240 < k) :
    seg_get (List.replicate k ((2 : Nat) ^ 64 - 1)) idx
      = if (POS.getD (idx % 240) (false, 0)).1 then some true else some false := by
  by_cases hrepr : (POS.getD (idx % 240) (false, 0)).1 = true
  · rw [seg_get_repr _ idx hrepr, if_pos hrepr,
      List.get?_eq_getElem?, List.getElem?_replicate, if_pos h]
    obtain ⟨b, hb, hoff, hmask⟩ := POS_mask_of_repr idx hrepr
    rw [Option.map_some', hmask, decide_and_two_pow, Nat.testBit_two_pow_sub_one]
    simp [hb]
  · simp only [Bool.not_eq_true] at hrepr
    rw [seg_get_not_repr _ idx hrepr, if_neg (by rw [hrepr]; exact Bool.false_ne_true)]

theorem initBitGet_of_ge240 (x : Nat) (h : 240 ≤ x) :
    initBitGet x = if (POS.getD (x % 240) (false, 0)).1 then some true else some false := by
  unfold initBitGet
  by_cases hrepr : (POS.getD (x % 240) (false, 0)).1 = true
  · rw [if_pos hrepr, if_pos hrepr, if_neg (by omega)]
  · simp only [Bool.not_eq_true] at hrepr
    rw [hrepr]
    rfl

theorem crossSeg_char :
    ∀ fuel size (seg : List Nat) idx wh, WheelOK wh → size ≤ idx + 2 * fuel →
      ∃ N,
        (crossSeg fuel size seg idx wh).2.1 = (advance idx wh N).1
        ∧ (crossSeg fuel size seg idx wh).2.2 = (advance idx wh N).2
        ∧ size ≤ (advance idx wh N).1
        ∧ (∀ m, m < N → (advance idx wh m).1 < size)
        ∧ (crossSeg fuel size seg idx wh).1.length = seg.length
        ∧ (∀ j, j < 240 * seg.length →
            (∃ m, (advance idx wh m).1 = j ∧ j < size) →
            seg_get (crossSeg fuel size seg idx wh).1 j = some false)
        ∧ (∀ j, ¬ (∃ m, (advance idx wh m).1 = j ∧ j < size) →
            seg_get (crossSeg fuel size seg idx wh).1 j = seg_get seg j) := by
  intro fuel
  induction fuel with
  | zero =>
    intro size seg idx wh hok hsz
    refine ⟨0, rfl, rfl, by show size ≤ idx; omega, by intro m hm; omega, rfl, ?_, ?_⟩
    · rintro j hj ⟨m, hm, hjs⟩
      have hge := advance_ge m idx wh hok
      omega
    · intro j _
      rfl
  | succ fuel ih =>
    intro size seg idx wh hok hsz
    by_cases hidx : idx < size
    · have hstep : crossSeg (fuel + 1) size seg idx wh
          = crossSeg fuel size (set_off seg idx) (idx + wh.next_diff.1) wh.next_diff.2 := by
        simp only [crossSeg]
        rw [if_pos hidx]
      have hd2 := next_diff_ge2 wh hok
      obtain ⟨N, h1, h2, h3, h4, h5, h6, h7⟩ := ih size (set_off seg idx)
        (idx + wh.next_diff.1) wh.next_diff.2 (next_diff_WheelOK wh hok) (by omega)
      refine ⟨N + 1, ?_, ?_, ?_, ?_, ?_, ?_, ?_⟩
      · rw [hstep, advance_succ]
        exact h1
      · rw [hstep, advance_succ]
        exact h2
      · rw [advance_succ]
        exact h3
      · intro m hm
        cases m with
        | zero => exact hidx
        | succ m =>
          rw [advance_succ]
          exact h4 m (by omega)
      · rw [hstep, h5, set_off_length]
      · rintro j hj ⟨m, hm, hjs⟩
        rw [hstep]
        cases m with
        | zero =>
          have hji : j = idx := hm.symm
          have hnot : ¬ (∃ m2, (advance (idx + wh.next_diff.1) wh.next_diff.2 m2).1 = j
              ∧ j < size) := by
            rintro ⟨m2, hm2, -⟩
            have hge := advance_ge m2 (idx + wh.next_diff.1) wh.next_diff.2
              (next_diff_WheelOK wh hok)
            omega
          rw [h7 j hnot, hji]
          exact seg_get_set_off_self seg idx (by omega)
        | succ m =>
          apply h6 j (by rw [set_off_length]; exact hj)
          rw [advance_succ] at hm
          exact ⟨m, hm, hjs⟩
      · intro j hnot
        have hnot2 : ¬ (∃ m, (advance (idx + wh.next_diff.1) wh.next_diff.2 m).1 = j
            ∧ j < size) := by
          rintro ⟨m, hm, hjs⟩
          rw [← advance_succ] at hm
          exact hnot ⟨m + 1, hm, hjs⟩
        have hne : j ≠ idx := by
          intro hji
          exact hnot ⟨0, hji.symm, by omega⟩
        rw [hstep, h7 j hnot2, seg_get_set_off_ne seg idx j hne]
    · have hstep : crossSeg (fuel + 1) size seg idx wh = (seg, idx, wh) := by
        simp only [crossSeg]
        rw [if_neg hidx]
      refine ⟨0, by rw [hstep]; rfl, by rw [hstep]; rfl, by show size ≤ idx; omega,
        by intro m hm; omega, by rw [hstep], ?_, ?_⟩
      · rintro j hj ⟨m, hm, hjs⟩
        have hge := advance_ge m idx wh hok
        omega
      · intro j _
        rw [hstep]

theorem crossAll_char :
    ∀ (pairs : List (Nat × Wheel30)) size (seg : List Nat),
      (∀ pr ∈ pairs, WheelOK pr.2) →
      (crossAll size seg pairs).1.length = seg.length
      ∧ (∀ j, j < 240 * seg.length →
          (∃ pr ∈ pairs, ∃ m, (advance pr.1 pr.2 m).1 = j) → j < size →
          seg_get (crossAll size seg pairs).1 j = some false)
      ∧ (∀ j, ¬ ((∃ pr ∈ pairs, ∃ m, (advance pr.1 pr.2 m).1 = j) ∧ j < size) →
          seg_get (crossAll size seg pairs).1 j = seg_get seg j)
      ∧ List.Forall₂ (fun pr pr2 =>
          ∃ N, pr2 = ((advance pr.1 pr.2 N).1 - size, (advance pr.1 pr.2 N).2)
            ∧ size ≤ (advance pr.1 pr.2 N).1
            ∧ ∀ m, m < N → (advance pr.1 pr.2 m).1 < size)
          pairs (crossAll size seg pairs).2 := by
  intro pairs
  induction pairs with
  | nil =>
    intro size seg _
    refine ⟨rfl, ?_, by intro j _; rfl, List.Forall₂.nil⟩
    rintro j hj ⟨pr, hpr, -⟩ -
    simp at hpr
  | cons pr rest ih =>
    intro size seg hok
    have hokpr := hok pr (List.mem_cons_self pr rest)
    have hokrest : ∀ q ∈ rest, WheelOK q.2 := fun q hq => hok q (List.mem_cons_of_mem pr hq)
    obtain ⟨N, c1, c2, c3, c4, c5, c6, c7⟩ :=
      crossSeg_char (size + 1) size seg pr.1 pr.2 hokpr (by omega)
    obtain ⟨i1, i2, i3, i4⟩ := ih size (crossSeg (size + 1) size seg pr.1 pr.2).1 hokrest
    have hexp1 : (crossAll size seg (pr :: rest)).1
        = (crossAll size (crossSeg (size + 1) size seg pr.1 pr.2).1 rest).1 := rfl
    have hexp2 : (crossAll size seg (pr :: rest)).2
        = ((crossSeg (size + 1) size seg pr.1 pr.2).2.1 - size,
            (crossSeg (size + 1) size seg pr.1 pr.2).2.2)
          :: (crossAll size (crossSeg (size + 1) size seg pr.1 pr.2).1 rest).2 := rfl
    refine ⟨?_, ?_, ?_, ?_⟩
    · rw [hexp1, i1, c5]
    · rintro j hj ⟨q, hq, m, hm⟩ hjs
      rw [hexp1]
      rcases List.mem_cons.mp hq with rfl | hq
      · by_cases hrest : (∃ q2 ∈ rest, ∃ m2, (advance q2.1 q2.2 m2).1 = j) ∧ j < size
        · exact i2 j (by rw [c5]; exact hj) hrest.1 hjs
        · rw [i3 j hrest]
          exact c6 j hj ⟨m, hm, hjs⟩
      · exact i2 j (by rw [c5]; exact hj) ⟨q, hq, m, hm⟩ hjs
    · intro j hnot
      rw [hexp1]
      have hnr : ¬ ((∃ q ∈ rest, ∃ m, (advance q.1 q.2 m).1 = j) ∧ j < size) := by
        rintro ⟨⟨q, hq, m, hm⟩, hjs⟩
        exact hnot ⟨⟨q, List.mem_cons_of_mem pr hq, m, hm⟩, hjs⟩
      have hnh : ¬ (∃ m, (advance pr.1 pr.2 m).1 = j ∧ j < size) := by
        rintro ⟨m, hm, hjs⟩
        exact hnot ⟨⟨pr, List.mem_cons_self pr rest, m, hm⟩, hjs⟩
      rw [i3 j hnr, c7 j hnh]
    · rw [hexp2]
      refine List.Forall₂.cons ⟨N, ?_, c3, c4⟩ i4
      rw [c1, c2]

theorem drop_eq_cons (l : List Nat) (t p : Nat) (rest : List Nat)
    (h : l.drop t = p :: rest) :
    t < l.length ∧ l.getD t 0 = p ∧ l.drop (t + 1) = rest := by
  have hlen : l.length - t = rest.length + 1 := by
    have := congrArg List.length h
    rw [List.length_drop] at this
    simpa using this
  have ht : t < l.length := by omega
  refine ⟨ht, ?_, ?_⟩
  · have hg : (l.drop t).get? 0 = some p := by rw [h]; rfl
    rw [List.get?_drop] at hg
    exact getD_of_get? l t p (by simpa using hg)
  · rw [← List.drop_drop, h, List.drop_succ_cons, List.drop_zero]

theorem pullPrimes_spec :
    ∀ fuel (sp : List Nat) st low high t,
      (∀ w ∈ sp, w < 2 ^ 64) → st.current < 2 ^ 64 → st.base = MODULUS * st.curr_idx →
      iterRest sp st = (decodeFrom sp 0).drop t →
      t ≤ (decodeFrom sp 0).length →
      (decodeFrom sp 0).length - t < fuel →
      ∃ t2, t ≤ t2 ∧ t2 ≤ (decodeFrom sp 0).length
        ∧ (pullPrimes fuel sp st low high).1
            = (((decodeFrom sp 0).drop t).take (t2 - t)).map
                (fun p => (p * p - low, Wheel30.new p p))
        ∧ iterRest sp (pullPrimes fuel sp st low high).2 = (decodeFrom sp 0).drop t2
        ∧ (pullPrimes fuel sp st low high).2.current < 2 ^ 64
        ∧ (pullPrimes fuel sp st low high).2.base
            = MODULUS * (pullPrimes fuel sp st low high).2.curr_idx
        ∧ ((t2 = (decodeFrom sp 0).length
              ∧ ∀ i, t ≤ i → i < t2 →
                (decodeFrom sp 0).getD i 0 * (decodeFrom sp 0).getD i 0 < high)
            ∨ (t < t2
              ∧ high ≤ (decodeFrom sp 0).getD (t2 - 1) 0 * (decodeFrom sp 0).getD (t2 - 1) 0
              ∧ ∀ i, t ≤ i → i < t2 - 1 →
                (decodeFrom sp 0).getD i 0 * (decodeFrom sp 0).getD i 0 < high)) := by
  intro fuel
  induction fuel with
  | zero =>
    intro sp st low high t _ _ _ _ _ hfuel
    omega
  | succ fuel ih =>
    intro sp st low high t hw hcur hbase hrest ht hfuel
    cases hnext : iterNext sp st with
    | none =>
      have hempty := (iterNext_spec sp st hw hcur hbase).1 hnext
      rw [hrest] at hempty
      have hlen : (decodeFrom sp 0).length ≤ t := by
        have := congrArg List.length hempty
        rw [List.length_drop] at this
        simp only [List.length_nil] at this
        omega
      have hstep : pullPrimes (fuel + 1) sp st low high = ([], st) := by
        simp only [pullPrimes, hnext]
      refine ⟨t, le_refl t, by omega, ?_, ?_, ?_, ?_, ?_⟩
      · rw [hstep]
        simp
      · rw [hstep]
        exact hrest
      · rw [hstep]
        exact hcur
      · rw [hstep]
        exact hbase
      · left
        refine ⟨by omega, ?_⟩
        intro i hi1 hi2
        omega
    | some pst =>
      obtain ⟨p, st3⟩ := pst
      obtain ⟨hlist, hc3, hb3, -⟩ := (iterNext_spec sp st hw hcur hbase).2 p st3 hnext
      rw [hrest] at hlist
      obtain ⟨htlen, hgetp, hdrop1⟩ := drop_eq_cons _ t p _ hlist
      have hrest3 : iterRest sp st3 = (decodeFrom sp 0).drop (t + 1) := hdrop1.symm
      by_cases hhigh : high ≤ p * p
      · have hstep : pullPrimes (fuel + 1) sp st low high
            = ([(p * p - low, Wheel30.new p p)], st3) := by
          simp only [pullPrimes, hnext]
          rw [if_pos hhigh]
        refine ⟨t + 1, by omega, by omega, ?_, ?_, ?_, ?_, ?_⟩
        · rw [hstep]
          have h1 : t + 1 - t = 1 := by omega
          rw [h1, hlist]
          rfl
        · rw [hstep]
          exact hrest3
        · rw [hstep]
          exact hc3
        · rw [hstep]
          exact hb3
        · right
          refine ⟨by omega, ?_, ?_⟩
          · have h1 : t + 1 - 1 = t := by omega
            rw [h1, hgetp]
            exact hhigh
          · intro i hi1 hi2
            omega
      · have hstep : pullPrimes (fuel + 1) sp st low high
            = ((p * p - low, Wheel30.new p p) :: (pullPrimes fuel sp st3 low high).1,
               (pullPrimes fuel sp st3 low high).2) := by
          simp only [pullPrimes, hnext]
          rw [if_neg hhigh]
        obtain ⟨t2, k1, k2, k3, k4, k5, k6, k7⟩ :=
          ih sp st3 low high (t + 1) hw hc3 hb3 hrest3 (by omega) (by omega)
        refine ⟨t2, by omega, k2, ?_, ?_, ?_, ?_, ?_⟩
        · rw [hstep]
          have h1 : t2 - t = (t2 - (t + 1)) + 1 := by omega
          rw [h1, hlist, List.take_succ_cons, List.map_cons, ← hdrop1, ← k3]
        · rw [hstep]
          exact k4
        · rw [hstep]
          exact k5
        · rw [hstep]
          exact k6
        · rcases k7 with ⟨ka, kb⟩ | ⟨ka, kb, kc⟩
          · left
            refine ⟨ka, ?_⟩
            intro i hi1 hi2
            rcases Nat.eq_or_lt_of_le hi1 with rfl | hi3
            · rw [hgetp]
              omega
            · exact kb i (by omega) hi2
          · right
            refine ⟨by omega, kb, ?_⟩
            intro i hi1 hi2
            rcases Nat.eq_or_lt_of_le hi1 with rfl | hi3
            · rw [hgetp]
              omega
            · exact kc i (by omega) hi2

theorem count_ones_le_64 (w : Nat) : count_ones w ≤ 64 := by
  unfold count_ones
  rw [count_ones_eq_filter 64 w]
  have := List.length_filter_le (fun b => w.testBit b) (List.range 64)
  simpa using this

theorem sum_le_mul_length :
    ∀ l : List Nat, (∀ x ∈ l, x ≤ 64) → l.sum ≤ 64 * l.length := by
  intro l
  induction l with
  | nil => intro _; simp
  | cons x xs ih =>
    intro h
    rw [List.sum_cons, List.length_cons]
    have h1 := h x (List.mem_cons_self x xs)
    have h2 := ih (fun y hy => h y (List.mem_cons_of_mem x hy))
    omega

theorem decodeFrom_length_le (sp : List Nat) (hw : ∀ w ∈ sp, w < 2 ^ 64) :
    (decodeFrom sp 0).length ≤ 64 * sp.length := by
  rw [decodeFrom_length sp 0 hw]
  unfold prefixPop
  rw [List.take_length]
  have h1 : ∀ x ∈ sp.map count_ones, x ≤ 64 := by
    intro x hx
    obtain ⟨w, -, rfl⟩ := List.mem_map.mp hx
    exact count_ones_le_64 w
  have := sum_le_mul_length (sp.map count_ones) h1
  rw [List.length_map] at this
  exact this

theorem mem_drop_getD (P : List Nat) (t : Nat) (x : Nat) (hx : x ∈ P.drop t) :
    ∃ i, t ≤ i ∧ i < P.length ∧ P.getD i 0 = x := by
  obtain ⟨n, hn⟩ := List.mem_iff_get?.mp hx
  rw [List.get?_drop] at hn
  have hlt : t + n < P.length := by
    by_contra hc
    rw [List.get?_eq_none.mpr (by omega)] at hn
    exact Option.noConfusion hn
  exact ⟨t + n, by omega, hlt, getD_of_get? P _ x hn⟩

theorem entries_combined (P : List Nat) (tracked : List (Nat × Wheel30))
    (low t t2 : Nat)
    (htlow : ∀ i, t ≤ i → i < P.length → low ≤ P.getD i 0 * P.getD i 0)
    (ht2 : t ≤ t2) (ht2len : t2 ≤ P.length)
    (htr : List.Forall₂ (fun p pr => EntryAt low p pr) (P.take t) tracked) :
    List.Forall₂ (fun p pr => EntryAt low p pr) (P.take t2)
      (tracked ++ ((P.drop t).take (t2 - t)).map
        (fun p => (p * p - low, Wheel30.new p p))) := by
  have hsplit : P.take t2 = P.take t ++ (P.drop t).take (t2 - t) := by
    nth_rewrite 1 [show t2 = t + (t2 - t) from by omega]
    rw [List.take_add]
  rw [hsplit]
  refine List.rel_append htr ?_
  rw [List.forall₂_map_right_iff]
  rw [List.forall₂_same]
  intro p hp
  have hp2 : p ∈ P.drop t := List.mem_of_mem_take hp
  obtain ⟨i, hi1, hi2, hi3⟩ := mem_drop_getD P t p hp2
  refine ⟨0, rfl, ?_, ?_⟩
  · show low ≤ p * p
    rw [← hi3]
    exact htlow i hi1 hi2
  · intro m hm
    omega

theorem advance_ge_self (n : Nat) : ∀ idx wh, idx ≤ (advance idx wh n).1 := by
  induction n with
  | zero =>
    intro idx wh
    exact le_refl idx
  | succ n ih =>
    intro idx wh
    rw [advance_succ]
    have := ih (idx + wh.next_diff.1) wh.next_diff.2
    omega

theorem EntryAt_advance_to (low size p : Nat) (pr pr2 : Nat × Wheel30)
    (he : EntryAt low p pr)
    (h2 : ∃ N, pr2 = ((advance pr.1 pr.2 N).1 - size, (advance pr.1 pr.2 N).2)
        ∧ size ≤ (advance pr.1 pr.2 N).1
        ∧ ∀ m, m < N → (advance pr.1 pr.2 m).1 < size) :
    EntryAt (low + size) p pr2 := by
  obtain ⟨n, hpr, hge, hlt⟩ := he
  obtain ⟨N, hpr2, hge2, hlt2⟩ := h2
  have hglobal : ∀ m, advance (p * p) (Wheel30.new p p) (n + m)
      = advance (advance (p * p) (Wheel30.new p p) n).1
          (advance (p * p) (Wheel30.new p p) n).2 m :=
    fun m => advance_add n m (p * p) (Wheel30.new p p)
  have hgs : ∀ m, (advance (p * p) (Wheel30.new p p) n).1
      ≤ (advance (p * p) (Wheel30.new p p) (n + m)).1 := by
    intro m
    rw [hglobal m]
    exact advance_ge_self m _ _
  have hlocal : ∀ m, advance pr.1 pr.2 m
      = ((advance (p * p) (Wheel30.new p p) (n + m)).1 - low,
         (advance (p * p) (Wheel30.new p p) (n + m)).2) := by
    intro m
    rw [hpr]
    show advance ((advance (p * p) (Wheel30.new p p) n).1 - low)
        (advance (p * p) (Wheel30.new p p) n).2 m = _
    rw [advance_shift m _ _ low hge, ← hglobal m]
  have hval : (advance pr.1 pr.2 N).1
      = (advance (p * p) (Wheel30.new p p) (n + N)).1 - low := by
    rw [hlocal N]
  have hlowN : low ≤ (advance (p * p) (Wheel30.new p p) (n + N)).1 :=
    le_trans hge (hgs N)
  refine ⟨n + N, ?_, by omega, ?_⟩
  · rw [hpr2, hlocal N]
    simp only
    rw [Prod.mk.injEq]
    exact ⟨by omega, rfl⟩
  · intro m hm
    by_cases hmn : m < n
    · have := hlt m hmn
      omega
    · have hm2 : m - n < N := by omega
      have hl := hlt2 (m - n) hm2
      have hv : (advance pr.1 pr.2 (m - n)).1
          = (advance (p * p) (Wheel30.new p p) (n + (m - n))).1 - low := by
        rw [hlocal (m - n)]
      have hlowm : low ≤ (advance (p * p) (Wheel30.new p p) (n + (m - n))).1 :=
        le_trans hge (hgs (m - n))
      have harg : n + (m - n) = m := by omega
      rw [harg] at hv hlowm
      omega

theorem EntryAt_hit_iff (low p : Nat) (pr : Nat × Wheel30)
    (he : EntryAt low p pr) (j : Nat) :
    (∃ m, (advance pr.1 pr.2 m).1 = j) ↔ Crossed p (low + j) := by
  obtain ⟨n, hpr, hge, hlt⟩ := he
  have hglobal : ∀ m, advance (p * p) (Wheel30.new p p) (n + m)
      = advance (advance (p * p) (Wheel30.new p p) n).1
          (advance (p * p) (Wheel30.new p p) n).2 m :=
    fun m => advance_add n m (p * p) (Wheel30.new p p)
  have hgs : ∀ m, (advance (p * p) (Wheel30.new p p) n).1
      ≤ (advance (p * p) (Wheel30.new p p) (n + m)).1 := by
    intro m
    rw [hglobal m]
    exact advance_ge_self m _ _
  have hlocal : ∀ m, advance pr.1 pr.2 m
      = ((advance (p * p) (Wheel30.new p p) (n + m)).1 - low,
         (advance (p * p) (Wheel30.new p p) (n + m)).2) := by
    intro m
    rw [hpr]
    show advance ((advance (p * p) (Wheel30.new p p) n).1 - low)
        (advance (p * p) (Wheel30.new p p) n).2 m = _
    rw [advance_shift m _ _ low hge, ← hglobal m]
  constructor
  · rintro ⟨m, hm⟩
    refine ⟨n + m, ?_⟩
    have hv : (advance pr.1 pr.2 m).1
        = (advance (p * p) (Wheel30.new p p) (n + m)).1 - low := by
      rw [hlocal m]
    have hlowm : low ≤ (advance (p * p) (Wheel30.new p p) (n + m)).1 :=
      le_trans hge (hgs m)
    omega
  · rintro ⟨n2, hn2⟩
    have hn2n : n ≤ n2 := by
      by_contra hc
      have := hlt n2 (by omega)
      omega
    refine ⟨n2 - n, ?_⟩
    have hv : (advance pr.1 pr.2 (n2 - n)).1
        = (advance (p * p) (Wheel30.new p p) (n + (n2 - n))).1 - low := by
      rw [hlocal (n2 - n)]
    have harg : n + (n2 - n) = n2 := by omega
    rw [harg] at hv
    omega

theorem Crossed_ge (p x : Nat) (h : Crossed p x) : p * p ≤ x := by
  obtain ⟨n, hn⟩ := h
  have := advance_ge_self n (p * p) (Wheel30.new p p)
  omega

theorem forall₂_mem_right {α β : Type} {R : α → β → Prop} :
    ∀ {l1 : List α} {l2 : List β}, List.Forall₂ R l1 l2 → ∀ b ∈ l2, ∃ a ∈ l1, R a b := by
  intro l1 l2 h
  induction h with
  | nil =>
    intro b hb
    simp at hb
  | cons hab _ ih =>
    intro b hb
    rcases List.mem_cons.mp hb with rfl | hb
    · exact ⟨_, List.mem_cons_self _ _, hab⟩
    · obtain ⟨a, ha, har⟩ := ih b hb
      exact ⟨a, List.mem_cons_of_mem _ ha, har⟩

theorem forall₂_comp {α β γ : Type} {R1 : α → β → Prop} {R2 : β → γ → Prop}
    {S : α → γ → Prop} (hS : ∀ a b c, R1 a b → R2 b c → S a c) :
    ∀ {l1 : List α} {l2 : List β} {l3 : List γ},
      List.Forall₂ R1 l1 l2 → List.Forall₂ R2 l2 l3 → List.Forall₂ S l1 l3 := by
  intro l1 l2 l3 h1
  induction h1 generalizing l3 with
  | nil =>
    intro h2
    cases h2
    exact List.Forall₂.nil
  | cons hab h ih =>
    intro h2
    cases h2 with
    | cons hbc h2' =>
      exact List.Forall₂.cons (hS _ _ _ hab hbc) (ih h2')

theorem forall₂_getD {α β : Type} {R : α → β → Prop} (d1 : α) (d2 : β) :
    ∀ {l1 : List α} {l2 : List β}, List.Forall₂ R l1 l2 →
      ∀ i, i < l1.length → R (l1.getD i d1) (l2.getD i d2) := by
  intro l1 l2 h
  induction h with
  | nil =>
    intro i hi
    simp at hi
  | cons hab h ih =>
    intro i hi
    cases i with
    | zero => exact hab
    | succ i =>
      simp only [List.getD_cons_succ]
      exact ih i (by simpa using hi)

theorem pairwise_lt_getD (P : List Nat) (h : List.Pairwise (· < ·) P) :
    ∀ i j, i < j → j < P.length → P.getD i 0 < P.getD j 0 := by
  induction P with
  | nil =>
    intro i j _ hj
    simp at hj
  | cons p ps ih =>
    intro i j hij hj
    rcases List.pairwise_cons.mp h with ⟨hhead, htail⟩
    cases i with
    | zero =>
      cases j with
      | zero => omega
      | succ j =>
        simp only [List.getD_cons_zero, List.getD_cons_succ]
        apply hhead
        apply getD_mem
        simpa using hj
    | succ i =>
      cases j with
      | zero => omega
      | succ j =>
        simp only [List.getD_cons_succ]
        exact ih htail i j (by omega) (by simpa using hj)

theorem segLoop_exit (segLen lim : Nat) (sp : List Nat) (fuel : Nat) (st : IterState)
    (tracked : List (Nat × Wheel30)) (low : Nat) (seg acc : List Nat)
    (h : ¬ low ≤ lim) :
    segLoop segLen lim sp fuel st tracked low seg acc = acc := by
  cases fuel with
  | zero => rfl
  | succ fuel => exact segLoop_stop segLen lim sp fuel st tracked low seg acc h

theorem getD_mem2 {α : Type} (l : List α) (d : α) (i : Nat) (h : i < l.length) :
    l.getD i d ∈ l := by
  rw [List.getD_eq_getElem l d h]
  exact List.getElem_mem h

theorem segLoop_char :
    ∀ fuel segLen lim (sp : List Nat) st (tracked : List (Nat × Wheel30)) low
        (seg acc : List Nat) t,
      1 ≤ segLen →
      lim % 240 = 0 →
      low % (MODULUS * segLen) = 0 →
      low ≤ lim →
      (lim - low) / (MODULUS * segLen) < fuel →
      (∀ w ∈ sp, w < 2 ^ 64) →
      (∀ p ∈ decodeFrom sp 0, 7 ≤ p) →
      List.Pairwise (· < ·) (decodeFrom sp 0) →
      iterRest sp st = (decodeFrom sp 0).drop t →
      st.current < 2 ^ 64 →
      st.base = MODULUS * st.curr_idx →
      t ≤ (decodeFrom sp 0).length →
      (∀ i, t ≤ i → i < (decodeFrom sp 0).length →
        low ≤ (decodeFrom sp 0).getD i 0 * (decodeFrom sp 0).getD i 0) →
      List.Forall₂ (fun p pr => EntryAt low p pr) ((decodeFrom sp 0).take t) tracked →
      seg.length = segLen →
      (∀ j, j < MODULUS * segLen → seg_get seg j = initBitGet (low + j)) →
      acc.length = low / 240 →
      (∀ x, x < low → CrossSetP sp x → seg_get acc x = some false) →
      (∀ x, x < low → ¬ CrossSetP sp x → seg_get acc x = initBitGet x) →
      (segLoop segLen lim sp fuel st tracked low seg acc).length = lim / 240
      ∧ (∀ x, x < lim → CrossSetP sp x →
          seg_get (segLoop segLen lim sp fuel st tracked low seg acc) x = some false)
      ∧ (∀ x, x < lim → ¬ CrossSetP sp x →
          seg_get (segLoop segLen lim sp fuel st tracked low seg acc) x = initBitGet x) := by
  intro fuel
  induction fuel with
  | zero =>
    intro segLen lim sp st tracked low seg acc t _ _ _ _ hfuel
    exact absurd hfuel (Nat.not_lt_zero _)
  | succ fuel ih =>
    intro segLen lim sp st tracked low seg acc t hseg1 hlim240 hlowmod hlowle hfuel hspw hP7
      hPsort hrest hcur hbase ht htlow htr hseglen hsegget hacclen hacchit haccmiss
    have hM : 0 < MODULUS * segLen := by
      unfold MODULUS
      omega
    have hM240 : (MODULUS * segLen) % 240 = 0 := by
      unfold MODULUS
      rw [Nat.mul_mod_right]
    have h240M : 240 ≤ MODULUS * segLen := by
      unfold MODULUS
      omega
    have h240low : low % 240 = 0 := by
      obtain ⟨k, hk⟩ := Nat.dvd_of_mod_eq_zero hlowmod
      rw [hk]
      have h2 : MODULUS * segLen * k = 240 * (segLen * k) := by
        unfold MODULUS
        ring
      rw [h2]
      exact Nat.mul_mod_right _ _
    rw [segLoop_step segLen lim sp fuel st tracked low seg acc hlowle]
    set high := min (low + MODULUS * segLen) lim with hhighdef
    set size := high - low with hsizedef
    have hsizele : size ≤ MODULUS * segLen := by omega
    have hsize240 : size % 240 = 0 := by
      rcases le_or_lt (low + MODULUS * segLen) lim with hc | hc
      · omega
      · omega
    have hlowsize : low + size = high := by omega
    have hhighle : high ≤ lim := by omega
    have hfuelpull : (decodeFrom sp 0).length - t < 64 * sp.length + 1 := by
      have := decodeFrom_length_le sp hspw
      omega
    obtain ⟨t2, q1, q2, q3, q4, q5, q6, q7⟩ :=
      pullPrimes_spec (64 * sp.length + 1) sp st low high t hspw hcur hbase hrest ht hfuelpull
    set pulled := pullPrimes (64 * sp.length + 1) sp st low high with hpulldef
    have hq7' : ∀ i, t2 ≤ i → i < (decodeFrom sp 0).length →
        high ≤ (decodeFrom sp 0).getD i 0 * (decodeFrom sp 0).getD i 0 := by
      intro i hi1 hi2
      rcases q7 with ⟨hq, -⟩ | ⟨hq1, hq2, -⟩
      · omega
      · have hple : (decodeFrom sp 0).getD (t2 - 1) 0 ≤ (decodeFrom sp 0).getD i 0 := by
          rcases Nat.lt_or_ge (t2 - 1) i with hlt2 | hge2
          · have := pairwise_lt_getD (decodeFrom sp 0) hPsort (t2 - 1) i hlt2 hi2
            omega
          · have h3 : i = t2 - 1 := by omega
            rw [h3]
        exact le_trans hq2 (Nat.mul_le_mul hple hple)
    have htr2 := entries_combined (decodeFrom sp 0) tracked low t t2 htlow q1 q2 htr
    rw [← q3] at htr2
    set pairs := tracked ++ pulled.1 with hpairsdef
    have hP1' : ∀ pp ∈ (decodeFrom sp 0).take t2, 1 ≤ pp := by
      intro pp hpp
      have := hP7 pp (List.mem_of_mem_take hpp)
      omega
    have hwheels : ∀ pr ∈ pairs, WheelOK pr.2 := by
      intro pr hpr
      obtain ⟨pp, hppmem, hppR⟩ := forall₂_mem_right htr2 pr hpr
      obtain ⟨n, hprEq, -, -⟩ := hppR
      rw [hprEq]
      exact advance_WheelOK n _ _ (WheelOK_new pp pp (hP1' pp hppmem))
    obtain ⟨r1len, r1hit, r1miss, r1pairs⟩ := crossAll_char pairs size seg hwheels
    set crossed := crossAll size seg pairs with hcrossdef
    set chunk := (if size < MODULUS * segLen then crossed.1.take (size / MODULUS)
      else crossed.1) with hchunkdef
    have htakelen : ((decodeFrom sp 0).take t2).length = t2 := by
      rw [List.length_take]
      omega
    have hpairslen : pairs.length = t2 := by
      rw [← List.Forall₂.length_eq htr2, htakelen]
    have hhiteq : ∀ j, j < size →
        ((∃ pr ∈ pairs, ∃ m, (advance pr.1 pr.2 m).1 = j)
          ↔ CrossSetP sp (low + j)) := by
      intro j hj
      constructor
      · rintro ⟨pr, hprmem, hm⟩
        obtain ⟨pp, hppmem, hppR⟩ := forall₂_mem_right htr2 pr hprmem
        refine ⟨pp, List.mem_of_mem_take hppmem, ?_⟩
        exact (EntryAt_hit_iff low pp pr hppR j).mp hm
      · rintro ⟨pp, hppmem, hcr⟩
        obtain ⟨i, -, hilen, higet⟩ := mem_drop_getD (decodeFrom sp 0) 0 pp
          (by simpa using hppmem)
        by_cases hit2 : i < t2
        · have hg1 : ((decodeFrom sp 0).take t2).get? i = some pp := by
            rw [List.get?_eq_getElem?, List.getElem?_take, if_pos hit2,
              ← List.get?_eq_getElem?]
            rw [get?_eq_some_getD _ i hilen, higet]
          have hgtake : ((decodeFrom sp 0).take t2).getD i 0 = pp :=
            getD_of_get? _ _ _ hg1
          have hRi := forall₂_getD 0 ((0, ⟨0, []⟩) : Nat × Wheel30) htr2 i
            (by rw [htakelen]; exact hit2)
          rw [hgtake] at hRi
          refine ⟨pairs.getD i (0, ⟨0, []⟩), getD_mem2 pairs _ i (by omega), ?_⟩
          exact (EntryAt_hit_iff low pp _ hRi j).mpr hcr
        · exfalso
          have hx := Crossed_ge pp (low + j) hcr
          have hsq := hq7' i (by omega) hilen
          rw [higet] at hsq
          omega
    have hchunklen : chunk.length = size / 240 := by
      rw [hchunkdef]
      split
      · next hcond =>
        rw [List.length_take, r1len, hseglen]
        unfold MODULUS at hsizele hcond ⊢
        omega
      · next hcond =>
        rw [r1len, hseglen]
        unfold MODULUS at hsizele hcond
        omega
    have hacc2len : (acc ++ chunk).length = (low + size) / 240 := by
      rw [List.length_append, hacclen, hchunklen]
      omega
    have hacc2get : ∀ x, x < low + size →
        (CrossSetP sp x → seg_get (acc ++ chunk) x = some false)
        ∧ (¬ CrossSetP sp x → seg_get (acc ++ chunk) x = initBitGet x) := by
      intro x hx
      by_cases hxlow : x < low
      · have hgx : seg_get (acc ++ chunk) x = seg_get acc x := by
          apply seg_get_append_left
          rw [hacclen]
          omega
        exact ⟨fun hc => by rw [hgx]; exact hacchit x hxlow hc,
               fun hc => by rw [hgx]; exact haccmiss x hxlow hc⟩
      · have hjsize : x - low < size := by omega
        have hgx : seg_get (acc ++ chunk) x = seg_get chunk (x - low) := by
          rw [seg_get_append_right acc chunk x (by rw [hacclen]; omega), hacclen]
          have h1 : 240 * (low / 240) = low := by omega
          rw [h1]
        have hgc : seg_get chunk (x - low) = seg_get crossed.1 (x - low) := by
          rw [hchunkdef]
          split
          · apply seg_get_take
            show (x - low) / 240 < size / MODULUS
            unfold MODULUS
            omega
          · rfl
        have hjbound : x - low < 240 * seg.length := by
          rw [hseglen]
          unfold MODULUS at hsizele
          omega
        have hxeq : low + (x - low) = x := by omega
        constructor
        · intro hc
          rw [hgx, hgc]
          refine r1hit (x - low) hjbound ?_ hjsize
          apply (hhiteq (x - low) hjsize).mpr
          rw [hxeq]
          exact hc
        · intro hc
          rw [hgx, hgc, r1miss (x - low) ?_]
          · rw [hsegget (x - low) (by omega), hxeq]
          · rintro ⟨hhit, -⟩
            apply hc
            have := (hhiteq (x - low) hjsize).mp hhit
            rw [hxeq] at this
            exact this
    rcases le_or_lt (low + MODULUS * segLen) lim with hcont | hstop
    · have hsizeM : size = MODULUS * segLen := by omega
      have hfuel2 : (lim - (low + MODULUS * segLen)) / (MODULUS * segLen) < fuel := by
        have h1 : lim - low = (lim - (low + MODULUS * segLen)) + MODULUS * segLen := by
          omega
        rw [h1, Nat.add_div_right _ hM] at hfuel
        omega
      have htr3 : List.Forall₂ (fun p pr => EntryAt (low + MODULUS * segLen) p pr)
          ((decodeFrom sp 0).take t2) crossed.2 := by
        have hcomp := forall₂_comp
          (fun a b c h1 h2 => EntryAt_advance_to low size a b c h1 h2) htr2 r1pairs
        rw [hsizeM] at hcomp
        exact hcomp
      have hsegget2 : ∀ j, j < MODULUS * segLen →
          seg_get (List.replicate segLen ((2 : Nat) ^ 64 - 1)) j
            = initBitGet (low + MODULUS * segLen + j) := by
        intro j hj
        rw [seg_get_replicate segLen j (by unfold MODULUS at hj; omega)]
        rw [initBitGet_of_ge240 _ (by omega)]
        have hres : (low + MODULUS * segLen + j) % 240 = j % 240 := by omega
        rw [hres]
      have htlow2 : ∀ i, t2 ≤ i → i < (decodeFrom sp 0).length →
          low + MODULUS * segLen ≤ (decodeFrom sp 0).getD i 0 * (decodeFrom sp 0).getD i 0 := by
        intro i hi1 hi2
        have := hq7' i hi1 hi2
        omega
      exact ih segLen lim sp pulled.2 crossed.2 (low + MODULUS * segLen)
        (List.replicate segLen ((2 : Nat) ^ 64 - 1)) (acc ++ chunk) t2 hseg1 hlim240
        (by rw [Nat.add_mod_right]; exact hlowmod) hcont hfuel2 hspw hP7 hPsort q4 q5 q6 q2
        htlow2 htr3 (List.length_replicate segLen _) hsegget2
        (by rw [hacc2len, hsizeM])
        (fun x hxlt hc => (hacc2get x (by omega)).1 hc)
        (fun x hxlt hc => (hacc2get x (by omega)).2 hc)
    · have hhigheq : low + size = lim := by omega
      rw [segLoop_exit segLen lim sp fuel pulled.2 crossed.2 (low + MODULUS * segLen)
        (List.replicate segLen ((2 : Nat) ^ 64 - 1)) (acc ++ chunk) (by omega)]
      refine ⟨?_, ?_, ?_⟩
      · rw [hacc2len, hhigheq]
      · intro x hxlim hc
        exact (hacc2get x (by omega)).1 hc
      · intro x hxlim hc
        exact (hacc2get x (by omega)).2 hc

theorem OFFSETS_eq_one_iff : ∀ b ∈ List.range 64, (OFFSETS.getD b 0 = 1 ↔ b = 0) := by
  decide

theorem init_buffer_get (segLen : Nat) (h1 : 1 ≤ segLen) :
    ∀ j, j < MODULUS * segLen →
      seg_get ((List.replicate segLen ((2 : Nat) ^ 64 - 1)).set 0 ((2 ^ 64 - 1) ^^^ 1)) j
        = initBitGet (0 + j) := by
  intro j hj
  unfold MODULUS at hj
  rw [Nat.zero_add]
  have hlen : ((List.replicate segLen ((2 : Nat) ^ 64 - 1)).set 0
      ((2 ^ 64 - 1) ^^^ 1)).length = segLen := by
    rw [List.length_set, List.length_replicate]
  by_cases hrepr : (POS.getD (j % 240) (false, 0)).1 = true
  · obtain ⟨b, hb, hoff, hmask⟩ := POS_mask_of_repr j hrepr
    rw [seg_get_repr _ j hrepr]
    unfold initBitGet
    rw [if_pos hrepr, hmask]
    by_cases hw0 : j / 240 = 0
    · have hjs : j < 240 := by omega
      have hg : ((List.replicate segLen ((2 : Nat) ^ 64 - 1)).set 0
          ((2 ^ 64 - 1) ^^^ 1)).get? (j / 240) = some ((2 ^ 64 - 1) ^^^ 1) := by
        rw [hw0]
        exact List.get?_set_eq_of_lt _ (by rw [List.length_replicate]; omega)
      rw [hg, Option.map_some', decide_and_two_pow]
      have hone : ((2 : Nat) ^ 64 - 1) ^^^ 1 = (2 ^ 64 - 1) ^^^ 2 ^ 0 := rfl
      rw [hone, testBit_off_mask 0 b (by omega) hb]
      have hjoff : j = OFFSETS.getD b 0 := by omega
      by_cases hb0 : b = 0
      · have hj1 : j = 1 := by
          rw [hjoff, hb0]
          decide
        rw [if_pos hj1, hb0]
        simp
      · have hj1 : j ≠ 1 := by
          rw [hjoff]
          intro hc
          exact hb0 ((OFFSETS_eq_one_iff b (List.mem_range.mpr hb)).mp hc)
        rw [if_neg hj1]
        simp [Ne.symm hb0]
    · have hg : ((List.replicate segLen ((2 : Nat) ^ 64 - 1)).set 0
          ((2 ^ 64 - 1) ^^^ 1)).get? (j / 240) = some ((2 : Nat) ^ 64 - 1) := by
        rw [List.get?_eq_getElem?, List.getElem?_set_ne (by omega)]
        rw [List.getElem?_replicate, if_pos (by omega)]
      rw [hg, Option.map_some', decide_and_two_pow, Nat.testBit_two_pow_sub_one]
      have hj1 : j ≠ 1 := by omega
      rw [if_neg hj1]
      simp [hb]
  · simp only [Bool.not_eq_true] at hrepr
    rw [seg_get_not_repr _ j hrepr]
    unfold initBitGet
    rw [hrepr]
    rfl

theorem segmentedSieveWith_char (segLen limit : Nat) (h1 : 1 ≤ segLen) :
    (segmentedSieveWith segLen limit).length
      = (limit + MODULUS - limit % MODULUS) / 240
    ∧ (∀ w ∈ segmentedSieveWith segLen limit, w < 2 ^ 64)
    ∧ (∀ x, x < limit + MODULUS - limit % MODULUS →
        (CrossSetP (small_primes (limit + MODULUS - limit % MODULUS)) x →
          seg_get (segmentedSieveWith segLen limit) x = some false)
        ∧ (¬ CrossSetP (small_primes (limit + MODULUS - limit % MODULUS)) x →
          seg_get (segmentedSieveWith segLen limit) x = initBitGet x)) := by
  obtain ⟨hspw, hsplen, hspbit0⟩ := small_primes_inv (limit + MODULUS - limit % MODULUS)
  have hP7 := decodeFrom_ge7 (small_primes (limit + MODULUS - limit % MODULUS)) hspw hspbit0
  obtain ⟨hPsort, -⟩ := decodeFrom_sorted_bounded
    (small_primes (limit + MODULUS - limit % MODULUS)) 0 hspw
  have hlim240 : (limit + MODULUS - limit % MODULUS) % 240 = 0 := by
    unfold MODULUS
    omega
  have hwords : ∀ w ∈ segmentedSieveWith segLen limit, w < 2 ^ 64 := by
    unfold segmentedSieveWith
    simp only
    apply segLoop_words
    · intro w hw
      simp at hw
    · intro w hw
      rcases List.mem_or_eq_of_mem_set hw with hw | hw
      · rw [List.eq_of_mem_replicate hw]
        norm_num
      · subst hw
        decide
  have hchar := segLoop_char (((limit + MODULUS - limit % MODULUS)) / (MODULUS * segLen) + 2)
    segLen (limit + MODULUS - limit % MODULUS)
    (small_primes (limit + MODULUS - limit % MODULUS))
    (initState (small_primes (limit + MODULUS - limit % MODULUS))) [] 0
    ((List.replicate segLen ((2 : Nat) ^ 64 - 1)).set 0 ((2 ^ 64 - 1) ^^^ 1)) [] 0
    h1 hlim240 (Nat.zero_mod _) (Nat.zero_le _) (by rw [Nat.sub_zero]; omega) hspw hP7 hPsort
    (by rw [iterRest_init, List.drop_zero])
    (headD_zero_lt _ hspw) (by simp [initState]) (Nat.zero_le _)
    (fun i _ _ => Nat.zero_le _)
    (by rw [List.take_zero]; exact List.Forall₂.nil)
    (by rw [List.length_set, List.length_replicate])
    (init_buffer_get segLen h1)
    rfl
    (fun x hx => absurd hx (Nat.not_lt_zero x))
    (fun x hx => absurd hx (Nat.not_lt_zero x))
  obtain ⟨c1, c2, c3⟩ := hchar
  refine ⟨?_, hwords, ?_⟩
  · show (segmentedSieveWith segLen limit).length = _
    unfold segmentedSieveWith
    simp only
    exact c1
  · intro x hx
    constructor
    · intro hc
      show seg_get (segmentedSieveWith segLen limit) x = some false
      unfold segmentedSieveWith
      simp only
      exact c2 x hx hc
    · intro hc
      show seg_get (segmentedSieveWith segLen limit) x = initBitGet x
      unfold segmentedSieveWith
      simp only
      exact c3 x hx hc

theorem store_eq_of_seg_get (S1 S2 : List Nat) (hlen : S1.length = S2.length)
    (hw1 : ∀ w ∈ S1, w < 2 ^ 64) (hw2 : ∀ w ∈ S2, w < 2 ^ 64)
    (hget : ∀ idx, idx < 240 * S1.length → seg_get S1 idx = seg_get S2 idx) :
    S1 = S2 := by
  apply List.ext_get?
  intro i
  by_cases hi : i < S1.length
  · rw [get?_eq_some_getD S1 i hi, get?_eq_some_getD S2 i (by omega)]
    have hww : S1.getD i 0 = S2.getD i 0 := by
      apply Nat.eq_of_testBit_eq
      intro b
      by_cases hb : b < 64
      · obtain ⟨hge1, hlt240⟩ := OFFSETS_bounds b (List.mem_range.mpr hb)
        have hOP := OFFSETS_POS b (List.mem_range.mpr hb)
        have hmod : (240 * i + OFFSETS.getD b 0) % 240 = OFFSETS.getD b 0 := by omega
        have hdiv : (240 * i + OFFSETS.getD b 0) / 240 = i := by omega
        have h := hget (240 * i + OFFSETS.getD b 0) (by omega)
        rw [seg_get_repr S1 _ (by rw [hmod, hOP]),
          seg_get_repr S2 _ (by rw [hmod, hOP]), hmod, hOP, hdiv,
          get?_eq_some_getD S1 i hi, get?_eq_some_getD S2 i (by omega),
          Option.map_some', Option.map_some', Option.some.injEq] at h
        simp only at h
        rw [decide_and_two_pow, decide_and_two_pow] at h
        exact h
      · have hb1 : S1.getD i 0 < 2 ^ b := by
          have := hw1 _ (getD_mem S1 i hi)
          calc S1.getD i 0 < 2 ^ 64 := this
          _ ≤ 2 ^ b := Nat.pow_le_pow_right (by omega) (by omega)
        have hb2 : S2.getD i 0 < 2 ^ b := by
          have := hw2 _ (getD_mem S2 i (by omega))
          calc S2.getD i 0 < 2 ^ 64 := this
          _ ≤ 2 ^ b := Nat.pow_le_pow_right (by omega) (by omega)
        rw [Nat.testBit_lt_two_pow hb1, Nat.testBit_lt_two_pow hb2]
    rw [hww]
  · rw [List.get?_eq_none.mpr (by omega), List.get?_eq_none.mpr (by omega)]

/-- C2: sieving to any limit with the fixed segment length 32768 words
produces a bit-for-bit identical packed store to sieving the same rounded
range as one single large segment (one segment of `lim / 240` words
covering the whole range): no composite near a segment boundary is left
uncrossed and no representable prime is cleared by the chunking. -/
theorem segment_chunking_equiv (limit : Nat) :
    segmented_sieve limit
      = segmentedSieveWith ((limit + MODULUS - limit % MODULUS) / MODULUS) limit := by
  have hmod240 : limit % MODULUS < 240 := by
    unfold MODULUS
    omega
  have hseg2 : 1 ≤ (limit + MODULUS - limit % MODULUS) / MODULUS := by
    unfold MODULUS at *
    omega
  obtain ⟨l1, w1, g1⟩ := segmentedSieveWith_char 32768 limit (by norm_num)
  obtain ⟨l2, w2, g2⟩ := segmentedSieveWith_char
    ((limit + MODULUS - limit % MODULUS) / MODULUS) limit hseg2
  show segmentedSieveWith 32768 limit = _
  apply store_eq_of_seg_get _ _ (by rw [l1, l2]) w1 w2
  intro idx hidx
  have hlim240 : (limit + MODULUS - limit % MODULUS) % 240 = 0 := by
    unfold MODULUS
    omega
  have hidxlim : idx < limit + MODULUS - limit % MODULUS := by
    rw [l1] at hidx
    omega
  by_cases hc : CrossSetP (small_primes (limit + MODULUS - limit % MODULUS)) idx
  · rw [(g1 idx hidxlim).1 hc, (g2 idx hidxlim).1 hc]
  · rw [(g1 idx hidxlim).2 hc, (g2 idx hidxlim).2 hc]

end Primesieve
